import Mathlib

/-!
# LibSingleInstance: the POSIX implementation (`src/singleinstance-posix.cpp`)

A shallow embedding of the argument codec (`sendArgs`, `parseArgs`), the frame
writer (`sendBuf`), the receiver (`recvIter`, `checkFull`) and the public
operations (`singleInstanceCreate`, `singleInstanceCheck`, `singleInstancePop`,
`singleInstanceStopWait`, `singleInstanceDestroy`).

Conventions of the embedding.

* A byte (`char`) is a `UInt8`; a `uint32_t` is a natural number reduced modulo
  `2^32` wherever the C++ code stores one; `sizeof(uint32_t)` is `4`.
* "Native byte order" is little-endian (`storeU32`, `loadU32`).
* A C string argument is the list of its bytes before the terminator; its memory
  is that list followed by a NUL byte.
* `std::map<uint32_t, pair<uint32_t, vector<char>>>` is a function from keys to
  optional values: the code only inserts, looks up and erases by key.
* The FIFO and the control pipe are kernel objects: the embedding keeps their
  unread content next to the handle, together with the input that arrives later.
* A call that never returns (it waits for input that never comes) and a call
  whose behaviour the C++ standard leaves undefined are results of their own
  (`Fault`).
-/

namespace SingleInstance

/-! ## Machine words -/

/-- Truncation to `uint32_t`. -/
def u32 (n : Nat) : Nat := n % 4294967296

/-- The four bytes of a `uint32_t` in memory (little-endian), as read by
`((char *)&arglen)[i]` and written by `*(uint32_t *)sndbuf = ...`. -/
def storeU32 (n : Nat) : List UInt8 :=
  [UInt8.ofNat (n % 256), UInt8.ofNat (n / 256 % 256),
   UInt8.ofNat (n / 65536 % 256), UInt8.ofNat (n / 16777216 % 256)]

/-- The `uint32_t` stored in (the first four of) the given bytes, as read by
`*(uint32_t *)&data[i]`; absent bytes count as zero. -/
def loadU32 (bs : List UInt8) : Nat :=
  (bs.getD 0 0).toNat + 256 * (bs.getD 1 0).toNat
    + 65536 * (bs.getD 2 0).toNat + 16777216 * (bs.getD 3 0).toNat

/-- The effect of `memcpy(dst + off, src, src.length)` (and of a `read` that
stores its bytes at `dst + off`) on the content of `dst`. -/
def writeAt (dst : List UInt8) (off : Nat) (src : List UInt8) : List UInt8 :=
  dst.take off ++ src ++ dst.drop (off + src.length)

/-- Ways in which a call fails to return a value. -/
inductive Fault where
  /-- The call waits forever: nothing more arrives on the descriptors it waits for. -/
  | blocked
  /-- Undefined behaviour: a read outside a buffer or of an uninitialised value. -/
  | undefined
  /-- The iteration bound of the embedding was used up. -/
  | fuel
  deriving DecidableEq, Repr

/-! ## Sender side: `sendBuf` and `sendArgs` -/

/-- The loop `while(len) { ... }` of `sendBuf`: every round copies the next
`min(len, 508)` bytes behind the sender id of the (reused) `sndbuf` and writes
the 512 bytes. The result is the list of frames written. -/
def sendBufLoop : Nat → List UInt8 → List UInt8 → Nat → List (List UInt8)
  | 0, _, _, _ => []
  | fuel + 1, sndbuf, buf, len =>
    if len = 0 then []
    else
      let sndlen := if len < 512 - 4 then len else 512 - 4
      let sndbuf := writeAt sndbuf 4 (buf.take sndlen)
      sndbuf :: sendBufLoop fuel sndbuf (buf.drop sndlen) (len - sndlen)

/-- The function `sendBuf(fd, buf, len)` run by the process `pid`: the list of
512-byte blocks it passes to `write`, in order. -/
def sendBuf (pid : Nat) (buf : List UInt8) (len : Nat) : List (List UInt8) :=
  let sndbuf := List.replicate 512 (0 : UInt8)
  let sndbuf := writeAt sndbuf 0 (storeU32 pid)
  let sndbuf := writeAt sndbuf 4 (storeU32 len)
  let sndlen := if len < 512 - 2 * 4 then len else 512 - 2 * 4
  let sndbuf := writeAt sndbuf (2 * 4) (buf.take sndlen)
  sndbuf :: sendBufLoop (len - sndlen) sndbuf (buf.drop sndlen) (len - sndlen)

/-- The function `strlen`: the number of bytes before the first NUL. -/
def strlen (s : List UInt8) : Nat := (s.takeWhile (fun c => c != 0)).length

/-- The `vector<char> buf` built by the loop of `sendArgs`: per argument the four
bytes of `arglen = strlen + 1` and then `arglen` bytes of the argument's memory. -/
def sendArgsBuf : List (List UInt8) → List UInt8
  | [] => []
  | s :: rest =>
    let arglen := u32 (strlen s + 1)
    storeU32 arglen ++ (s ++ [0]).take arglen ++ sendArgsBuf rest

/-- The function `sendArgs(fd, argc, argv)` run by the process `pid`: the frames
written to the FIFO. The length handed to `sendBuf` is `buf.size()` converted to
`uint32_t`. -/
def sendArgs (pid : Nat) (argv : List (List UInt8)) : List (List UInt8) :=
  sendBuf pid (sendArgsBuf argv) (u32 (sendArgsBuf argv).length)

/-! ## Receiver side: `parseArgs` -/

/-- The loop of `parseArgs`, with the index `i` and the vector `args` as loop
state; it returns both. Reading the length or the argument bytes past the end of
`data` is undefined behaviour. -/
def parseArgsLoop : Nat → List UInt8 → Nat → List (List UInt8) →
    Except Fault (Nat × List (List UInt8))
  | 0, _, _, _ => .error .fuel
  | fuel + 1, data, i, args =>
    if i < data.length then
      if data.length < i + 4 then .error .undefined
      else
        let len := loadU32 ((data.drop i).take 4)
        let i := i + 4
        if data.length < i + len then .error .undefined
        else parseArgsLoop fuel data (i + len) (args ++ [(data.drop i).take len])
    else .ok (i, args)

/-- The function `parseArgs(data)`: the argument buffers, in order. Every round of
the loop advances `i` by at least four, so `data.length + 1` rounds are enough. -/
def parseArgs (data : List UInt8) : Except Fault (List (List UInt8)) :=
  match parseArgsLoop (data.length + 1) data 0 [] with
  | .error e => .error e
  | .ok (_, args) => .ok args

/-! ## The handle and the descriptors it reads -/

/-- The type `pidbufmap`: sender id to (bytes received so far, backing storage). -/
abbrev pidbufmap := Nat → Option (Nat × List UInt8)

/-- The map without entries. -/
def pidbufmap.empty : pidbufmap := fun _ => none

/-- The map after storing `v` under `k`. -/
def pidbufmap.set (m : pidbufmap) (k : Nat) (v : Nat × List UInt8) : pidbufmap :=
  fun j => if j = k then some v else m j

/-- The map after `erase` of the entry under `k`. -/
def pidbufmap.erase (m : pidbufmap) (k : Nat) : pidbufmap :=
  fun j => if j = k then none else m j

/-- Something that happens while the receiver is blocked in `select` or `read`:
a writer's bytes arrive on the FIFO, or `singleInstanceStopWait` is called from
another thread or a signal handler. -/
inductive Event where
  | data (bytes : List UInt8)
  | stop
  deriving DecidableEq, Repr

/-- The fields of `struct SingleInstanceHandle` the receiver works on, with the
state of its descriptors: `buffers` and `pending` are the fields of that name;
`avail` holds the unread bytes of the FIFO behind `pfd`, `ctrl` the number of
unread bytes of the pipe `ctrlFifo`, and `future` the events that happen, one at
a time and in this order, whenever the receiver blocks. -/
structure SingleInstanceHandle where
  buffers : pidbufmap
  pending : List (List (List UInt8))
  avail : List UInt8
  ctrl : Nat
  future : List Event

/-- A blocked `read` on the FIFO waits for the next bytes; calls of
`singleInstanceStopWait` in the meantime only fill the control pipe. -/
def awaitRead : List Event → Nat → Option (List UInt8 × List Event × Nat)
  | [], _ => none
  | Event.stop :: es, c => awaitRead es (c + 1)
  | Event.data b :: es, c => if b = [] then awaitRead es c else some (b, es, c)

/-- The call `read(handle->pfd, dst, n)` on the blocking FIFO: it returns at once
for `n = 0`, otherwise as soon as at least one byte is there, with at most `n`
bytes. -/
def readPipe (h : SingleInstanceHandle) (n : Nat) :
    Except Fault (List UInt8 × SingleInstanceHandle) :=
  if n = 0 then .ok ([], h)
  else
    match h.avail with
    | _ :: _ => .ok (h.avail.take n, { h with avail := h.avail.drop n })
    | [] =>
      match awaitRead h.future h.ctrl with
      | none => .error .blocked
      | some (b, es, c) => .ok (b.take n, { h with avail := b.drop n, future := es, ctrl := c })

/-- A blocked `select` returns with the first event: a control byte or data. -/
def awaitSelect : List Event → Option (Nat × List UInt8 × List Event)
  | [] => none
  | Event.stop :: es => some (1, [], es)
  | Event.data b :: es => if b = [] then awaitSelect es else some (0, b, es)

/-- The call `select` (or `poll`) of `recvIter` on both descriptors: with something
to read it returns at once; with nothing to read it returns at once for `wait = 0`
and blocks until the next event otherwise. The descriptors ready on return are
those with unread content in the state returned. -/
def selectFds (h : SingleInstanceHandle) (wait : Bool) : Except Fault SingleInstanceHandle :=
  if h.ctrl ≠ 0 ∨ h.avail ≠ [] then .ok h
  else if wait = false then .ok h
  else
    match awaitSelect h.future with
    | none => .error .blocked
    | some (c, b, es) => .ok { h with ctrl := c, avail := b, future := es }

/-- The function `checkFull(handle, iter)` for the entry `(first, vec)` under `pid`,
as called at the end of `recvIter`, which returns its negation: an entry that
is not full is stored and `recvIter` returns 1; a full one is parsed, queued and
erased and `recvIter` returns 0. -/
def checkFull (h : SingleInstanceHandle) (pid first : Nat) (vec : List UInt8) :
    Except Fault (Int × SingleInstanceHandle) :=
  if first ≠ vec.length then .ok (1, { h with buffers := h.buffers.set pid (first, vec) })
  else
    match parseArgs vec with
    | .error e => .error e
    | .ok args =>
      .ok (0, { h with pending := h.pending ++ [args], buffers := h.buffers.erase pid })

/-- The lines of `recvIter` from `uint32_t remaining = ...` to the end, for the
entry `(first, vec)` of the sender `pid` and the `toRead` bytes of the frame
not read so far. -/
def recvPayload (h : SingleInstanceHandle) (pid first : Nat) (vec : List UInt8) (toRead : Nat) :
    Except Fault (Int × SingleInstanceHandle) :=
  let remaining := u32 (vec.length + 4294967296 - first)
  let useful := if remaining < toRead then remaining else toRead
  let trash := if remaining < toRead then toRead - remaining else 0
  match readPipe h useful with
  | .error e => .error e
  | .ok (got, h2) =>
    let vec := writeAt vec first got
    if got.length ≠ useful then
      .ok (0, { h2 with buffers := h2.buffers.set pid (first, vec) })
    else
      match (if trash ≠ 0 then readPipe h2 trash else .ok ([], h2)) with
      | .error e => .error e
      | .ok (_, h3) => checkFull h3 pid (u32 (first + got.length)) vec

/-- The lines of `recvIter` after the sender id `pid` was read: the entry of
`pid` is looked up; a sender without entry gets one, sized by the length read
from the next four bytes (a length read in part is an uninitialised value). -/
def recvBody (h : SingleInstanceHandle) (pid : Nat) : Except Fault (Int × SingleInstanceHandle) :=
  match h.buffers pid with
  | some (first, vec) => recvPayload h pid first vec (512 - 4)
  | none =>
    match readPipe h 4 with
    | .error e => .error e
    | .ok (lenBytes, h1) =>
      if lenBytes.length ≠ 4 then .error .undefined
      else recvPayload h1 pid 0 (List.replicate (loadU32 lenBytes) 0) (512 - 4 - 4)

/-- The function `recvIter(handle, wait)`: the value returned and the handle
afterwards. A short read of the sender id closes and reopens the FIFO, whose
unread content is empty at that point. -/
def recvIter (h : SingleInstanceHandle) (wait : Bool) : Except Fault (Int × SingleInstanceHandle) :=
  match selectFds h wait with
  | .error e => .error e
  | .ok h0 =>
    if h0.ctrl ≠ 0 then .ok (-1, { h0 with ctrl := h0.ctrl - 1 })
    else if h0.avail = [] then .ok (0, h0)
    else
      match readPipe h0 4 with
      | .error e => .error e
      | .ok (pidBytes, h1) =>
        if pidBytes.length ≠ 4 then .ok (1, h1)
        else recvBody h1 (loadU32 pidBytes)

/-! ## Public operations -/

/-- The loop `do { ret = recvIter(handle, wait); } while(...)` of
`singleInstanceCheck`. -/
def checkLoop : Nat → SingleInstanceHandle → Bool → Except Fault SingleInstanceHandle
  | 0, _, _ => .error .fuel
  | fuel + 1, h, wait =>
    match recvIter h wait with
    | .error e => .error e
    | .ok (ret, h1) =>
      if ret ≠ -1 ∧ (ret ≠ 0 ∨ (wait = true ∧ h1.pending.length = 0)) then checkLoop fuel h1 wait
      else .ok h1

/-- The number of bytes and events still to come. -/
def futureSize : List Event → Nat
  | [] => 0
  | Event.stop :: es => futureSize es + 1
  | Event.data b :: es => futureSize es + b.length + 1

/-- A bound on the rounds of the loop of `singleInstanceCheck`: every round but
the last takes at least one byte or event. -/
def checkBound (h : SingleInstanceHandle) : Nat :=
  h.avail.length + h.ctrl + futureSize h.future + 1

/-- What `singleInstanceCheck` reports: its return value and, when that is 1, the
values stored to `*argc` and `*argv` (the front of the pending queue). -/
def report (h : SingleInstanceHandle) : Int × Option (Nat × List (List UInt8)) :=
  match h.pending with
  | m :: _ => (1, some (m.length, m))
  | [] => (0, none)

/-- The function `singleInstanceCheck(handle, &argc, &argv, wait)`. -/
def singleInstanceCheck (h : SingleInstanceHandle) (wait : Bool) :
    Except Fault ((Int × Option (Nat × List (List UInt8))) × SingleInstanceHandle) :=
  if h.pending.length ≠ 0 then .ok (report h, h)
  else
    match checkLoop (checkBound h) h wait with
    | .error e => .error e
    | .ok h1 => .ok (report h1, h1)

/-- The argument buffers that `singleInstancePop` passes to `delete[]`. -/
def popFreed (h : SingleInstanceHandle) : List (List UInt8) :=
  match h.pending with
  | [] => []
  | m :: _ => m

/-- The function `singleInstancePop(handle)`: the handle afterwards. -/
def singleInstancePop (h : SingleInstanceHandle) : SingleInstanceHandle :=
  match h.pending with
  | [] => h
  | _ :: rest => { h with pending := rest }

/-- The function `singleInstanceStopWait(handle)`: one byte more in the control pipe. -/
def singleInstanceStopWait (h : SingleInstanceHandle) : SingleInstanceHandle :=
  { h with ctrl := h.ctrl + 1 }

/-- The function `singleInstanceDestroy(handle)`: one call of `singleInstancePop`,
then the descriptors are closed and the handle is deleted, which destroys the
list of pointer vectors but none of the buffers pointed to. The result lists the
argument buffers released and those still allocated afterwards. -/
def singleInstanceDestroy (h : SingleInstanceHandle) :
    List (List UInt8) × List (List UInt8) :=
  (popFreed h, (singleInstancePop h).pending.flatten)

/-- A handle as `singleInstanceCreate` returns it, with the given content of the
FIFO and the given events to come. -/
def freshHandle (avail : List UInt8) (future : List Event) : SingleInstanceHandle :=
  { buffers := pidbufmap.empty, pending := [], avail := avail, ctrl := 0, future := future }

/-! ## `singleInstanceCreate` and the system calls it makes -/

/-- How `mkfifo` ends: the FIFO was created, it fails with `EEXIST`, or it fails
with another `errno`. -/
inductive MkfifoResult where
  | created
  | eexist
  | failed
  deriving DecidableEq, Repr

/-- How `stat` on the path of the FIFO ends: it fails, or the path is a FIFO, or
the path is something else. -/
inductive StatResult where
  | failed
  | fifo
  | other
  deriving DecidableEq, Repr

/-- How `lockf(fd, F_TLOCK, 0)` ends: the lock is taken, it fails with `EACCES`
or `EAGAIN` (another process holds the lock), or it fails with another `errno`. -/
inductive LockResult where
  | locked
  | busy
  | failed
  deriving DecidableEq, Repr

/-- The environment of a call of `singleInstanceCreate`: the variables `HOME`
and `USER`, the outcome of each system call the function makes, and the text
`strerror(errno)` gives for a failure. -/
structure Env where
  home : Option String
  user : Option String
  mkfifo : MkfifoResult
  stat : StatResult
  openLock : Bool
  lockf : LockResult
  strerror : String

/-- What `singleInstanceCreate` leaves behind: the handle returned (`none` for
`NULL`), the value stored to `*error` (`none` for `NULL`), and the frames
written to the FIFO of the running instance. -/
structure CreateResult where
  handle : Option SingleInstanceHandle
  error : Option String
  sent : List (List UInt8)

/-- The outcome of `AUTO_THROW(what)`: the `catch` block stores the message and
returns `NULL`. -/
def thrown (env : Env) (what : String) : CreateResult :=
  { handle := none, error := some (what ++ ": " ++ env.strerror), sent := [] }

/-- The function `singleInstanceCreate(appName, argc, argv, &error)` run by the
process `pid`: `*error` is set to `NULL` first; without `HOME` and `USER` the
function returns `NULL` at once; a failing `mkfifo`, `stat`, `open` or `lockf`
throws, except that a lock held by another process makes the function send the
arguments and return `NULL`. -/
def singleInstanceCreate (env : Env) (pid : Nat) (argv : List (List UInt8)) : CreateResult :=
  match env.home, env.user with
  | none, none => { handle := none, error := none, sent := [] }
  | _, _ =>
    let fifo : Option String :=
      match env.mkfifo with
      | .created => none
      | .failed => some "mkfifo"
      | .eexist =>
        match env.stat with
        | .failed => some "stat"
        | .other => some "mkfifo"
        | .fifo => none
    match fifo with
    | some what => thrown env what
    | none =>
      if env.openLock = false then thrown env "open"
      else
        match env.lockf with
        | .failed => thrown env "open"
        | .busy => { handle := none, error := none, sent := sendArgs pid argv }
        | .locked => { handle := some (freshHandle [] []), error := none, sent := [] }

/-! ## Notions used to state the properties -/

/-- A list of arguments a caller can pass: C strings (no NUL inside) whose length
with terminator fits a `uint32_t`. -/
def ValidArgs (A : List (List UInt8)) : Prop :=
  ∀ s ∈ A, (0 : UInt8) ∉ s ∧ s.length + 1 < 4294967296

/-- The argument buffers the receiver holds for the arguments `A`: each string
followed by its terminator. -/
def withNul (A : List (List UInt8)) : List (List UInt8) := A.map (fun s => s ++ [0])

/-- The payload bytes a receiver takes from continuation frames when `r` bytes
of the message are still missing: `min(r, 508)` bytes from offset 4 of each. -/
def carriedCont : List (List UInt8) → Nat → List UInt8
  | [], _ => []
  | f :: fs, r => (f.drop 4).take (min r 508) ++ carriedCont fs (r - min r 508)

/-- Continuation frames with the sender id bytes `hdr` that carry `buf` in
blocks of 508 bytes. -/
def Carries (hdr : List UInt8) : List (List UInt8) → List UInt8 → Prop
  | [], buf => buf = []
  | f :: fs, buf => buf ≠ [] ∧ f.length = 512 ∧ f.take 4 = hdr ∧
      (f.drop 4).take (min buf.length 508) = buf.take 508 ∧ Carries hdr fs (buf.drop 508)

/-- The first frame of the sender `p` for the payload `P`. -/
def FirstFrame (p : Nat) (P f : List UInt8) : Prop :=
  f.length = 512 ∧ f.take 4 = storeU32 p ∧ (f.drop 4).take 4 = storeU32 P.length ∧
    (f.drop 8).take (min P.length 504) = P.take 504

/-- What `recvIter` does with one whole frame `f` at the head of the FIFO: the
entry of the sender takes `min(remaining, 508)` bytes from offset 4, a new
entry is sized by bytes 4-7 and takes `min(len, 504)` bytes from offset 8; the
rest of the frame is discarded. -/
def trackFrame (h : SingleInstanceHandle) (f rest : List UInt8) :
    Except Fault (Int × SingleInstanceHandle) :=
  match h.buffers (loadU32 f) with
  | some (first, vec) =>
    checkFull { h with avail := rest } (loadU32 f)
      (u32 (first + min (u32 (vec.length + 4294967296 - first)) 508))
      (writeAt vec first ((f.drop 4).take (min (u32 (vec.length + 4294967296 - first)) 508)))
  | none =>
    checkFull { h with avail := rest } (loadU32 f) (min (loadU32 (f.drop 4)) 504)
      (writeAt (List.replicate (loadU32 (f.drop 4)) 0) 0
        ((f.drop 8).take (min (loadU32 (f.drop 4)) 504)))

/-- Feeding frames to the receiver, one per call of `recvIter`: each frame is
appended to the unread content of the FIFO and `recvIter` is called once. -/
def feedFrames : List (List UInt8) → SingleInstanceHandle → Except Fault SingleInstanceHandle
  | [], h => .ok h
  | f :: fs, h =>
    match recvIter { h with avail := h.avail ++ f } true with
    | .error e => .error e
    | .ok (_, h1) => feedFrames fs h1

/-- The frames of two senders merged by a schedule: `true` takes the next frame
of the first sender, `false` the next frame of the second. -/
def mergeFrames : List Bool → List (List UInt8) → List (List UInt8) → List (List UInt8)
  | [], _, _ => []
  | true :: s, x :: xs, ys => x :: mergeFrames s xs ys
  | true :: s, [], ys => mergeFrames s [] ys
  | false :: s, xs, y :: ys => y :: mergeFrames s xs ys
  | false :: s, xs, [] => mergeFrames s xs []

/-- A receiver's view of the frames left to come from the sender `p` with the
payload `P`, given the sender's entry `e` in the reassembly map: nothing was
received yet, or `c` bytes were, or the message is complete. -/
def SenderAt (p : Nat) (P : List UInt8) (fs : List (List UInt8))
    (e : Option (Nat × List UInt8)) : Prop :=
  (e = none ∧ ∃ f0 rest, fs = f0 :: rest ∧ FirstFrame p P f0 ∧
      Carries (storeU32 p) rest (P.drop 504)) ∨
  (∃ c, 0 < c ∧ c < P.length ∧
      e = some (c, P.take c ++ List.replicate (P.length - c) 0) ∧
      Carries (storeU32 p) fs (P.drop c)) ∨
  (e = none ∧ fs = [])

/-- The bytes that the events to come put on the FIFO, in order. -/
def futureBytes : List Event → List UInt8
  | [] => []
  | Event.stop :: es => futureBytes es
  | Event.data b :: es => b ++ futureBytes es

/-- The number of calls of `singleInstanceStopWait` among the events to come. -/
def futureStops : List Event → Nat
  | [] => 0
  | Event.stop :: es => futureStops es + 1
  | Event.data _ :: es => futureStops es

/-- The C string stored in a buffer: the bytes before the first NUL. -/
def cstr (b : List UInt8) : List UInt8 := b.takeWhile (fun c => c != 0)

/-- The number of payload bytes `sendArgs` has to encode for the arguments `A`:
per argument a length word, the string and its terminator. -/
def encodedSize (A : List (List UInt8)) : Nat := (A.map (fun s => s.length + 5)).sum

/-- Data arrives in whole frames: the unread content of the FIFO and every event
to come are non-empty multiples of 512 bytes (the unread content may be empty),
and no call of `singleInstanceStopWait` is to come. -/
def FrameAligned (h : SingleInstanceHandle) : Prop :=
  h.avail.length % 512 = 0 ∧
    ∀ e ∈ h.future, ∃ b, e = Event.data b ∧ b ≠ [] ∧ b.length % 512 = 0

/-- What a caller sees of a call of `singleInstanceCheck`: the value returned,
the values stored to `*argc` and `*argv`, and the pending queue afterwards. -/
structure Seen where
  ret : Int
  argc : Option Nat
  argv : Option (List (List UInt8))
  pending : List (List (List UInt8))
  deriving DecidableEq, Repr

/-- What a caller sees of a result of `singleInstanceCheck`; nothing for a call
that does not return. -/
def observe (r : Except Fault ((Int × Option (Nat × List (List UInt8))) × SingleInstanceHandle)) :
    Option Seen :=
  match r with
  | .ok ((ret, out), h) =>
    some { ret := ret, argc := out.map Prod.fst, argv := out.map Prod.snd, pending := h.pending }
  | .error _ => none

/-- One argument of 4294967291 bytes: with its length word and terminator the
payload has exactly `2^32` bytes. -/
def hugeArgs : List (List UInt8) := [List.replicate 4294967291 97]

/-- The messages still to be queued when the frames `fsP` and `fsQ` of two
senders are left to come in the order of the schedule `sched`: the sender whose
last frame comes first is queued first. -/
def queueOrder (sched : List Bool) (mP mQ : List (List UInt8)) :
    List (List UInt8) → List (List UInt8) → List (List (List UInt8))
  | [], [] => []
  | [], _ :: _ => [mQ]
  | _ :: _, [] => [mP]
  | _ :: _, _ :: _ => if sched.getLast? = some false then [mP, mQ] else [mQ, mP]

/-- The interrupts not yet consumed: the unread bytes of the control pipe and
the calls of `singleInstanceStopWait` still to come. -/
def stopsLeft (h : SingleInstanceHandle) : Nat := h.ctrl + futureStops h.future

/-- What a call of `recvIter` that read from the FIFO may have done: no
interrupt was consumed, and the pending queue is as before or has one message
more at its back, the latter only with return value 0. -/
def StepEffect (h h1 : SingleInstanceHandle) (r : Int) : Prop :=
  stopsLeft h1 = stopsLeft h ∧
    ((h1.pending = h.pending ∧ (r = 0 ∨ r = 1)) ∨
      (r = 0 ∧ ∃ m, h1.pending = h.pending ++ [m]))

/-- The invariant of the reassembly map: every entry has received fewer bytes
than its storage holds, and the size of the storage is a `uint32_t`. -/
def BufInv (h : SingleInstanceHandle) : Prop :=
  ∀ k first vec, h.buffers k = some (first, vec) →
    first < vec.length ∧ vec.length < 4294967296

/-- The bytes and events the receiver has not taken yet: the unread content of
the FIFO and what is still to come. -/
def unreadSize (h : SingleInstanceHandle) : Nat := h.avail.length + futureSize h.future

/-- The fault of a call that does not return a value; nothing for one that does. -/
def faultOf {α : Type} (r : Except Fault α) : Option Fault :=
  match r with
  | .ok _ => none
  | .error e => some e

/-- The non-blocking check in the words of the specification (state POLL_ONCE):
with an empty pending queue, one non-blocking poll of the channel, that is one
call of `recvIter`, and then the report of what is true now. It is stated to be
compared with `singleInstanceCheck`, which is the code. -/
def checkPollOnce (h : SingleInstanceHandle) :
    Except Fault ((Int × Option (Nat × List (List UInt8))) × SingleInstanceHandle) :=
  if h.pending.length ≠ 0 then .ok (report h, h)
  else
    match recvIter h false with
    | .error e => .error e
    | .ok (_, h1) => .ok (report h1, h1)

/-- The number of unread bytes of the FIFO after a call; nothing for a call that
does not return. -/
def leftUnread {α : Type} (r : Except Fault (α × SingleInstanceHandle)) : Option Nat :=
  match r with
  | .ok (_, h) => some h.avail.length
  | .error _ => none

/-- The bytes the receiver has not taken yet, in the order in which it will
see them: the unread content of the FIFO and the bytes still to come. -/
def streamOf (h : SingleInstanceHandle) : List UInt8 := h.avail ++ futureBytes h.future

/-- The handles a program can hold: the one `singleInstanceCreate` returns, with
any content of the FIFO and any events to come, and the handles that calls of
`singleInstanceCheck`, `singleInstancePop` and `singleInstanceStopWait` and the
arrival of further bytes on the FIFO lead to. The structure is opaque to the
callers, so there are no others. -/
inductive Reachable : SingleInstanceHandle → Prop where
  | create (avail : List UInt8) (future : List Event) : Reachable (freshHandle avail future)
  | check (h h1 : SingleInstanceHandle) (wait : Bool)
      (res : Int × Option (Nat × List (List UInt8))) :
      Reachable h → singleInstanceCheck h wait = .ok (res, h1) → Reachable h1
  | pop (h : SingleInstanceHandle) : Reachable h → Reachable (singleInstancePop h)
  | stopWait (h : SingleInstanceHandle) : Reachable h → Reachable (singleInstanceStopWait h)
  | arrive (h : SingleInstanceHandle) (bytes : List UInt8) :
      Reachable h → Reachable { h with avail := h.avail ++ bytes }

/-! ## Auxiliary facts -/

theorem toNat_ofNat_byte (x : Nat) : (UInt8.ofNat x).toNat = x % 256 := by
  simp [UInt8.toNat, UInt8.ofNat, Fin.ofNat]

theorem storeU32_length (n : Nat) : (storeU32 n).length = 4 := rfl

theorem loadU32_storeU32 (n : Nat) (rest : List UInt8) :
    loadU32 (storeU32 n ++ rest) = u32 n := by
  simp only [loadU32, storeU32, u32, List.cons_append, List.nil_append, List.getD_cons_zero,
    List.getD_cons_succ, toNat_ofNat_byte]
  omega

theorem loadU32_take (bs : List UInt8) : loadU32 (bs.take 4) = loadU32 bs := by
  match bs with
  | [] => rfl
  | [_] => rfl
  | [_, _] => rfl
  | [_, _, _] => rfl
  | _ :: _ :: _ :: _ :: _ => rfl

theorem loadU32_lt (bs : List UInt8) : loadU32 bs < 4294967296 := by
  have h0 := (bs.getD 0 0).toNat_lt
  have h1 := (bs.getD 1 0).toNat_lt
  have h2 := (bs.getD 2 0).toNat_lt
  have h3 := (bs.getD 3 0).toNat_lt
  simp only [loadU32]
  omega

theorem strlen_eq_length (s : List UInt8) (h : (0 : UInt8) ∉ s) : strlen s = s.length := by
  unfold strlen
  congr 1
  rw [List.takeWhile_eq_self_iff]
  intro x hx
  simp only [bne_iff_ne, ne_eq]
  rintro rfl
  exact h hx

theorem sendArgsBuf_cons_valid (s : List UInt8) (rest : List (List UInt8))
    (h0 : (0 : UInt8) ∉ s) (hl : s.length + 1 < 4294967296) :
    sendArgsBuf (s :: rest) = storeU32 (s.length + 1) ++ (s ++ [0]) ++ sendArgsBuf rest := by
  have hu : u32 (s.length + 1) = s.length + 1 := by unfold u32; omega
  simp only [sendArgsBuf, strlen_eq_length s h0, hu]
  congr 2
  apply List.take_of_length_le
  simp

theorem parseArgsLoop_sendArgsBuf (A : List (List UInt8)) (hA : ValidArgs A) :
    ∀ (fuel : Nat) (pre : List UInt8) (acc : List (List UInt8)), A.length < fuel →
      parseArgsLoop fuel (pre ++ sendArgsBuf A) pre.length acc
        = .ok ((pre ++ sendArgsBuf A).length, acc ++ withNul A) := by
  induction A with
  | nil =>
    intro fuel pre acc hf
    obtain ⟨k, rfl⟩ : ∃ k, fuel = k + 1 := ⟨fuel - 1, by simp at hf; omega⟩
    simp [parseArgsLoop, sendArgsBuf, withNul]
  | cons s rest ih =>
    intro fuel pre acc hf
    obtain ⟨k, rfl⟩ : ∃ k, fuel = k + 1 := ⟨fuel - 1, by simp at hf; omega⟩
    have hs := hA s (List.mem_cons_self _ _)
    have hrest : ValidArgs rest := fun t ht => hA t (List.mem_cons_of_mem _ ht)
    have hu : u32 (s.length + 1) = s.length + 1 := by unfold u32; omega
    rw [sendArgsBuf_cons_valid s rest hs.1 hs.2]
    have hlen : (pre ++ (storeU32 (s.length + 1) ++ (s ++ [0]) ++ sendArgsBuf rest)).length
        = pre.length + 4 + (s.length + 1) + (sendArgsBuf rest).length := by
      simp [storeU32_length]; omega
    have hload : loadU32 (List.take 4 (List.drop pre.length
        (pre ++ (storeU32 (s.length + 1) ++ (s ++ [0]) ++ sendArgsBuf rest)))) = s.length + 1 := by
      rw [loadU32_take, List.drop_left, List.append_assoc, loadU32_storeU32, hu]
    have hdrop : List.take (s.length + 1) (List.drop (pre.length + 4)
        (pre ++ (storeU32 (s.length + 1) ++ (s ++ [0]) ++ sendArgsBuf rest))) = s ++ [0] := by
      have e : pre ++ (storeU32 (s.length + 1) ++ (s ++ [0]) ++ sendArgsBuf rest)
          = (pre ++ storeU32 (s.length + 1)) ++ ((s ++ [0]) ++ sendArgsBuf rest) := by
        simp [List.append_assoc]
      have l : pre.length + 4 = (pre ++ storeU32 (s.length + 1)).length := by
        simp [storeU32_length]
      rw [e, l, List.drop_left]
      have l2 : s.length + 1 = (s ++ [0]).length := by simp
      rw [l2, List.take_left]
    rw [parseArgsLoop]
    simp only [hload, hdrop]
    rw [if_pos (by rw [hlen]; omega), if_neg (by rw [hlen]; omega), if_neg (by rw [hlen]; omega)]
    have e2 : pre ++ (storeU32 (s.length + 1) ++ (s ++ [0]) ++ sendArgsBuf rest)
        = (pre ++ storeU32 (s.length + 1) ++ (s ++ [0])) ++ sendArgsBuf rest := by
      simp [List.append_assoc]
    have l3 : pre.length + 4 + (s.length + 1)
        = (pre ++ storeU32 (s.length + 1) ++ (s ++ [0])).length := by
      simp [storeU32_length]; omega
    rw [e2, l3, ih hrest k _ _ (by simp at hf; omega)]
    simp [withNul]

theorem parseArgs_sendArgsBuf (A : List (List UInt8)) (hA : ValidArgs A) :
    parseArgs (sendArgsBuf A) = .ok (withNul A) := by
  have hlen : A.length < (sendArgsBuf A).length + 1 := by
    clear hA
    induction A with
    | nil => simp
    | cons s rest ih =>
      simp only [sendArgsBuf, List.length_append, List.length_cons, storeU32_length]
      omega
  have h := parseArgsLoop_sendArgsBuf A hA ((sendArgsBuf A).length + 1) [] [] hlen
  simp only [List.nil_append, List.length_nil] at h
  simp [parseArgs, h]

theorem writeAt_length (dst src : List UInt8) (off : Nat) (h : off + src.length ≤ dst.length) :
    (writeAt dst off src).length = dst.length := by
  simp only [writeAt, List.length_append, List.length_take, List.length_drop]
  omega

theorem writeAt_take (dst src : List UInt8) (off k : Nat) (hk : k ≤ off) (h : off ≤ dst.length) :
    (writeAt dst off src).take k = dst.take k := by
  simp only [writeAt, List.append_assoc]
  rw [List.take_append_of_le_length (by simp; omega), List.take_take]
  congr 1
  omega

theorem writeAt_drop_take (dst src : List UInt8) (off : Nat) (h : off ≤ dst.length) :
    ((writeAt dst off src).drop off).take src.length = src := by
  simp only [writeAt, List.append_assoc]
  rw [List.drop_left' (by simp; omega)]
  exact List.take_left _ _

theorem sendBufLoop_carries (hdr : List UInt8) :
    ∀ (fuel : Nat) (sndbuf buf : List UInt8), buf.length ≤ fuel → sndbuf.length = 512 →
      sndbuf.take 4 = hdr → Carries hdr (sendBufLoop fuel sndbuf buf buf.length) buf := by
  intro fuel
  induction fuel with
  | zero =>
    intro sndbuf buf hf _ _
    have : buf = [] := List.length_eq_zero.mp (by omega)
    subst this
    simp [sendBufLoop, Carries]
  | succ k ih =>
    intro sndbuf buf hf hs hh
    by_cases h0 : buf.length = 0
    · have : buf = [] := List.length_eq_zero.mp h0
      subst this
      simp [sendBufLoop, Carries]
    · have hne : buf ≠ [] := fun e => h0 (by simp [e])
      simp only [sendBufLoop, if_neg h0]
      have hmin : (if buf.length < 512 - 4 then buf.length else 512 - 4) = min buf.length 508 := by
        split <;> omega
      rw [hmin]
      have htl : (buf.take (min buf.length 508)).length = min buf.length 508 := by
        simp
      have hlen : (writeAt sndbuf 4 (buf.take (min buf.length 508))).length = 512 := by
        rw [writeAt_length _ _ _ (by rw [htl]; omega), hs]
      have hdl : (buf.drop (min buf.length 508)).length = buf.length - min buf.length 508 := by
        simp
      have htk : buf.take (min buf.length 508) = buf.take 508 := by
        rw [List.take_eq_take]
        omega
      have hdk : buf.drop (min buf.length 508) = buf.drop 508 := by
        by_cases hb : buf.length < 508
        · rw [List.drop_eq_nil_of_le (by omega), List.drop_eq_nil_of_le (by omega)]
        · congr 1; omega
      refine ⟨hne, hlen, ?_, ?_, ?_⟩
      · rw [writeAt_take _ _ _ _ (le_refl 4) (by omega), hh]
      · have := writeAt_drop_take sndbuf (buf.take (min buf.length 508)) 4 (by omega)
        rw [htl] at this
        rw [this, htk]
      · rw [← hdl, hdk]
        have := ih (writeAt sndbuf 4 (buf.take (min buf.length 508))) (buf.drop 508)
          (by simp; omega) hlen (by rw [writeAt_take _ _ _ _ (le_refl 4) (by omega), hh])
        rw [← hdk] at this ⊢
        exact this

theorem loadU32_append (f rest : List UInt8) (h : 4 ≤ f.length) :
    loadU32 (f ++ rest) = loadU32 f := by
  rw [← loadU32_take (f ++ rest), ← loadU32_take f, List.take_append_of_le_length h]

theorem readPipe_avail (h : SingleInstanceHandle) (n : Nat) (hn : n ≠ 0) (ha : h.avail ≠ []) :
    readPipe h n = .ok (h.avail.take n, { h with avail := h.avail.drop n }) := by
  unfold readPipe
  rw [if_neg hn]
  cases hh : h.avail with
  | nil => exact absurd hh ha
  | cons a as => rfl

theorem readPipe_zero (h : SingleInstanceHandle) : readPipe h 0 = .ok ([], h) := by
  simp [readPipe]

theorem readPipe_enough (h : SingleInstanceHandle) (n : Nat) (hn : n ≤ h.avail.length) :
    readPipe h n = .ok (h.avail.take n, { h with avail := h.avail.drop n }) := by
  by_cases h0 : n = 0
  · subst h0
    rw [readPipe_zero]
    cases h
    simp
  · exact readPipe_avail h n h0 (fun e => by rw [e] at hn; simp at hn; exact h0 hn)

theorem slice_append (f rest : List UInt8) (k m : Nat) (h : k + m ≤ f.length) :
    (List.drop k (f ++ rest)).take m = (f.drop k).take m := by
  rw [List.drop_append_of_le_length (by omega), List.take_append_of_le_length (by simp; omega)]

theorem selectFds_ready (h : SingleInstanceHandle) (wait : Bool) (ha : h.ctrl ≠ 0 ∨ h.avail ≠ []) :
    selectFds h wait = .ok h := by
  unfold selectFds
  rw [if_pos ha]

theorem recvPayload_frame (h : SingleInstanceHandle) (f rest : List UInt8) (k toRead : Nat)
    (hf : f.length = 512) (hk : k + toRead = 512) (ha : h.avail = List.drop k (f ++ rest))
    (pid first : Nat) (vec : List UInt8) :
    recvPayload h pid first vec toRead
      = checkFull { h with avail := rest } pid
          (u32 (first + min (u32 (vec.length + 4294967296 - first)) toRead))
          (writeAt vec first ((f.drop k).take (min (u32 (vec.length + 4294967296 - first)) toRead))) := by
  have hal : h.avail.length = toRead + rest.length := by
    rw [ha, List.length_drop, List.length_append, hf]; omega
  unfold recvPayload
  generalize hr : u32 (vec.length + 4294967296 - first) = remaining
  simp only []
  have hu : (if remaining < toRead then remaining else toRead) = min remaining toRead := by
    split <;> omega
  rw [hu]
  rw [readPipe_enough h _ (by omega)]
  simp only []
  have hgl : (List.take (min remaining toRead) h.avail).length = min remaining toRead := by
    rw [List.length_take]; omega
  have hslice : List.take (min remaining toRead) h.avail
      = (f.drop k).take (min remaining toRead) := by
    rw [ha, slice_append _ _ _ _ (by omega)]
  rw [if_neg (by rw [hgl]; exact fun hne => hne rfl)]
  rw [hgl, hslice]
  by_cases ht : remaining < toRead
  · rw [if_pos ht]
    rw [if_pos (by omega)]
    rw [readPipe_enough _ _ (by
      show toRead - remaining ≤ (List.drop (min remaining toRead) h.avail).length
      rw [List.length_drop]; omega)]
    simp only []
    congr 2
    rw [ha, List.drop_drop, List.drop_drop]
    exact List.drop_left' (by omega)
  · rw [if_neg ht]
    rw [if_neg (fun hne => hne rfl)]
    simp only []
    congr 2
    rw [ha, List.drop_drop]
    exact List.drop_left' (by omega)

theorem recvBody_frame (h : SingleInstanceHandle) (f rest : List UInt8)
    (hf : f.length = 512) (ha : h.avail = List.drop 4 (f ++ rest)) :
    recvBody h (loadU32 f) = trackFrame h f rest := by
  have hal : h.avail.length = 508 + rest.length := by
    rw [ha, List.length_drop, List.length_append, hf]; omega
  unfold recvBody trackFrame
  cases hb : h.buffers (loadU32 f) with
  | some e =>
    obtain ⟨first, vec⟩ := e
    exact recvPayload_frame h f rest 4 (512 - 4) hf (by omega) ha _ _ _
  | none =>
    dsimp only
    rw [readPipe_enough h 4 (by omega)]
    have h4 : (List.take 4 h.avail).length = 4 := by rw [List.length_take]; omega
    dsimp only
    rw [if_neg (by rw [h4]; exact fun hne => hne rfl)]
    have hlen : loadU32 (List.take 4 h.avail) = loadU32 (f.drop 4) := by
      rw [ha, slice_append _ _ _ _ (by omega), loadU32_take]
    rw [hlen]
    have hlt := loadU32_lt (f.drop 4)
    generalize loadU32 (f.drop 4) = len at hlt ⊢
    rw [recvPayload_frame { h with avail := List.drop 4 h.avail } f rest 8 (512 - 4 - 4) hf
      (by omega) (by show List.drop 4 h.avail = _; rw [ha, List.drop_drop])]
    have hr : u32 ((List.replicate len (0 : UInt8)).length + 4294967296 - 0) = len := by
      rw [List.length_replicate]; unfold u32; omega
    rw [hr]
    have hz : u32 (0 + min len (512 - 4 - 4)) = min len 504 := by unfold u32; omega
    rw [hz]

theorem recvIter_frame (h : SingleInstanceHandle) (f rest : List UInt8) (wait : Bool)
    (hc : h.ctrl = 0) (hf : f.length = 512) (ha : h.avail = f ++ rest) :
    recvIter h wait = trackFrame h f rest := by
  have hl : h.avail.length = 512 + rest.length := by rw [ha, List.length_append, hf]
  have hne : h.avail ≠ [] := by
    intro e
    rw [e, List.length_nil] at hl
    omega
  unfold recvIter
  rw [selectFds_ready h wait (Or.inr hne)]
  dsimp only
  rw [if_neg (fun hne => hne hc), if_neg hne]
  rw [readPipe_enough h 4 (by omega)]
  have h4 : (List.take 4 h.avail).length = 4 := by
    rw [List.length_take]; omega
  dsimp only
  rw [if_neg (by rw [h4]; exact fun hne => hne rfl)]
  have hp : loadU32 (List.take 4 h.avail) = loadU32 f := by
    rw [loadU32_take, ha, loadU32_append _ _ (by omega)]
  rw [hp, recvBody_frame { h with avail := List.drop 4 h.avail } f rest hf
    (by show List.drop 4 h.avail = _; rw [ha])]
  unfold trackFrame
  rfl

theorem writeAt_slice_before (dst src : List UInt8) (off k m : Nat) (hk : k + m ≤ off)
    (h : off ≤ dst.length) :
    ((writeAt dst off src).drop k).take m = (dst.drop k).take m := by
  rw [List.take_drop, List.take_drop, writeAt_take _ _ _ _ hk h]

theorem sendBuf_shape (p : Nat) (P : List UInt8) :
    ∃ f0 rest, sendBuf p P P.length = f0 :: rest ∧ FirstFrame p P f0 ∧
      Carries (storeU32 p) rest (P.drop 504) := by
  have hmin : (if P.length < 512 - 2 * 4 then P.length else 512 - 2 * 4) = min P.length 504 := by
    split <;> omega
  have htl : (P.take (min P.length 504)).length = min P.length 504 := by
    rw [List.length_take]; omega
  have htk : P.take (min P.length 504) = P.take 504 := by
    rw [List.take_eq_take]; omega
  have hdk : P.drop (min P.length 504) = P.drop 504 := by
    by_cases hb : P.length < 504
    · rw [List.drop_eq_nil_of_le (by omega), List.drop_eq_nil_of_le (by omega)]
    · congr 1; omega
  have hdl : (P.drop 504).length = P.length - min P.length 504 := by
    rw [List.length_drop]; omega
  have l0 : (List.replicate 512 (0 : UInt8)).length = 512 := List.length_replicate _ _
  have l1 : (writeAt (List.replicate 512 (0 : UInt8)) 0 (storeU32 p)).length = 512 := by
    rw [writeAt_length _ _ _ (by rw [l0, storeU32_length]; omega), l0]
  have l2 : (writeAt (writeAt (List.replicate 512 (0 : UInt8)) 0 (storeU32 p)) 4
      (storeU32 P.length)).length = 512 := by
    rw [writeAt_length _ _ _ (by rw [l1, storeU32_length]; omega), l1]
  have l3 : (writeAt (writeAt (writeAt (List.replicate 512 (0 : UInt8)) 0 (storeU32 p)) 4
      (storeU32 P.length)) (2 * 4) (P.take (min P.length 504))).length = 512 := by
    rw [writeAt_length _ _ _ (by rw [l2, htl]; omega), l2]
  have t3 : (writeAt (writeAt (writeAt (List.replicate 512 (0 : UInt8)) 0 (storeU32 p)) 4
      (storeU32 P.length)) (2 * 4) (P.take (min P.length 504))).take 4 = storeU32 p := by
    rw [writeAt_take _ _ _ _ (by omega) (by rw [l2]; omega),
      writeAt_take _ _ _ _ (le_refl 4) (by rw [l1]; omega)]
    have := writeAt_drop_take (List.replicate 512 (0 : UInt8)) (storeU32 p) 0 (by omega)
    rw [storeU32_length, List.drop_zero] at this
    exact this
  unfold sendBuf
  dsimp only
  rw [hmin]
  refine ⟨_, _, rfl, ⟨l3, t3, ?_, ?_⟩, ?_⟩
  · rw [writeAt_slice_before _ _ _ _ _ (by omega) (by rw [l2]; omega)]
    have := writeAt_drop_take (writeAt (List.replicate 512 (0 : UInt8)) 0 (storeU32 p))
      (storeU32 P.length) 4 (by rw [l1]; omega)
    rw [storeU32_length] at this
    exact this
  · have := writeAt_drop_take (writeAt (writeAt (List.replicate 512 (0 : UInt8)) 0 (storeU32 p))
      4 (storeU32 P.length)) (P.take (min P.length 504)) (2 * 4) (by rw [l2]; omega)
    rw [htl] at this
    rw [← htk]
    exact this
  · rw [hdk, ← hdl]
    exact sendBufLoop_carries (storeU32 p) _ _ _ (le_refl _) l3 t3

theorem carries_length (hdr : List UInt8) :
    ∀ (fs : List (List UInt8)) (buf : List UInt8), Carries hdr fs buf →
      fs.length = (buf.length + 507) / 508 := by
  intro fs
  induction fs with
  | nil =>
    intro buf hc
    simp only [Carries] at hc
    subst hc
    rfl
  | cons f fs ih =>
    intro buf hc
    obtain ⟨hne, _, _, _, hrest⟩ := hc
    have hpos : 0 < buf.length := List.length_pos.mpr hne
    rw [List.length_cons, ih _ hrest, List.length_drop]
    omega

theorem carries_frames (hdr : List UInt8) :
    ∀ (fs : List (List UInt8)) (buf : List UInt8), Carries hdr fs buf →
      ∀ f ∈ fs, f.length = 512 ∧ f.take 4 = hdr := by
  intro fs
  induction fs with
  | nil => intro buf _ f hf; cases hf
  | cons g fs ih =>
    intro buf hc f hf
    obtain ⟨_, hl, ht, _, hrest⟩ := hc
    rcases List.mem_cons.mp hf with rfl | hm
    · exact ⟨hl, ht⟩
    · exact ih _ hrest f hm

theorem carries_index (hdr : List UInt8) :
    ∀ (fs : List (List UInt8)) (buf : List UInt8), Carries hdr fs buf →
      ∀ (k : Nat) (f : List UInt8), fs[k]? = some f →
        (f.drop 4).take (min (buf.length - 508 * k) 508) = (buf.drop (508 * k)).take 508 := by
  intro fs
  induction fs with
  | nil => intro buf _ k f hf; simp at hf
  | cons g fs ih =>
    intro buf hc k f hf
    obtain ⟨_, _, _, hg, hrest⟩ := hc
    cases k with
    | zero =>
      simp only [List.getElem?_cons_zero, Option.some.injEq] at hf
      subst hf
      simpa using hg
    | succ k =>
      simp only [List.getElem?_cons_succ] at hf
      have := ih _ hrest k f hf
      rw [List.length_drop, List.drop_drop] at this
      have e1 : buf.length - 508 - 508 * k = buf.length - 508 * (k + 1) := by omega
      have e2 : 508 + 508 * k = 508 * (k + 1) := by omega
      rw [e1, e2] at this
      exact this

theorem carries_concat (hdr : List UInt8) :
    ∀ (fs : List (List UInt8)) (buf : List UInt8), Carries hdr fs buf →
      carriedCont fs buf.length = buf := by
  intro fs
  induction fs with
  | nil =>
    intro buf hc
    simp only [Carries] at hc
    subst hc
    rfl
  | cons g fs ih =>
    intro buf hc
    obtain ⟨_, _, _, hg, hrest⟩ := hc
    have := ih _ hrest
    rw [List.length_drop] at this
    have e : buf.length - min buf.length 508 = buf.length - 508 := by omega
    rw [carriedCont, hg, e, this, List.take_append_drop]

theorem loadU32_of_take (f : List UInt8) (p : Nat) (h : f.take 4 = storeU32 p) :
    loadU32 f = u32 p := by
  rw [← loadU32_take, h]
  have := loadU32_storeU32 p []
  rw [List.append_nil] at this
  exact this

theorem writeAt_progress (P : List UInt8) (c m : Nat) (hc : c ≤ P.length) :
    writeAt (P.take c ++ List.replicate (P.length - c) 0) c ((P.drop c).take m)
      = P.take (c + min m (P.length - c))
        ++ List.replicate (P.length - (c + min m (P.length - c))) 0 := by
  have hl : (P.take c).length = c := by rw [List.length_take]; omega
  have hs : ((P.drop c).take m).length = min m (P.length - c) := by
    rw [List.length_take, List.length_drop]
  unfold writeAt
  rw [List.take_left' hl, hs]
  have e : c + min m (P.length - c) = (P.take c).length + min m (P.length - c) := by rw [hl]
  rw [e, List.drop_append, List.drop_replicate, hl, List.take_add]
  have e2 : (P.drop c).take (min m (P.length - c)) = (P.drop c).take m := by
    rw [List.take_eq_take, List.length_drop]; omega
  rw [e2]
  congr 2
  omega

theorem checkFull_short (h : SingleInstanceHandle) (pid first : Nat) (vec : List UInt8)
    (hne : first ≠ vec.length) :
    checkFull h pid first vec = .ok (1, { h with buffers := h.buffers.set pid (first, vec) }) := by
  unfold checkFull
  rw [if_pos hne]

theorem checkFull_full (h : SingleInstanceHandle) (pid first : Nat) (vec : List UInt8)
    (msg : List (List UInt8)) (he : first = vec.length) (hp : parseArgs vec = .ok msg) :
    checkFull h pid first vec
      = .ok (0, { h with pending := h.pending ++ [msg], buffers := h.buffers.erase pid }) := by
  unfold checkFull
  rw [if_neg (fun hne => hne he), hp]

theorem carries_of_nil (hdr : List UInt8) (fs : List (List UInt8)) (h : Carries hdr fs []) :
    fs = [] := by
  cases fs with
  | nil => rfl
  | cons f fs => exact absurd rfl h.1

theorem carries_ne_nil (hdr : List UInt8) (fs : List (List UInt8)) (buf : List UInt8)
    (h : Carries hdr fs buf) (hb : buf ≠ []) : fs ≠ [] := by
  intro e
  subst e
  exact hb h

theorem take_append_zeros_full (P : List UInt8) (c : Nat) (hc : c = P.length) :
    P.take c ++ List.replicate (P.length - c) (0 : UInt8) = P := by
  subst hc
  rw [List.take_length, Nat.sub_self, List.replicate_zero, List.append_nil]

theorem senderAt_length (p : Nat) (P f : List UInt8) (fs : List (List UInt8))
    (e : Option (Nat × List UInt8)) (hs : SenderAt p P (f :: fs) e) :
    f.length = 512 ∧ loadU32 f = u32 p := by
  rcases hs with ⟨_, f0, rest, hfs, hff, _⟩ | ⟨c, _, _, _, hc⟩ | ⟨_, hnil⟩
  · obtain ⟨rfl, rfl⟩ := List.cons.inj hfs
    exact ⟨hff.1, loadU32_of_take _ _ hff.2.1⟩
  · exact ⟨hc.2.1, loadU32_of_take _ _ hc.2.2.1⟩
  · cases hnil

theorem senderAt_step (p : Nat) (P : List UInt8) (msg : List (List UInt8))
    (hP : P.length < 4294967296) (hmsg : parseArgs P = .ok msg)
    (h : SingleInstanceHandle) (f rest : List UInt8) (fs : List (List UInt8))
    (hs : SenderAt p P (f :: fs) (h.buffers (u32 p))) :
    ∃ r h', trackFrame h f rest = .ok (r, h') ∧ h'.avail = rest ∧ h'.ctrl = h.ctrl ∧
      h'.future = h.future ∧ (∀ k, k ≠ u32 p → h'.buffers k = h.buffers k) ∧
      SenderAt p P fs (h'.buffers (u32 p)) ∧
      ((fs ≠ [] ∧ r = 1 ∧ h'.pending = h.pending) ∨
        (fs = [] ∧ r = 0 ∧ h'.pending = h.pending ++ [msg])) := by
  have hpid := (senderAt_length p P f fs _ hs).2
  rcases hs with ⟨he, f0, rest0, hfs, hff, hcar⟩ | ⟨c, hc0, hcn, he, hcar⟩ | ⟨_, hnil⟩
  · obtain ⟨rfl, rfl⟩ := List.cons.inj hfs
    obtain ⟨hl, ht, hlen4, hpay⟩ := hff
    have hlen : loadU32 (f.drop 4) = P.length := by
      rw [← loadU32_take, hlen4]
      have := loadU32_storeU32 P.length []
      rw [List.append_nil] at this
      rw [this]; unfold u32; omega
    have hvec : writeAt (List.replicate P.length (0 : UInt8)) 0
        ((f.drop 8).take (min P.length 504))
        = P.take (min 504 P.length) ++ List.replicate (P.length - min 504 P.length) 0 := by
      have := writeAt_progress P 0 504 (Nat.zero_le _)
      rw [List.take_zero, List.nil_append, List.drop_zero, Nat.sub_zero, Nat.zero_add] at this
      rw [hpay, this]
    unfold trackFrame
    rw [hpid, he]
    dsimp only
    rw [hlen, hvec]
    by_cases hn : P.length ≤ 504
    · have hfs : fs = [] :=
        carries_of_nil _ _ (by rw [List.drop_eq_nil_of_le hn] at hcar; exact hcar)
      have hm : min 504 P.length = P.length := by omega
      rw [hm, take_append_zeros_full P _ rfl]
      rw [checkFull_full _ _ _ _ msg (by omega) hmsg]
      refine ⟨_, _, rfl, rfl, rfl, rfl, ?_, ?_, Or.inr ⟨hfs, rfl, rfl⟩⟩
      · intro k hk
        show (if k = u32 p then none else h.buffers k) = h.buffers k
        rw [if_neg hk]
      · refine Or.inr (Or.inr ⟨?_, hfs⟩)
        show (if u32 p = u32 p then none else h.buffers (u32 p)) = none
        rw [if_pos rfl]
    · have hm : min 504 P.length = 504 := by omega
      have hm2 : min P.length 504 = 504 := by omega
      rw [hm, hm2]
      rw [checkFull_short _ _ _ _ (by
        rw [List.length_append, List.length_take, List.length_replicate]; omega)]
      have hne : fs ≠ [] := carries_ne_nil _ _ _ hcar (by
        intro e
        have := congrArg List.length e
        rw [List.length_drop, List.length_nil] at this
        omega)
      refine ⟨_, _, rfl, rfl, rfl, rfl, ?_, ?_, Or.inl ⟨hne, rfl, rfl⟩⟩
      · intro k hk
        show (if k = u32 p then _ else h.buffers k) = h.buffers k
        rw [if_neg hk]
      · refine Or.inr (Or.inl ⟨504, by omega, by omega, ?_, hcar⟩)
        show (if u32 p = u32 p then _ else h.buffers (u32 p)) = _
        rw [if_pos rfl]
  · obtain ⟨hne0, hl, ht, hg, hrest⟩ := hcar
    rw [List.length_drop] at hg
    have hvl : (P.take c ++ List.replicate (P.length - c) (0 : UInt8)).length = P.length := by
      rw [List.length_append, List.length_take, List.length_replicate]; omega
    have hrem : u32 ((P.take c ++ List.replicate (P.length - c) (0 : UInt8)).length
        + 4294967296 - c) = P.length - c := by
      rw [hvl]; unfold u32; omega
    have hvec := writeAt_progress P c 508 (le_of_lt hcn)
    have hmin : min 508 (P.length - c) = min (P.length - c) 508 := Nat.min_comm _ _
    rw [hmin] at hvec
    have hfirst : u32 (c + min (P.length - c) 508) = c + min (P.length - c) 508 := by
      unfold u32; omega
    unfold trackFrame
    rw [hpid, he]
    dsimp only
    rw [hrem, hg, hvec, hfirst]
    by_cases hn : P.length - c ≤ 508
    · have hm : c + min (P.length - c) 508 = P.length := by omega
      have hfs : fs = [] := carries_of_nil _ _ (by
        rw [List.drop_drop, List.drop_eq_nil_of_le (by omega)] at hrest; exact hrest)
      rw [hm, take_append_zeros_full P _ rfl]
      rw [checkFull_full _ _ _ _ msg rfl hmsg]
      refine ⟨_, _, rfl, rfl, rfl, rfl, ?_, ?_, Or.inr ⟨hfs, rfl, rfl⟩⟩
      · intro k hk
        show (if k = u32 p then none else h.buffers k) = h.buffers k
        rw [if_neg hk]
      · refine Or.inr (Or.inr ⟨?_, hfs⟩)
        show (if u32 p = u32 p then none else h.buffers (u32 p)) = none
        rw [if_pos rfl]
    · have hm : c + min (P.length - c) 508 = c + 508 := by omega
      rw [hm]
      rw [checkFull_short _ _ _ _ (by
        rw [List.length_append, List.length_take, List.length_replicate]; omega)]
      rw [List.drop_drop] at hrest
      have hne : fs ≠ [] := carries_ne_nil _ _ _ hrest (by
        intro e
        have := congrArg List.length e
        rw [List.length_drop, List.length_nil] at this
        omega)
      refine ⟨_, _, rfl, rfl, rfl, rfl, ?_, ?_, Or.inl ⟨hne, rfl, rfl⟩⟩
      · intro k hk
        show (if k = u32 p then _ else h.buffers k) = h.buffers k
        rw [if_neg hk]
      · refine Or.inr (Or.inl ⟨c + 508, by omega, by omega, ?_, hrest⟩)
        show (if u32 p = u32 p then _ else h.buffers (u32 p)) = _
        rw [if_pos rfl]
  · cases hnil

theorem encodedSize_cons (s : List UInt8) (A : List (List UInt8)) :
    encodedSize (s :: A) = s.length + 5 + encodedSize A := by
  simp [encodedSize]

theorem validArgs_of_size (A : List (List UInt8)) (h0 : ∀ s ∈ A, (0 : UInt8) ∉ s)
    (hs : encodedSize A < 4294967296) : ValidArgs A := by
  induction A with
  | nil => intro s hs; cases hs
  | cons a A ih =>
    rw [encodedSize_cons] at hs
    intro s hm
    rcases List.mem_cons.mp hm with rfl | hm
    · exact ⟨h0 _ (List.mem_cons_self _ _), by omega⟩
    · exact ih (fun t ht => h0 t (List.mem_cons_of_mem _ ht)) (by omega) s hm

theorem sendArgsBuf_length (A : List (List UInt8)) (hA : ValidArgs A) :
    (sendArgsBuf A).length = encodedSize A := by
  induction A with
  | nil => rfl
  | cons a A ih =>
    have ha := hA a (List.mem_cons_self _ _)
    rw [sendArgsBuf_cons_valid a A ha.1 ha.2, encodedSize_cons,
      List.length_append, List.length_append, List.length_append, storeU32_length,
      ih (fun t ht => hA t (List.mem_cons_of_mem _ ht))]
    simp only [List.length_cons, List.length_nil]
    omega

theorem cstr_withNul (A : List (List UInt8)) (h0 : ∀ s ∈ A, (0 : UInt8) ∉ s) :
    (withNul A).map cstr = A := by
  induction A with
  | nil => rfl
  | cons a A ih =>
    have ha : cstr (a ++ [0]) = a := by
      unfold cstr
      rw [List.takeWhile_append_of_pos]
      · simp
      · intro x hx
        simp only [bne_iff_ne, ne_eq]
        rintro rfl
        exact h0 _ (List.mem_cons_self _ _) hx
    simp only [withNul, List.map_cons] at ih ⊢
    rw [ha, ih (fun t ht => h0 t (List.mem_cons_of_mem _ ht))]

theorem senderAt_start (p : Nat) (P : List UInt8) :
    SenderAt p P (sendBuf p P P.length) none := by
  obtain ⟨f0, rest, he, hff, hc⟩ := sendBuf_shape p P
  exact Or.inl ⟨rfl, f0, rest, he, hff, hc⟩

theorem sendArgs_eq (p : Nat) (A : List (List UInt8)) (hP : (sendArgsBuf A).length < 4294967296) :
    sendArgs p A = sendBuf p (sendArgsBuf A) (sendArgsBuf A).length := by
  unfold sendArgs
  have : u32 (sendArgsBuf A).length = (sendArgsBuf A).length := by unfold u32; omega
  rw [this]

theorem senderAt_frames (p : Nat) (P : List UInt8) :
    ∀ (fs : List (List UInt8)) (e : Option (Nat × List UInt8)), SenderAt p P fs e →
      ∀ f ∈ fs, f.length = 512 := by
  intro fs e hs f hf
  rcases hs with ⟨_, f0, rest, hfs, hff, hc⟩ | ⟨c, _, _, _, hc⟩ | ⟨_, hnil⟩
  · subst hfs
    rcases List.mem_cons.mp hf with rfl | hm
    · exact hff.1
    · exact (carries_frames _ _ _ hc f hm).1
  · exact (carries_frames _ _ _ hc f hf).1
  · subst hnil; cases hf

theorem futureSize_ge (es : List Event) : (futureBytes es).length ≤ futureSize es := by
  induction es with
  | nil => exact Nat.le_refl _
  | cons e es ih =>
    cases e with
    | stop => simp only [futureBytes, futureSize]; omega
    | data b => simp only [futureBytes, futureSize, List.length_append]; omega

theorem recvIter_await (h : SingleInstanceHandle) (b : List UInt8) (es : List Event)
    (hc : h.ctrl = 0) (ha : h.avail = []) (hf : h.future = Event.data b :: es) (hb : b ≠ []) :
    recvIter h true = recvIter { h with avail := b, future := es } true := by
  have hsel : selectFds h true = .ok { h with ctrl := 0, avail := b, future := es } := by
    unfold selectFds
    rw [if_neg (by rw [hc, ha]; simp), if_neg (by simp), hf]
    simp only [awaitSelect, if_neg hb]
  have hsel2 : selectFds { h with avail := b, future := es } true
      = .ok { h with avail := b, future := es } :=
    selectFds_ready _ _ (Or.inr hb)
  unfold recvIter
  rw [hsel, hsel2]
  have : ({ h with ctrl := 0, avail := b, future := es } : SingleInstanceHandle)
      = { h with avail := b, future := es } := by
    cases h
    simp only at hc
    subst hc
    rfl
  rw [this]

theorem with_future_self (h : SingleInstanceHandle) :
    ({ h with future := h.future } : SingleInstanceHandle) = h := by
  cases h; rfl

theorem recvIter_next_avail (h : SingleInstanceHandle) (f tail : List UInt8)
    (hc : h.ctrl = 0) (hne : h.avail ≠ []) (hal : FrameAligned h) (hf : f.length = 512)
    (hs : h.avail ++ futureBytes h.future = f ++ tail) :
    recvIter h true = trackFrame h f (h.avail.drop 512) ∧
      h.avail.drop 512 ++ futureBytes h.future = tail ∧
      FrameAligned { h with avail := h.avail.drop 512 } := by
  have hpos : 0 < h.avail.length := List.length_pos.mpr hne
  have h512 : 512 ≤ h.avail.length := by have := hal.1; omega
  have htake : h.avail.take 512 = f := by
    have := congrArg (List.take 512) hs
    rw [List.take_append_of_le_length h512, List.take_left' hf] at this
    exact this
  have hsplit : h.avail = f ++ h.avail.drop 512 := by
    rw [← htake, List.take_append_drop]
  refine ⟨recvIter_frame h f _ true hc hf hsplit, ?_, ?_, ?_⟩
  · have := congrArg (List.drop 512) hs
    rw [List.drop_append_of_le_length h512, List.drop_left' hf] at this
    exact this
  · show (h.avail.drop 512).length % 512 = 0
    rw [List.length_drop]
    have := hal.1
    omega
  · exact hal.2

theorem recvIter_next (h : SingleInstanceHandle) (f tail : List UInt8)
    (hc : h.ctrl = 0) (hal : FrameAligned h) (hf : f.length = 512)
    (hs : h.avail ++ futureBytes h.future = f ++ tail) :
    ∃ rest es, recvIter h true = trackFrame { h with future := es } f rest ∧
      rest ++ futureBytes es = tail ∧
      FrameAligned { h with avail := rest, future := es } := by
  by_cases hne : h.avail = []
  · cases hfut : h.future with
    | nil =>
      rw [hne, hfut] at hs
      have := congrArg List.length hs
      simp only [futureBytes, List.append_nil, List.length_nil, List.length_append, hf] at this
      omega
    | cons e es =>
      obtain ⟨b, rfl, hb, hbl⟩ := hal.2 e (by rw [hfut]; exact List.mem_cons_self _ _)
      have hal2 : FrameAligned { h with avail := b, future := es } :=
        ⟨hbl, fun e he => hal.2 e (by rw [hfut]; exact List.mem_cons_of_mem _ he)⟩
      have hs2 : b ++ futureBytes es = f ++ tail := by
        rw [hne, hfut] at hs
        simpa [futureBytes] using hs
      obtain ⟨h1, h2, h3⟩ := recvIter_next_avail { h with avail := b, future := es } f tail
        hc hb hal2 hf hs2
      refine ⟨b.drop 512, es, ?_, h2, h3⟩
      rw [recvIter_await h b es hc hne hfut hb, h1]
      rfl
  · obtain ⟨h1, h2, h3⟩ := recvIter_next_avail h f tail hc hne hal hf hs
    refine ⟨h.avail.drop 512, h.future, ?_, h2, ?_⟩
    · rw [h1, with_future_self]
    · exact h3

theorem future_nil_of_bytes (es : List Event)
    (hal : ∀ e ∈ es, ∃ b, e = Event.data b ∧ b ≠ [] ∧ b.length % 512 = 0)
    (hb : futureBytes es = []) : es = [] := by
  cases es with
  | nil => rfl
  | cons e es =>
    obtain ⟨b, rfl, hne, _⟩ := hal e (List.mem_cons_self _ _)
    simp only [futureBytes, List.append_eq_nil] at hb
    exact absurd hb.1 hne

theorem checkLoop_sender (p : Nat) (P : List UInt8) (msg : List (List UInt8))
    (hP : P.length < 4294967296) (hmsg : parseArgs P = .ok msg) :
    ∀ (fs : List (List UInt8)) (fuel : Nat) (h : SingleInstanceHandle),
      fs.length ≤ fuel → fs ≠ [] → SenderAt p P fs (h.buffers (u32 p)) → h.ctrl = 0 →
      h.pending = [] → FrameAligned h → h.avail ++ futureBytes h.future = fs.flatten →
      ∃ h', checkLoop fuel h true = .ok h' ∧ h'.pending = [msg] ∧ h'.avail = [] ∧
        h'.future = [] ∧ h'.ctrl = 0 ∧ h'.buffers (u32 p) = none ∧
        ∀ k, k ≠ u32 p → h'.buffers k = h.buffers k := by
  intro fs
  induction fs with
  | nil => intro fuel h _ hne; exact absurd rfl hne
  | cons f fs ih =>
    intro fuel h hfuel _ hs hc hp hal hbytes
    obtain ⟨k, rfl⟩ : ∃ k, fuel = k + 1 := ⟨fuel - 1, by simp at hfuel; omega⟩
    have hfl := (senderAt_length p P f fs _ hs).1
    rw [List.flatten_cons] at hbytes
    obtain ⟨rest, es, hrec, htail, hal'⟩ := recvIter_next h f fs.flatten hc hal hfl hbytes
    obtain ⟨r, h', htrack, hav, hctrl, hfut, hbuf, hs', hcase⟩ :=
      senderAt_step p P msg hP hmsg { h with future := es } f rest fs hs
    rw [htrack] at hrec
    rw [checkLoop, hrec]
    dsimp only
    rcases hcase with ⟨hne, hr, hpend⟩ | ⟨hnil, hr, hpend⟩
    · subst hr
      have hp' : h'.pending = [] := by rw [hpend]; exact hp
      rw [if_pos ⟨by decide, Or.inl (by decide)⟩]
      have hal2 : FrameAligned h' := by
        refine ⟨?_, ?_⟩
        · rw [hav]; exact hal'.1
        · rw [hfut]; exact hal'.2
      obtain ⟨h'', hl, h1, h2, h3, h4, h5, h6⟩ := ih k h' (by simp at hfuel; omega) hne hs'
        (by rw [hctrl]; exact hc) hp' hal2 (by rw [hav, hfut]; exact htail)
      exact ⟨h'', hl, h1, h2, h3, h4, h5, fun j hj => by rw [h6 j hj, hbuf j hj]⟩
    · subst hr
      subst hnil
      have hp' : h'.pending = [msg] := by rw [hpend]; show h.pending ++ [msg] = _; rw [hp]; rfl
      rw [if_neg (by
        rintro ⟨_, h1 | ⟨_, h2⟩⟩
        · exact h1 rfl
        · rw [hp'] at h2; simp at h2)]
      rw [List.flatten_nil, List.append_eq_nil] at htail
      have hes : es = [] := future_nil_of_bytes es hal'.2 htail.2
      refine ⟨h', rfl, hp', ?_, ?_, ?_, ?_, hbuf⟩
      · rw [hav]; exact htail.1
      · rw [hfut]; exact hes
      · rw [hctrl]; exact hc
      · rcases hs' with ⟨he, _⟩ | ⟨c, _, _, _, hcar⟩ | ⟨he, _⟩
        · exact he
        · exact absurd hcar (by
            intro hcar
            simp only [Carries] at hcar
            have := congrArg List.length hcar
            rw [List.length_drop, List.length_nil] at this
            omega)
        · exact he

theorem futureBytes_data (chunks : List (List UInt8)) :
    futureBytes (chunks.map Event.data) = chunks.flatten := by
  induction chunks with
  | nil => rfl
  | cons c cs ih => simp only [List.map_cons, futureBytes, List.flatten_cons, ih]

theorem flatten_length_ge (fs : List (List UInt8)) (h : ∀ f ∈ fs, f.length = 512) :
    fs.length ≤ fs.flatten.length := by
  induction fs with
  | nil => exact Nat.le_refl _
  | cons f fs ih =>
    have h1 := h f (List.mem_cons_self _ _)
    have h2 := ih (fun g hg => h g (List.mem_cons_of_mem _ hg))
    rw [List.flatten_cons, List.length_append, List.length_cons]
    omega

theorem buffers_empty_of (b : pidbufmap) (k : Nat) (hk : b k = none)
    (h : ∀ j, j ≠ k → b j = pidbufmap.empty j) : b = pidbufmap.empty := by
  funext j
  by_cases hj : j = k
  · subst hj; exact hk
  · exact h j hj

theorem check_delivers (p : Nat) (A : List (List UInt8)) (h0 : ∀ s ∈ A, (0 : UInt8) ∉ s)
    (hs : encodedSize A < 4294967296) (avail : List UInt8) (chunks : List (List UInt8))
    (hav : avail.length % 512 = 0) (hch : ∀ c ∈ chunks, c ≠ [] ∧ c.length % 512 = 0)
    (hb : avail ++ chunks.flatten = (sendArgs p A).flatten) :
    singleInstanceCheck (freshHandle avail (chunks.map Event.data)) true
      = .ok ((1, some (A.length, withNul A)),
          { buffers := pidbufmap.empty, pending := [withNul A], avail := [], ctrl := 0,
            future := [] }) := by
  have hA := validArgs_of_size A h0 hs
  have hlen := sendArgsBuf_length A hA
  have hP : (sendArgsBuf A).length < 4294967296 := by rw [hlen]; exact hs
  have hmsg := parseArgs_sendArgsBuf A hA
  have hfs := sendArgs_eq p A hP
  have hstart : SenderAt p (sendArgsBuf A) (sendArgs p A) none := by
    rw [hfs]; exact senderAt_start p _
  have hne : sendArgs p A ≠ [] := by
    rw [hfs]
    obtain ⟨f0, rest, he, _⟩ := sendBuf_shape p (sendArgsBuf A)
    rw [he]; exact List.cons_ne_nil _ _
  have hfr := senderAt_frames p _ _ _ hstart
  have hal : FrameAligned (freshHandle avail (chunks.map Event.data)) := by
    refine ⟨hav, ?_⟩
    intro e he
    obtain ⟨c, hc, rfl⟩ := List.mem_map.mp he
    exact ⟨c, rfl, (hch c hc).1, (hch c hc).2⟩
  have hbytes : (freshHandle avail (chunks.map Event.data)).avail
      ++ futureBytes (freshHandle avail (chunks.map Event.data)).future
      = (sendArgs p A).flatten := by
    show avail ++ futureBytes (chunks.map Event.data) = _
    rw [futureBytes_data, hb]
  have hfuel : (sendArgs p A).length ≤ checkBound (freshHandle avail (chunks.map Event.data)) := by
    have h1 := flatten_length_ge _ hfr
    have h2 := futureSize_ge (chunks.map Event.data)
    have h3 := congrArg List.length hbytes
    rw [List.length_append] at h3
    show _ ≤ avail.length + 0 + futureSize (chunks.map Event.data) + 1
    have h4 : (freshHandle avail (chunks.map Event.data)).avail.length = avail.length := rfl
    have h5 : (freshHandle avail (chunks.map Event.data)).future = chunks.map Event.data := rfl
    rw [h4, h5] at h3
    omega
  obtain ⟨h', hl, h1, h2, h3, h4, h5, h6⟩ := checkLoop_sender p (sendArgsBuf A) (withNul A) hP hmsg
    (sendArgs p A) _ (freshHandle avail (chunks.map Event.data)) hfuel hne hstart rfl rfl hal hbytes
  have hbuf : h'.buffers = pidbufmap.empty := buffers_empty_of _ _ h5 h6
  have hh : h' =
      { buffers := pidbufmap.empty, pending := [withNul A], avail := [], ctrl := 0,
        future := [] } := by
    cases h'
    simp only at h1 h2 h3 h4 hbuf
    subst h1 h2 h3 h4 hbuf
    rfl
  subst hh
  unfold singleInstanceCheck
  rw [if_neg (by show ¬ ((([] : List (List (List UInt8))).length) ≠ 0); simp), hl]
  have hwl : (withNul A).length = A.length := by unfold withNul; exact List.length_map _ _
  dsimp only [report]
  rw [hwl]

theorem check_idle (h : SingleInstanceHandle) (hp : h.pending = []) (hc : h.ctrl = 0)
    (ha : h.avail = []) :
    singleInstanceCheck h false = .ok ((0, none), h) := by
  have hsel : selectFds h false = .ok h := by
    unfold selectFds
    rw [if_neg (by rw [hc, ha]; simp), if_pos rfl]
  have hrec : recvIter h false = .ok (0, h) := by
    unfold recvIter
    rw [hsel]
    dsimp only
    rw [if_neg (fun hne => hne hc), if_pos ha]
  unfold singleInstanceCheck
  rw [if_neg (by rw [hp]; simp)]
  unfold checkBound
  rw [checkLoop, hrec]
  dsimp only
  rw [if_neg (by rintro ⟨_, h1 | ⟨h2, _⟩⟩; exact h1 rfl; cases h2)]
  dsimp only
  unfold report
  rw [hp]

theorem flatten_length_mod (fs : List (List UInt8)) (h : ∀ f ∈ fs, f.length = 512) :
    fs.flatten.length % 512 = 0 := by
  induction fs with
  | nil => rfl
  | cons f fs ih =>
    have h1 := h f (List.mem_cons_self _ _)
    have h2 := ih (fun g hg => h g (List.mem_cons_of_mem _ hg))
    rw [List.flatten_cons, List.length_append]
    omega

theorem sendArgs_frames (p : Nat) (A : List (List UInt8)) :
    ∀ f ∈ sendArgs p A, f.length = 512 := by
  have hlt : u32 (sendArgsBuf A).length < 4294967296 := Nat.mod_lt _ (by decide)
  unfold sendArgs
  generalize u32 (sendArgsBuf A).length = n at hlt
  -- the frames of `sendBuf` have 512 bytes whatever the length handed over
  have key : ∀ (fuel : Nat) (sndbuf buf : List UInt8) (len : Nat), sndbuf.length = 512 →
      ∀ f ∈ sendBufLoop fuel sndbuf buf len, f.length = 512 := by
    intro fuel
    induction fuel with
    | zero => intro _ _ _ _ f hf; simp [sendBufLoop] at hf
    | succ k ih =>
      intro sndbuf buf len hs f hf
      rw [sendBufLoop] at hf
      by_cases h0 : len = 0
      · rw [if_pos h0] at hf; cases hf
      · rw [if_neg h0] at hf
        have hl : (writeAt sndbuf 4 (List.take (if len < 512 - 4 then len else 512 - 4) buf)).length
            = 512 := by
          unfold writeAt
          simp only [List.length_append, List.length_take, List.length_drop]
          split <;> omega
        rcases List.mem_cons.mp hf with rfl | hm
        · exact hl
        · exact ih _ _ _ hl f hm
  intro f hf
  unfold sendBuf at hf
  have hl : (writeAt (writeAt (writeAt (List.replicate 512 (0 : UInt8)) 0 (storeU32 p)) 4
      (storeU32 n)) (2 * 4)
      (List.take (if n < 512 - 2 * 4 then n else 512 - 2 * 4) (sendArgsBuf A))).length = 512 := by
    unfold writeAt
    simp only [List.length_append, List.length_take, List.length_drop, List.length_replicate,
      storeU32_length]
    split <;> omega
  rcases List.mem_cons.mp hf with rfl | hm
  · exact hl
  · exact key _ _ _ _ hl f hm

theorem hugeArgs_nulfree : ∀ s ∈ hugeArgs, (0 : UInt8) ∉ s := by
  intro s hs
  rw [hugeArgs, List.mem_singleton] at hs
  subst hs
  intro hm
  exact absurd (List.eq_of_mem_replicate hm) (by decide)

theorem hugeArgs_buf_length : (sendArgsBuf hugeArgs).length = 4294967296 := by
  have hv : ValidArgs hugeArgs := by
    intro s hs
    refine ⟨hugeArgs_nulfree s hs, ?_⟩
    rw [hugeArgs, List.mem_singleton] at hs
    subst hs
    rw [List.length_replicate]
    decide
  rw [sendArgsBuf_length _ hv]
  unfold encodedSize hugeArgs
  rw [List.map_cons, List.map_nil, List.sum_cons, List.sum_nil, List.length_replicate]
  rfl

theorem sendBuf_zero (p : Nat) (buf : List UInt8) : sendBuf p buf 0 = sendBuf p [] 0 := by
  unfold sendBuf
  dsimp only
  rw [if_pos (by decide)]
  rw [List.take_zero, List.take_zero]
  rfl

theorem sendArgs_hugeArgs (p : Nat) : sendArgs p hugeArgs = sendArgs p [] := by
  unfold sendArgs
  have h1 : u32 (sendArgsBuf hugeArgs).length = 0 := by rw [hugeArgs_buf_length]; rfl
  have h2 : u32 (sendArgsBuf []).length = 0 := rfl
  rw [h1, h2, sendBuf_zero p (sendArgsBuf hugeArgs), sendBuf_zero p (sendArgsBuf [])]

theorem senderAt_done (p : Nat) (P : List UInt8) (e : Option (Nat × List UInt8))
    (hs : SenderAt p P [] e) : e = none := by
  rcases hs with ⟨he, _⟩ | ⟨c, _, hc, _, hcar⟩ | ⟨he, _⟩
  · exact he
  · exact absurd hcar (by
      intro hcar
      simp only [Carries] at hcar
      have := congrArg List.length hcar
      rw [List.length_drop, List.length_nil] at this
      omega)
  · exact he

theorem feed_step (p : Nat) (P : List UInt8) (msg : List (List UInt8))
    (hP : P.length < 4294967296) (hmsg : parseArgs P = .ok msg)
    (h : SingleInstanceHandle) (f : List UInt8) (fs rest : List (List UInt8))
    (hs : SenderAt p P (f :: fs) (h.buffers (u32 p))) (ha : h.avail = []) (hc : h.ctrl = 0) :
    ∃ h1, feedFrames (f :: rest) h = feedFrames rest h1 ∧ h1.avail = [] ∧ h1.ctrl = 0 ∧
      h1.future = h.future ∧ (∀ k, k ≠ u32 p → h1.buffers k = h.buffers k) ∧
      SenderAt p P fs (h1.buffers (u32 p)) ∧
      ((fs ≠ [] ∧ h1.pending = h.pending) ∨ (fs = [] ∧ h1.pending = h.pending ++ [msg])) := by
  have hfl := (senderAt_length p P f fs _ hs).1
  obtain ⟨r, h', htrack, hav, hctrl, hfut, hbuf, hs', hcase⟩ :=
    senderAt_step p P msg hP hmsg { h with avail := h.avail ++ f } f [] fs hs
  have hrec : recvIter { h with avail := h.avail ++ f } true = .ok (r, h') := by
    rw [recvIter_frame { h with avail := h.avail ++ f } f [] true hc hfl
      (by show h.avail ++ f = f ++ []; rw [ha, List.nil_append, List.append_nil]), htrack]
  refine ⟨h', ?_, hav, by rw [hctrl]; exact hc, hfut, hbuf, hs', ?_⟩
  · rw [feedFrames, hrec]
  · rcases hcase with ⟨h1, _, h3⟩ | ⟨h1, _, h3⟩
    · exact Or.inl ⟨h1, h3⟩
    · exact Or.inr ⟨h1, h3⟩

theorem getLast?_cons_of_ne_nil {α : Type} (x : α) (s : List α) (hs : s ≠ []) :
    (x :: s).getLast? = s.getLast? := by
  cases s with
  | nil => exact absurd rfl hs
  | cons y s => rfl

theorem getLast?_all_false (s : List Bool) (hs : s ≠ []) (hc : s.count true = 0) :
    s.getLast? = some false := by
  induction s with
  | nil => exact absurd rfl hs
  | cons b s ih =>
    cases b with
    | true => simp at hc
    | false =>
      rw [List.count_cons_of_ne (by decide)] at hc
      by_cases hn : s = []
      · subst hn; rfl
      · rw [getLast?_cons_of_ne_nil _ _ hn]; exact ih hn hc

theorem getLast?_all_true (s : List Bool) (hs : s ≠ []) (hc : s.count false = 0) :
    s.getLast? = some true := by
  induction s with
  | nil => exact absurd rfl hs
  | cons b s ih =>
    cases b with
    | false => simp at hc
    | true =>
      rw [List.count_cons_of_ne (by decide)] at hc
      by_cases hn : s = []
      · subst hn; rfl
      · rw [getLast?_cons_of_ne_nil _ _ hn]; exact ih hn hc

theorem ne_nil_of_count {b : Bool} (s : List Bool) (n : Nat) (hc : s.count b = n + 1) :
    s ≠ [] := by
  intro e
  subst e
  simp at hc

theorem feed_two (p q : Nat) (P Q : List UInt8) (mP mQ : List (List UInt8))
    (hpq : u32 p ≠ u32 q)
    (hP : P.length < 4294967296) (hmP : parseArgs P = .ok mP)
    (hQ : Q.length < 4294967296) (hmQ : parseArgs Q = .ok mQ) :
    ∀ (sched : List Bool) (fsP fsQ : List (List UInt8)) (h : SingleInstanceHandle),
      sched.count true = fsP.length → sched.count false = fsQ.length →
      SenderAt p P fsP (h.buffers (u32 p)) → SenderAt q Q fsQ (h.buffers (u32 q)) →
      (∀ k, k ≠ u32 p → k ≠ u32 q → h.buffers k = none) → h.avail = [] → h.ctrl = 0 →
      ∃ h', feedFrames (mergeFrames sched fsP fsQ) h = .ok h' ∧ h'.avail = [] ∧ h'.ctrl = 0 ∧
        h'.future = h.future ∧ h'.buffers = pidbufmap.empty ∧
        h'.pending = h.pending ++ queueOrder sched mP mQ fsP fsQ := by
  intro sched
  induction sched with
  | nil =>
    intro fsP fsQ h hcP hcQ hsP hsQ hoth ha hc
    have eP : fsP = [] := List.length_eq_zero.mp (by rw [← hcP]; rfl)
    have eQ : fsQ = [] := List.length_eq_zero.mp (by rw [← hcQ]; rfl)
    subst eP eQ
    refine ⟨h, rfl, ha, hc, rfl, ?_, ?_⟩
    · funext k
      by_cases h1 : k = u32 p
      · subst h1; exact senderAt_done p P _ hsP
      · by_cases h2 : k = u32 q
        · subst h2; exact senderAt_done q Q _ hsQ
        · exact hoth k h1 h2
    · show h.pending = h.pending ++ []
      rw [List.append_nil]
  | cons b s ih =>
    intro fsP fsQ h hcP hcQ hsP hsQ hoth ha hc
    cases b with
    | true =>
      rw [List.count_cons_self] at hcP
      rw [List.count_cons_of_ne (by decide)] at hcQ
      cases fsP with
      | nil => simp at hcP
      | cons f fsP' =>
        rw [List.length_cons] at hcP
        have hcP' : s.count true = fsP'.length := by omega
        obtain ⟨h1, hfeed, hav, hctrl, hfut, hbuf, hsP', hcase⟩ :=
          feed_step p P mP hP hmP h f fsP' (mergeFrames s fsP' fsQ) hsP ha hc
        have hsQ' : SenderAt q Q fsQ (h1.buffers (u32 q)) := by
          rw [hbuf _ (fun e => hpq e.symm)]; exact hsQ
        have hoth' : ∀ k, k ≠ u32 p → k ≠ u32 q → h1.buffers k = none := by
          intro k k1 k2; rw [hbuf k k1]; exact hoth k k1 k2
        obtain ⟨h', hf', a1, a2, a3, a4, a5⟩ := ih fsP' fsQ h1 hcP' hcQ hsP' hsQ' hoth' hav hctrl
        refine ⟨h', ?_, a1, a2, by rw [a3, hfut], a4, ?_⟩
        · show feedFrames (f :: mergeFrames s fsP' fsQ) h = _
          rw [hfeed, hf']
        · rw [a5]
          rcases hcase with ⟨hne, hpend⟩ | ⟨hnil, hpend⟩
          · rw [hpend]
            congr 1
            obtain ⟨g, gs, rfl⟩ := List.exists_cons_of_ne_nil hne
            have hsne : s ≠ [] := ne_nil_of_count s gs.length hcP'
            cases fsQ with
            | nil => rfl
            | cons y ys =>
              show (if s.getLast? = some false then _ else _)
                = (if (true :: s).getLast? = some false then _ else _)
              rw [getLast?_cons_of_ne_nil _ _ hsne]
          · subst hnil
            rw [hpend, List.append_assoc]
            congr 1
            cases fsQ with
            | nil => rfl
            | cons y ys =>
              have hsne : s ≠ [] := ne_nil_of_count s ys.length hcQ
              show [mP] ++ [mQ] = (if (true :: s).getLast? = some false then _ else _)
              rw [getLast?_cons_of_ne_nil _ _ hsne, getLast?_all_false s hsne hcP', if_pos rfl]
              rfl
    | false =>
      rw [List.count_cons_self] at hcQ
      rw [List.count_cons_of_ne (by decide)] at hcP
      cases fsQ with
      | nil => simp at hcQ
      | cons f fsQ' =>
        rw [List.length_cons] at hcQ
        have hcQ' : s.count false = fsQ'.length := by omega
        obtain ⟨h1, hfeed, hav, hctrl, hfut, hbuf, hsQ', hcase⟩ :=
          feed_step q Q mQ hQ hmQ h f fsQ' (mergeFrames s fsP fsQ') hsQ ha hc
        have hsP' : SenderAt p P fsP (h1.buffers (u32 p)) := by
          rw [hbuf _ hpq]; exact hsP
        have hoth' : ∀ k, k ≠ u32 p → k ≠ u32 q → h1.buffers k = none := by
          intro k k1 k2; rw [hbuf k k2]; exact hoth k k1 k2
        obtain ⟨h', hf', a1, a2, a3, a4, a5⟩ := ih fsP fsQ' h1 hcP hcQ' hsP' hsQ' hoth' hav hctrl
        refine ⟨h', ?_, a1, a2, by rw [a3, hfut], a4, ?_⟩
        · have hm : mergeFrames (false :: s) fsP (f :: fsQ') = f :: mergeFrames s fsP fsQ' := by
            cases fsP <;> rfl
          rw [hm, hfeed, hf']
        · rw [a5]
          rcases hcase with ⟨hne, hpend⟩ | ⟨hnil, hpend⟩
          · rw [hpend]
            congr 1
            obtain ⟨g, gs, rfl⟩ := List.exists_cons_of_ne_nil hne
            have hsne : s ≠ [] := ne_nil_of_count s gs.length hcQ'
            cases fsP with
            | nil => rfl
            | cons y ys =>
              show (if s.getLast? = some false then _ else _)
                = (if (false :: s).getLast? = some false then _ else _)
              rw [getLast?_cons_of_ne_nil _ _ hsne]
          · subst hnil
            rw [hpend, List.append_assoc]
            congr 1
            cases fsP with
            | nil => rfl
            | cons y ys =>
              have hsne : s ≠ [] := ne_nil_of_count s ys.length hcP
              show [mQ] ++ [mP] = (if (false :: s).getLast? = some false then _ else _)
              rw [getLast?_cons_of_ne_nil _ _ hsne, getLast?_all_true s hsne hcQ',
                if_neg (by decide)]
              rfl

theorem sendArgs_start (p : Nat) (A : List (List UInt8)) (h0 : ∀ s ∈ A, (0 : UInt8) ∉ s)
    (hs : encodedSize A < 4294967296) :
    (sendArgsBuf A).length < 4294967296 ∧ parseArgs (sendArgsBuf A) = .ok (withNul A) ∧
      SenderAt p (sendArgsBuf A) (sendArgs p A) none ∧
      ∃ f fs, sendArgs p A = f :: fs := by
  have hA := validArgs_of_size A h0 hs
  have hP : (sendArgsBuf A).length < 4294967296 := by rw [sendArgsBuf_length A hA]; exact hs
  have hfs := sendArgs_eq p A hP
  refine ⟨hP, parseArgs_sendArgsBuf A hA, ?_, ?_⟩
  · rw [hfs]; exact senderAt_start p _
  · rw [hfs]
    obtain ⟨f0, rest, he, _⟩ := sendBuf_shape p (sendArgsBuf A)
    exact ⟨f0, rest, he⟩

theorem feed_interleaved (p q : Nat) (A B : List (List UInt8)) (sched : List Bool)
    (hpq : u32 p ≠ u32 q)
    (hA0 : ∀ s ∈ A, (0 : UInt8) ∉ s) (hAs : encodedSize A < 4294967296)
    (hB0 : ∀ s ∈ B, (0 : UInt8) ∉ s) (hBs : encodedSize B < 4294967296)
    (hcP : sched.count true = (sendArgs p A).length)
    (hcQ : sched.count false = (sendArgs q B).length) :
    feedFrames (mergeFrames sched (sendArgs p A) (sendArgs q B)) (freshHandle [] [])
      = .ok { buffers := pidbufmap.empty,
              pending := if sched.getLast? = some false then [withNul A, withNul B]
                else [withNul B, withNul A],
              avail := [], ctrl := 0, future := [] } := by
  obtain ⟨hP, hmP, hsP, f, fs, heP⟩ := sendArgs_start p A hA0 hAs
  obtain ⟨hQ, hmQ, hsQ, g, gs, heQ⟩ := sendArgs_start q B hB0 hBs
  obtain ⟨h', hf, a1, a2, a3, a4, a5⟩ := feed_two p q _ _ _ _ hpq hP hmP hQ hmQ sched
    (sendArgs p A) (sendArgs q B) (freshHandle [] []) hcP hcQ hsP hsQ (fun _ _ _ => rfl) rfl rfl
  rw [hf]
  rw [heP, heQ] at a5
  cases h'
  simp only at a1 a2 a3 a4 a5
  subst a1 a2 a3 a4 a5
  rfl

theorem awaitRead_stops : ∀ (es : List Event) (c : Nat) (b : List UInt8) (es' : List Event)
    (c' : Nat), awaitRead es c = some (b, es', c') →
      c' + futureStops es' = c + futureStops es := by
  intro es
  induction es with
  | nil => intro c b es' c' h; simp [awaitRead] at h
  | cons e es ih =>
    intro c b es' c' h
    cases e with
    | stop =>
      rw [awaitRead] at h
      have := ih _ _ _ _ h
      simp only [futureStops]
      omega
    | data d =>
      rw [awaitRead] at h
      by_cases hd : d = []
      · rw [if_pos hd] at h
        have := ih _ _ _ _ h
        simp only [futureStops]
        exact this
      · rw [if_neg hd] at h
        simp only [Option.some.injEq, Prod.mk.injEq] at h
        obtain ⟨_, rfl, rfl⟩ := h
        rfl

theorem awaitSelect_stops : ∀ (es : List Event) (c : Nat) (b : List UInt8) (es' : List Event),
    awaitSelect es = some (c, b, es') → c + futureStops es' = futureStops es := by
  intro es
  induction es with
  | nil => intro c b es' h; simp [awaitSelect] at h
  | cons e es ih =>
    intro c b es' h
    cases e with
    | stop =>
      rw [awaitSelect] at h
      simp only [Option.some.injEq, Prod.mk.injEq] at h
      obtain ⟨rfl, _, rfl⟩ := h
      simp only [futureStops]
      omega
    | data d =>
      rw [awaitSelect] at h
      by_cases hd : d = []
      · rw [if_pos hd] at h
        exact ih _ _ _ h
      · rw [if_neg hd] at h
        simp only [Option.some.injEq, Prod.mk.injEq] at h
        obtain ⟨rfl, _, rfl⟩ := h
        simp only [futureStops]
        omega

theorem readPipe_effect (h h1 : SingleInstanceHandle) (n : Nat) (bs : List UInt8)
    (hr : readPipe h n = .ok (bs, h1)) :
    h1.buffers = h.buffers ∧ h1.pending = h.pending ∧ stopsLeft h1 = stopsLeft h := by
  unfold readPipe at hr
  by_cases hn : n = 0
  · rw [if_pos hn] at hr
    simp only [Except.ok.injEq, Prod.mk.injEq] at hr
    obtain ⟨_, rfl⟩ := hr
    exact ⟨rfl, rfl, rfl⟩
  · rw [if_neg hn] at hr
    cases ha : h.avail with
    | cons a as =>
      rw [ha] at hr
      simp only [Except.ok.injEq, Prod.mk.injEq] at hr
      obtain ⟨_, rfl⟩ := hr
      exact ⟨rfl, rfl, rfl⟩
    | nil =>
      rw [ha] at hr
      dsimp only at hr
      cases hw : awaitRead h.future h.ctrl with
      | none => rw [hw] at hr; cases hr
      | some t =>
        obtain ⟨b, es, c⟩ := t
        rw [hw] at hr
        simp only [Except.ok.injEq, Prod.mk.injEq] at hr
        obtain ⟨_, rfl⟩ := hr
        exact ⟨rfl, rfl, awaitRead_stops _ _ _ _ _ hw⟩

theorem selectFds_effect (h h1 : SingleInstanceHandle) (wait : Bool)
    (hr : selectFds h wait = .ok h1) :
    h1.buffers = h.buffers ∧ h1.pending = h.pending ∧ stopsLeft h1 = stopsLeft h := by
  unfold selectFds at hr
  by_cases hc : h.ctrl ≠ 0 ∨ h.avail ≠ []
  · rw [if_pos hc] at hr
    cases hr
    exact ⟨rfl, rfl, rfl⟩
  · rw [if_neg hc] at hr
    by_cases hw : wait = false
    · rw [if_pos hw] at hr
      cases hr
      exact ⟨rfl, rfl, rfl⟩
    · rw [if_neg hw] at hr
      cases hs : awaitSelect h.future with
      | none => rw [hs] at hr; cases hr
      | some t =>
        obtain ⟨c, b, es⟩ := t
        rw [hs] at hr
        simp only [Except.ok.injEq] at hr
        subst hr
        refine ⟨rfl, rfl, ?_⟩
        have hc0 : h.ctrl = 0 := by
          by_contra hne
          exact hc (Or.inl hne)
        have := awaitSelect_stops _ _ _ _ hs
        show c + futureStops es = h.ctrl + futureStops h.future
        omega

theorem checkFull_effect (h h1 : SingleInstanceHandle) (pid first : Nat) (vec : List UInt8)
    (r : Int) (hr : checkFull h pid first vec = .ok (r, h1)) :
    stopsLeft h1 = stopsLeft h ∧ h1.avail = h.avail ∧
      ((r = 1 ∧ h1.pending = h.pending) ∨ (r = 0 ∧ ∃ m, h1.pending = h.pending ++ [m])) := by
  unfold checkFull at hr
  by_cases hf : first ≠ vec.length
  · rw [if_pos hf] at hr
    simp only [Except.ok.injEq, Prod.mk.injEq] at hr
    obtain ⟨rfl, rfl⟩ := hr
    exact ⟨rfl, rfl, Or.inl ⟨rfl, rfl⟩⟩
  · rw [if_neg hf] at hr
    cases hp : parseArgs vec with
    | error e => rw [hp] at hr; cases hr
    | ok args =>
      rw [hp] at hr
      simp only [Except.ok.injEq, Prod.mk.injEq] at hr
      obtain ⟨rfl, rfl⟩ := hr
      exact ⟨rfl, rfl, Or.inr ⟨rfl, args, rfl⟩⟩

theorem recvPayload_effect (h h1 : SingleInstanceHandle) (pid first toRead : Nat)
    (vec : List UInt8) (r : Int) (hr : recvPayload h pid first vec toRead = .ok (r, h1)) :
    StepEffect h h1 r := by
  unfold recvPayload at hr
  generalize u32 (vec.length + 4294967296 - first) = remaining at hr
  dsimp only at hr
  generalize (if remaining < toRead then remaining else toRead) = useful at hr
  generalize (if remaining < toRead then toRead - remaining else 0) = trash at hr
  cases h2r : readPipe h useful with
  | error e => rw [h2r] at hr; cases hr
  | ok t =>
    obtain ⟨got, h2⟩ := t
    rw [h2r] at hr
    dsimp only at hr
    obtain ⟨_, p2, s2⟩ := readPipe_effect _ _ _ _ h2r
    by_cases hg : got.length ≠ useful
    · rw [if_pos hg] at hr
      simp only [Except.ok.injEq, Prod.mk.injEq] at hr
      obtain ⟨rfl, rfl⟩ := hr
      exact ⟨s2, Or.inl ⟨p2, Or.inl rfl⟩⟩
    · rw [if_neg hg] at hr
      have key : ∀ h3, stopsLeft h3 = stopsLeft h → h3.pending = h.pending →
          checkFull h3 pid (u32 (first + got.length)) (writeAt vec first got) = .ok (r, h1) →
          StepEffect h h1 r := by
        intro h3 s3 p3 hc
        obtain ⟨s4, _, hcase⟩ := checkFull_effect _ _ _ _ _ _ hc
        refine ⟨by rw [s4, s3], ?_⟩
        rcases hcase with ⟨r1, p4⟩ | ⟨r0, m, p4⟩
        · exact Or.inl ⟨by rw [p4, p3], Or.inr r1⟩
        · exact Or.inr ⟨r0, m, by rw [p4, p3]⟩
      by_cases ht : trash ≠ 0
      · rw [if_pos ht] at hr
        cases h3r : readPipe h2 trash with
        | error e => rw [h3r] at hr; cases hr
        | ok t3 =>
          obtain ⟨junk, h3⟩ := t3
          rw [h3r] at hr
          dsimp only at hr
          obtain ⟨_, p3, s3⟩ := readPipe_effect _ _ _ _ h3r
          exact key h3 (by rw [s3, s2]) (by rw [p3, p2]) hr
      · rw [if_neg ht] at hr
        dsimp only at hr
        exact key h2 s2 p2 hr

theorem recvBody_effect (h h1 : SingleInstanceHandle) (pid : Nat) (r : Int)
    (hr : recvBody h pid = .ok (r, h1)) : StepEffect h h1 r := by
  unfold recvBody at hr
  cases hb : h.buffers pid with
  | some e =>
    obtain ⟨first, vec⟩ := e
    rw [hb] at hr
    exact recvPayload_effect _ _ _ _ _ _ _ hr
  | none =>
    rw [hb] at hr
    dsimp only at hr
    cases h2r : readPipe h 4 with
    | error e => rw [h2r] at hr; cases hr
    | ok t =>
      obtain ⟨lenBytes, h2⟩ := t
      rw [h2r] at hr
      dsimp only at hr
      obtain ⟨_, p2, s2⟩ := readPipe_effect _ _ _ _ h2r
      by_cases hl : lenBytes.length ≠ 4
      · rw [if_pos hl] at hr; cases hr
      · rw [if_neg hl] at hr
        obtain ⟨s3, hcase⟩ := recvPayload_effect _ _ _ _ _ _ _ hr
        refine ⟨by rw [s3, s2], ?_⟩
        rw [p2] at hcase
        exact hcase

theorem recvIter_effect (h h1 : SingleInstanceHandle) (wait : Bool) (r : Int)
    (hr : recvIter h wait = .ok (r, h1)) :
    (r = -1 ∧ stopsLeft h1 + 1 = stopsLeft h ∧ h1.pending = h.pending ∧
        h1.buffers = h.buffers) ∨
      StepEffect h h1 r := by
  unfold recvIter at hr
  cases hs : selectFds h wait with
  | error e => rw [hs] at hr; cases hr
  | ok h0 =>
    rw [hs] at hr
    dsimp only at hr
    obtain ⟨b0, p0, s0⟩ := selectFds_effect _ _ _ hs
    by_cases hc : h0.ctrl ≠ 0
    · rw [if_pos hc] at hr
      simp only [Except.ok.injEq, Prod.mk.injEq] at hr
      obtain ⟨rfl, rfl⟩ := hr
      refine Or.inl ⟨rfl, ?_, p0, b0⟩
      rw [← s0]
      show h0.ctrl - 1 + futureStops h0.future + 1 = h0.ctrl + futureStops h0.future
      omega
    · rw [if_neg hc] at hr
      by_cases ha : h0.avail = []
      · rw [if_pos ha] at hr
        simp only [Except.ok.injEq, Prod.mk.injEq] at hr
        obtain ⟨rfl, rfl⟩ := hr
        exact Or.inr ⟨s0, Or.inl ⟨p0, Or.inl rfl⟩⟩
      · rw [if_neg ha] at hr
        cases h2r : readPipe h0 4 with
        | error e => rw [h2r] at hr; cases hr
        | ok t =>
          obtain ⟨pidBytes, h2⟩ := t
          rw [h2r] at hr
          dsimp only at hr
          obtain ⟨_, p2, s2⟩ := readPipe_effect _ _ _ _ h2r
          by_cases hl : pidBytes.length ≠ 4
          · rw [if_pos hl] at hr
            simp only [Except.ok.injEq, Prod.mk.injEq] at hr
            obtain ⟨rfl, rfl⟩ := hr
            exact Or.inr ⟨by rw [s2, s0], Or.inl ⟨by rw [p2, p0], Or.inr rfl⟩⟩
          · rw [if_neg hl] at hr
            obtain ⟨s3, hcase⟩ := recvBody_effect _ _ _ _ hr
            refine Or.inr ⟨by rw [s3, s2, s0], ?_⟩
            rw [p2, p0] at hcase
            exact hcase

theorem parseArgsLoop_fuel : ∀ (fuel : Nat) (data : List UInt8) (i : Nat)
    (args : List (List UInt8)), data.length - i < 4 * fuel →
      parseArgsLoop fuel data i args ≠ .error .fuel := by
  intro fuel
  induction fuel with
  | zero => intro data i args h; omega
  | succ k ih =>
    intro data i args h
    rw [parseArgsLoop]
    by_cases h1 : i < data.length
    · rw [if_pos h1]
      by_cases h2 : data.length < i + 4
      · rw [if_pos h2]; exact fun e => by cases e
      · rw [if_neg h2]
        dsimp only
        by_cases h3 : data.length < i + 4 + loadU32 (List.take 4 (List.drop i data))
        · rw [if_pos h3]; exact fun e => by cases e
        · rw [if_neg h3]
          exact ih _ _ _ (by omega)
    · rw [if_neg h1]; exact fun e => by cases e

theorem parseArgs_fuel (data : List UInt8) : parseArgs data ≠ .error .fuel := by
  unfold parseArgs
  have := parseArgsLoop_fuel (data.length + 1) data 0 [] (by omega)
  cases hp : parseArgsLoop (data.length + 1) data 0 [] with
  | error e =>
    rw [hp] at this
    intro h
    cases h
    exact this rfl
  | ok t => exact fun e => by cases e

theorem parseArgs_cases (data : List UInt8) :
    (∃ m, parseArgs data = .ok m) ∨ parseArgs data = .error .undefined := by
  have hf := parseArgs_fuel data
  have hb : parseArgs data ≠ .error .blocked := by
    unfold parseArgs
    have key : ∀ (fuel : Nat) (i : Nat) (args : List (List UInt8)),
        parseArgsLoop fuel data i args ≠ .error .blocked := by
      intro fuel
      induction fuel with
      | zero => intro i args e; rw [parseArgsLoop] at e; cases e
      | succ k ih =>
        intro i args
        rw [parseArgsLoop]
        split
        · split
          · exact fun e => by cases e
          · dsimp only
            split
            · exact fun e => by cases e
            · exact ih _ _
        · exact fun e => by cases e
    cases hp : parseArgsLoop (data.length + 1) data 0 [] with
    | error e =>
      intro h
      cases h
      exact key _ _ _ hp
    | ok t => exact fun e => by cases e
  cases hp : parseArgs data with
  | ok m => exact Or.inl ⟨m, rfl⟩
  | error e =>
    cases e with
    | blocked => exact absurd hp hb
    | undefined => exact Or.inr rfl
    | fuel => exact absurd hp hf

theorem trackFrame_entry (h : SingleInstanceHandle) (f rest : List UInt8)
    (hinv : BufInv h) (hf : f.length = 512) :
    ∃ first vec, trackFrame h f rest
        = checkFull { h with avail := rest } (loadU32 f) first vec ∧
      first ≤ vec.length ∧ vec.length < 4294967296 ∧
      (h.buffers (loadU32 f) = none →
        vec.length = loadU32 (f.drop 4) ∧ first = min (loadU32 (f.drop 4)) 504 ∧
        vec = (f.drop 8).take first ++ List.replicate (vec.length - first) 0) ∧
      (∀ first0 vec0, h.buffers (loadU32 f) = some (first0, vec0) →
        vec.length = vec0.length ∧ first = first0 + min (vec0.length - first0) 508 ∧
        vec = vec0.take first0 ++ (f.drop 4).take (first - first0) ++ vec0.drop first) := by
  cases hb : h.buffers (loadU32 f) with
  | none =>
    have hlt := loadU32_lt (f.drop 4)
    have hsl : ((f.drop 8).take (min (loadU32 (f.drop 4)) 504)).length
        = min (loadU32 (f.drop 4)) 504 := by
      rw [List.length_take, List.length_drop]; omega
    refine ⟨_, _, by unfold trackFrame; rw [hb], ?_, ?_, ?_, ?_⟩
    · rw [writeAt_length _ _ _ (by rw [hsl, List.length_replicate]; omega),
        List.length_replicate]
      omega
    · rw [writeAt_length _ _ _ (by rw [hsl, List.length_replicate]; omega),
        List.length_replicate]
      exact hlt
    · intro _
      refine ⟨?_, rfl, ?_⟩
      · rw [writeAt_length _ _ _ (by rw [hsl, List.length_replicate]; omega),
          List.length_replicate]
      · rw [writeAt_length _ _ _ (by rw [hsl, List.length_replicate]; omega),
          List.length_replicate]
        unfold writeAt
        rw [List.take_zero, List.nil_append, hsl, Nat.zero_add, List.drop_replicate]
    · intro first0 vec0 e; cases e
  | some e =>
    obtain ⟨first0, vec0⟩ := e
    obtain ⟨h1, h2⟩ := hinv _ _ _ hb
    have hrem : u32 (vec0.length + 4294967296 - first0) = vec0.length - first0 := by
      unfold u32; omega
    have hfirst : u32 (first0 + min (vec0.length - first0) 508)
        = first0 + min (vec0.length - first0) 508 := by unfold u32; omega
    have hsl : ((f.drop 4).take (min (vec0.length - first0) 508)).length
        = min (vec0.length - first0) 508 := by
      rw [List.length_take, List.length_drop]; omega
    have hvl : (writeAt vec0 first0 ((f.drop 4).take (min (vec0.length - first0) 508))).length
        = vec0.length := writeAt_length _ _ _ (by rw [hsl]; omega)
    refine ⟨first0 + min (vec0.length - first0) 508,
      writeAt vec0 first0 ((f.drop 4).take (min (vec0.length - first0) 508)), ?_, ?_, ?_, ?_, ?_⟩
    · unfold trackFrame
      rw [hb]
      dsimp only
      rw [hrem, hfirst]
    · rw [hvl]; omega
    · rw [hvl]; exact h2
    · intro e; cases e
    · intro a b e
      simp only [Option.some.injEq, Prod.mk.injEq] at e
      obtain ⟨rfl, rfl⟩ := e
      refine ⟨hvl, rfl, ?_⟩
      unfold writeAt
      rw [hsl, Nat.add_sub_cancel_left]

theorem bufInv_fresh (avail : List UInt8) (future : List Event) :
    BufInv (freshHandle avail future) := by
  intro k first vec h
  cases h

theorem recvIter_frame_facts (h : SingleInstanceHandle) (f : List UInt8)
    (hinv : BufInv h) (ha : h.avail = []) (hc : h.ctrl = 0) (hf : f.length = 512) :
    ∃ first vec, first ≤ vec.length ∧ vec.length < 4294967296 ∧
      (h.buffers (loadU32 f) = none →
        vec.length = loadU32 (f.drop 4) ∧ first = min (loadU32 (f.drop 4)) 504 ∧
        vec = (f.drop 8).take first ++ List.replicate (vec.length - first) 0) ∧
      (∀ first0 vec0, h.buffers (loadU32 f) = some (first0, vec0) →
        vec.length = vec0.length ∧ first = first0 + min (vec0.length - first0) 508 ∧
        vec = vec0.take first0 ++ (f.drop 4).take (first - first0) ++ vec0.drop first) ∧
      ((first < vec.length ∧
          recvIter { h with avail := h.avail ++ f } true
            = .ok (1, { h with buffers := h.buffers.set (loadU32 f) (first, vec) })) ∨
        (first = vec.length ∧ ∃ m, parseArgs vec = .ok m ∧
          recvIter { h with avail := h.avail ++ f } true
            = .ok (0, { h with pending := h.pending ++ [m],
                               buffers := h.buffers.erase (loadU32 f) })) ∨
        (first = vec.length ∧ parseArgs vec = .error .undefined ∧
          recvIter { h with avail := h.avail ++ f } true = .error .undefined)) := by
  obtain ⟨first, vec, htrack, hle, hlt, hnew, hold⟩ :=
    trackFrame_entry { h with avail := h.avail ++ f } f [] hinv hf
  have hrec := recvIter_frame { h with avail := h.avail ++ f } f [] true hc hf
    (by show h.avail ++ f = f ++ []; rw [ha, List.nil_append, List.append_nil])
  rw [htrack] at hrec
  have hself : ({ h with avail := [] } : SingleInstanceHandle) = h := by
    cases h
    simp only at ha
    subst ha
    rfl
  refine ⟨first, vec, hle, hlt, hnew, hold, ?_⟩
  by_cases hfull : first = vec.length
  · rcases parseArgs_cases vec with ⟨m, hm⟩ | hu
    · refine Or.inr (Or.inl ⟨hfull, m, hm, ?_⟩)
      rw [hrec, checkFull_full _ _ _ _ m hfull hm]
      clear hrec htrack hnew hold hinv hself
      cases h
      simp only at ha
      subst ha
      rfl
    · refine Or.inr (Or.inr ⟨hfull, hu, ?_⟩)
      rw [hrec]
      unfold checkFull
      rw [if_neg (fun hne => hne hfull), hu]
  · refine Or.inl ⟨by omega, ?_⟩
    rw [hrec, checkFull_short _ _ _ _ hfull]
    clear hrec htrack hnew hold hinv hself
    cases h
    simp only at ha
    subst ha
    rfl

theorem feedFrames_inv : ∀ (fs : List (List UInt8)) (h h' : SingleInstanceHandle),
    (∀ f ∈ fs, f.length = 512) → BufInv h → h.avail = [] → h.ctrl = 0 →
      feedFrames fs h = .ok h' → BufInv h' ∧ h'.avail = [] ∧ h'.ctrl = 0 := by
  intro fs
  induction fs with
  | nil =>
    intro h h' _ hinv ha hc hr
    rw [feedFrames] at hr
    cases hr
    exact ⟨hinv, ha, hc⟩
  | cons f fs ih =>
    intro h h' hfs hinv ha hc hr
    have hf := hfs f (List.mem_cons_self _ _)
    obtain ⟨first, vec, hle, hlt, _, _, hcase⟩ := recvIter_frame_facts h f hinv ha hc hf
    rw [feedFrames] at hr
    rcases hcase with ⟨hl, hrec⟩ | ⟨_, m, _, hrec⟩ | ⟨_, _, hrec⟩
    · rw [hrec] at hr
      dsimp only at hr
      refine ih { h with buffers := h.buffers.set (loadU32 f) (first, vec) } h'
        (fun g hg => hfs g (List.mem_cons_of_mem _ hg)) ?_ ha hc hr
      intro k a b hk
      by_cases hkp : k = loadU32 f
      · have : (if k = loadU32 f then some (first, vec) else h.buffers k) = some (a, b) := hk
        rw [if_pos hkp] at this
        simp only [Option.some.injEq, Prod.mk.injEq] at this
        obtain ⟨rfl, rfl⟩ := this
        exact ⟨hl, hlt⟩
      · have : (if k = loadU32 f then some (first, vec) else h.buffers k) = some (a, b) := hk
        rw [if_neg hkp] at this
        exact hinv k a b this
    · rw [hrec] at hr
      dsimp only at hr
      refine ih { h with pending := h.pending ++ [m], buffers := h.buffers.erase (loadU32 f) } h'
        (fun g hg => hfs g (List.mem_cons_of_mem _ hg)) ?_ ha hc hr
      intro k a b hk
      by_cases hkp : k = loadU32 f
      · have : (if k = loadU32 f then none else h.buffers k) = some (a, b) := hk
        rw [if_pos hkp] at this
        cases this
      · have : (if k = loadU32 f then none else h.buffers k) = some (a, b) := hk
        rw [if_neg hkp] at this
        exact hinv k a b this
    · rw [hrec] at hr
      cases hr

theorem check_after_stop (h : SingleInstanceHandle) (hp : h.pending = []) (hc : h.ctrl = 0) :
    singleInstanceCheck (singleInstanceStopWait h) true = .ok ((0, none), h) := by
  have hsel : selectFds (singleInstanceStopWait h) true = .ok (singleInstanceStopWait h) :=
    selectFds_ready _ _ (Or.inl (by show h.ctrl + 1 ≠ 0; omega))
  have hback : ({ singleInstanceStopWait h with ctrl := (singleInstanceStopWait h).ctrl - 1 } :
      SingleInstanceHandle) = h := by
    cases h
    simp only at hc
    subst hc
    rfl
  have hrec : recvIter (singleInstanceStopWait h) true = .ok (-1, h) := by
    unfold recvIter
    rw [hsel]
    dsimp only
    rw [if_pos (by show h.ctrl + 1 ≠ 0; omega), hback]
  unfold singleInstanceCheck
  rw [if_neg (by show ¬ (h.pending.length ≠ 0); rw [hp]; simp)]
  unfold checkBound
  rw [checkLoop, hrec]
  dsimp only
  rw [if_neg (by rintro ⟨h1, _⟩; exact h1 rfl)]
  dsimp only
  unfold report
  rw [hp]

theorem checkLoop_exit : ∀ (fuel : Nat) (h h2 : SingleInstanceHandle),
    checkLoop fuel h true = .ok h2 → h2.pending ≠ [] ∨ stopsLeft h2 < stopsLeft h := by
  intro fuel
  induction fuel with
  | zero => intro h h2 hr; rw [checkLoop] at hr; cases hr
  | succ k ih =>
    intro h h2 hr
    rw [checkLoop] at hr
    cases hrec : recvIter h true with
    | error e => rw [hrec] at hr; cases hr
    | ok t =>
      obtain ⟨r, h1⟩ := t
      rw [hrec] at hr
      dsimp only at hr
      have heff := recvIter_effect h h1 true r hrec
      by_cases hcond : r ≠ -1 ∧ (r ≠ 0 ∨ (true = true ∧ h1.pending.length = 0))
      · rw [if_pos hcond] at hr
        rcases heff with ⟨hr1, _⟩ | ⟨hs, _⟩
        · exact absurd hr1 hcond.1
        · rcases ih h1 h2 hr with hp | hlt
          · exact Or.inl hp
          · exact Or.inr (by rw [← hs]; exact hlt)
      · rw [if_neg hcond] at hr
        cases hr
        rcases heff with ⟨_, hs, _⟩ | ⟨_, hcase⟩
        · exact Or.inr (by omega)
        · by_cases hr1 : r = -1
          · subst hr1
            rcases hcase with ⟨_, h0 | h0⟩ | ⟨h0, _⟩ <;> cases h0
          · left
            intro hnil
            apply hcond
            refine ⟨hr1, Or.inr ⟨rfl, ?_⟩⟩
            rw [hnil]
            rfl

theorem check_returns (h h2 : SingleInstanceHandle)
    (res : Int × Option (Nat × List (List UInt8)))
    (hp : h.pending = []) (hc : h.ctrl = 0)
    (hr : singleInstanceCheck h true = .ok (res, h2)) :
    (res.1 = 1 ∧ h2.pending ≠ []) ∨
      (res = (0, none) ∧ h2.pending = [] ∧ futureStops h2.future < futureStops h.future) := by
  unfold singleInstanceCheck at hr
  rw [if_neg (by rw [hp]; simp)] at hr
  cases hl : checkLoop (checkBound h) h true with
  | error e => rw [hl] at hr; cases hr
  | ok h1 =>
    rw [hl] at hr
    simp only [Except.ok.injEq, Prod.mk.injEq] at hr
    obtain ⟨rfl, rfl⟩ := hr
    have hex := checkLoop_exit _ _ _ hl
    cases hpend : h1.pending with
    | cons m ms =>
      left
      unfold report
      rw [hpend]
      exact ⟨rfl, fun e => by cases e⟩
    | nil =>
      right
      rcases hex with hne | hlt
      · exact absurd hpend hne
      · refine ⟨by unfold report; rw [hpend], rfl, ?_⟩
        unfold stopsLeft at hlt
        omega

theorem create_with_base_dir (env : Env) (pid : Nat) (argv : List (List UInt8))
    (hbase : env.home ≠ none ∨ env.user ≠ none) :
    let fifoOk := env.mkfifo = .created ∨ (env.mkfifo = .eexist ∧ env.stat = .fifo)
    let r := singleInstanceCreate env pid argv
    (r.handle.isSome = true ↔ fifoOk ∧ env.openLock = true ∧ env.lockf = .locked) ∧
    (r.handle.isSome = true → r.error = none) ∧
    (r.handle = none ∧ r.error = none ↔ fifoOk ∧ env.openLock = true ∧ env.lockf = .busy) ∧
    (r.handle = none ∧ r.error = none → r.sent = sendArgs pid argv) := by
  obtain ⟨home, user, mk, st, op, lk, txt⟩ := env
  cases home with
  | some a =>
    cases mk <;> cases st <;> cases op <;> cases lk <;> simp [singleInstanceCreate, thrown]
  | none =>
    cases user with
    | some b =>
      cases mk <;> cases st <;> cases op <;> cases lk <;> simp [singleInstanceCreate, thrown]
    | none => simp at hbase

theorem destroy_result (h : SingleInstanceHandle) :
    singleInstanceDestroy h = (h.pending.headD [], h.pending.tail.flatten) := by
  obtain ⟨b, p, a, c, f⟩ := h
  cases p <;> rfl

theorem awaitRead_size : ∀ (es : List Event) (c : Nat) (b : List UInt8) (es' : List Event)
    (c' : Nat), awaitRead es c = some (b, es', c') → b.length + futureSize es' < futureSize es := by
  intro es
  induction es with
  | nil => intro c b es' c' h; simp [awaitRead] at h
  | cons e es ih =>
    intro c b es' c' h
    cases e with
    | stop =>
      rw [awaitRead] at h
      have := ih _ _ _ _ h
      simp only [futureSize]
      omega
    | data d =>
      rw [awaitRead] at h
      by_cases hd : d = []
      · rw [if_pos hd] at h
        have := ih _ _ _ _ h
        simp only [futureSize]
        omega
      · rw [if_neg hd] at h
        simp only [Option.some.injEq, Prod.mk.injEq] at h
        obtain ⟨rfl, rfl, _⟩ := h
        simp only [futureSize]
        omega

theorem awaitSelect_size : ∀ (es : List Event) (c : Nat) (b : List UInt8) (es' : List Event),
    awaitSelect es = some (c, b, es') →
      b.length + futureSize es' < futureSize es ∧ (c ≠ 0 ∨ b ≠ []) := by
  intro es
  induction es with
  | nil => intro c b es' h; simp [awaitSelect] at h
  | cons e es ih =>
    intro c b es' h
    cases e with
    | stop =>
      rw [awaitSelect] at h
      simp only [Option.some.injEq, Prod.mk.injEq] at h
      obtain ⟨rfl, rfl, rfl⟩ := h
      simp only [futureSize, List.length_nil]
      exact ⟨by omega, Or.inl (by decide)⟩
    | data d =>
      rw [awaitSelect] at h
      by_cases hd : d = []
      · rw [if_pos hd] at h
        have := ih _ _ _ h
        simp only [futureSize]
        exact ⟨by omega, this.2⟩
      · rw [if_neg hd] at h
        simp only [Option.some.injEq, Prod.mk.injEq] at h
        obtain ⟨rfl, rfl, rfl⟩ := h
        simp only [futureSize]
        exact ⟨by omega, Or.inr hd⟩

theorem readPipe_size (h h1 : SingleInstanceHandle) (n : Nat) (bs : List UInt8)
    (hr : readPipe h n = .ok (bs, h1)) :
    unreadSize h1 ≤ unreadSize h ∧ (n ≠ 0 → h.avail ≠ [] → unreadSize h1 < unreadSize h) := by
  unfold readPipe at hr
  by_cases hn : n = 0
  · rw [if_pos hn] at hr
    simp only [Except.ok.injEq, Prod.mk.injEq] at hr
    obtain ⟨_, rfl⟩ := hr
    exact ⟨Nat.le_refl _, fun h0 => absurd hn h0⟩
  · rw [if_neg hn] at hr
    cases ha : h.avail with
    | cons a as =>
      rw [ha] at hr
      simp only [Except.ok.injEq, Prod.mk.injEq] at hr
      obtain ⟨_, rfl⟩ := hr
      have : (List.drop n (a :: as)).length < (a :: as).length := by
        rw [List.length_drop, List.length_cons]; omega
      unfold unreadSize
      rw [ha]
      exact ⟨by
          show (List.drop n (a :: as)).length + futureSize h.future
            ≤ (a :: as).length + futureSize h.future
          omega,
        fun _ _ => by
          show (List.drop n (a :: as)).length + futureSize h.future
            < (a :: as).length + futureSize h.future
          omega⟩
    | nil =>
      rw [ha] at hr
      dsimp only at hr
      cases hw : awaitRead h.future h.ctrl with
      | none => rw [hw] at hr; cases hr
      | some t =>
        obtain ⟨b, es, c⟩ := t
        rw [hw] at hr
        simp only [Except.ok.injEq, Prod.mk.injEq] at hr
        obtain ⟨_, rfl⟩ := hr
        have h1 := awaitRead_size _ _ _ _ _ hw
        have h2 : (List.drop n b).length ≤ b.length := by rw [List.length_drop]; omega
        unfold unreadSize
        rw [ha]
        exact ⟨by
            show (List.drop n b).length + futureSize es
              ≤ ([] : List UInt8).length + futureSize h.future
            rw [List.length_nil]
            omega,
          fun _ hne => absurd rfl hne⟩

theorem selectFds_size (h h1 : SingleInstanceHandle) (wait : Bool)
    (hr : selectFds h wait = .ok h1) :
    unreadSize h1 ≤ unreadSize h ∧ (wait = true → h1.ctrl ≠ 0 ∨ h1.avail ≠ []) := by
  unfold selectFds at hr
  by_cases hc : h.ctrl ≠ 0 ∨ h.avail ≠ []
  · rw [if_pos hc] at hr
    cases hr
    exact ⟨Nat.le_refl _, fun _ => hc⟩
  · rw [if_neg hc] at hr
    by_cases hw : wait = false
    · rw [if_pos hw] at hr
      cases hr
      exact ⟨Nat.le_refl _, fun e => by rw [hw] at e; cases e⟩
    · rw [if_neg hw] at hr
      cases hs : awaitSelect h.future with
      | none => rw [hs] at hr; cases hr
      | some t =>
        obtain ⟨c, b, es⟩ := t
        rw [hs] at hr
        simp only [Except.ok.injEq] at hr
        subst hr
        have := awaitSelect_size _ _ _ _ hs
        unfold unreadSize
        exact ⟨by
          show b.length + futureSize es ≤ h.avail.length + futureSize h.future
          omega, fun _ => this.2⟩

theorem checkFull_size (h h1 : SingleInstanceHandle) (pid first : Nat) (vec : List UInt8)
    (r : Int) (hr : checkFull h pid first vec = .ok (r, h1)) : unreadSize h1 = unreadSize h := by
  unfold checkFull at hr
  by_cases hf : first ≠ vec.length
  · rw [if_pos hf] at hr
    simp only [Except.ok.injEq, Prod.mk.injEq] at hr
    obtain ⟨_, rfl⟩ := hr
    rfl
  · rw [if_neg hf] at hr
    cases hp : parseArgs vec with
    | error e => rw [hp] at hr; cases hr
    | ok args =>
      rw [hp] at hr
      simp only [Except.ok.injEq, Prod.mk.injEq] at hr
      obtain ⟨_, rfl⟩ := hr
      rfl

theorem recvPayload_size (h h1 : SingleInstanceHandle) (pid first toRead : Nat)
    (vec : List UInt8) (r : Int) (hr : recvPayload h pid first vec toRead = .ok (r, h1)) :
    unreadSize h1 ≤ unreadSize h := by
  unfold recvPayload at hr
  generalize u32 (vec.length + 4294967296 - first) = remaining at hr
  dsimp only at hr
  generalize (if remaining < toRead then remaining else toRead) = useful at hr
  generalize (if remaining < toRead then toRead - remaining else 0) = trash at hr
  cases h2r : readPipe h useful with
  | error e => rw [h2r] at hr; cases hr
  | ok t =>
    obtain ⟨got, h2⟩ := t
    rw [h2r] at hr
    dsimp only at hr
    have s2 := (readPipe_size _ _ _ _ h2r).1
    by_cases hg : got.length ≠ useful
    · rw [if_pos hg] at hr
      simp only [Except.ok.injEq, Prod.mk.injEq] at hr
      obtain ⟨_, rfl⟩ := hr
      exact s2
    · rw [if_neg hg] at hr
      by_cases ht : trash ≠ 0
      · rw [if_pos ht] at hr
        cases h3r : readPipe h2 trash with
        | error e => rw [h3r] at hr; cases hr
        | ok t3 =>
          obtain ⟨junk, h3⟩ := t3
          rw [h3r] at hr
          dsimp only at hr
          have s3 := (readPipe_size _ _ _ _ h3r).1
          have s4 := checkFull_size _ _ _ _ _ _ hr
          omega
      · rw [if_neg ht] at hr
        dsimp only at hr
        have s4 := checkFull_size _ _ _ _ _ _ hr
        omega

theorem recvBody_size (h h1 : SingleInstanceHandle) (pid : Nat) (r : Int)
    (hr : recvBody h pid = .ok (r, h1)) : unreadSize h1 ≤ unreadSize h := by
  unfold recvBody at hr
  cases hb : h.buffers pid with
  | some e =>
    obtain ⟨first, vec⟩ := e
    rw [hb] at hr
    exact recvPayload_size _ _ _ _ _ _ _ hr
  | none =>
    rw [hb] at hr
    dsimp only at hr
    cases h2r : readPipe h 4 with
    | error e => rw [h2r] at hr; cases hr
    | ok t =>
      obtain ⟨lenBytes, h2⟩ := t
      rw [h2r] at hr
      dsimp only at hr
      have s2 := (readPipe_size _ _ _ _ h2r).1
      by_cases hl : lenBytes.length ≠ 4
      · rw [if_pos hl] at hr; cases hr
      · rw [if_neg hl] at hr
        have s3 := recvPayload_size _ _ _ _ _ _ _ hr
        omega

theorem recvIter_size (h h1 : SingleInstanceHandle) (wait : Bool) (r : Int)
    (hr : recvIter h wait = .ok (r, h1)) (h1r : r ≠ -1) (h0r : r ≠ 0 ∨ wait = true) :
    unreadSize h1 < unreadSize h := by
  unfold recvIter at hr
  cases hs : selectFds h wait with
  | error e => rw [hs] at hr; cases hr
  | ok h0 =>
    rw [hs] at hr
    dsimp only at hr
    obtain ⟨s0, hready⟩ := selectFds_size _ _ _ hs
    by_cases hc : h0.ctrl ≠ 0
    · rw [if_pos hc] at hr
      simp only [Except.ok.injEq, Prod.mk.injEq] at hr
      exact absurd hr.1.symm h1r
    · rw [if_neg hc] at hr
      by_cases ha : h0.avail = []
      · rw [if_pos ha] at hr
        simp only [Except.ok.injEq, Prod.mk.injEq] at hr
        obtain ⟨rfl, _⟩ := hr
        rcases h0r with h0 | hw
        · exact absurd rfl h0
        · rcases hready hw with h3 | h3
          · exact absurd h3 hc
          · exact absurd ha h3
      · rw [if_neg ha] at hr
        cases h2r : readPipe h0 4 with
        | error e => rw [h2r] at hr; cases hr
        | ok t =>
          obtain ⟨pidBytes, h2⟩ := t
          rw [h2r] at hr
          dsimp only at hr
          have s2 := (readPipe_size _ _ _ _ h2r).2 (by decide) ha
          by_cases hl : pidBytes.length ≠ 4
          · rw [if_pos hl] at hr
            simp only [Except.ok.injEq, Prod.mk.injEq] at hr
            obtain ⟨_, rfl⟩ := hr
            omega
          · rw [if_neg hl] at hr
            have s3 := recvBody_size _ _ _ _ hr
            omega

theorem readPipe_fuel (h : SingleInstanceHandle) (n : Nat) : readPipe h n ≠ .error .fuel := by
  unfold readPipe
  split
  · exact fun e => by cases e
  · split
    · exact fun e => by cases e
    · split
      · exact fun e => by cases e
      · exact fun e => by cases e

theorem selectFds_fuel (h : SingleInstanceHandle) (wait : Bool) :
    selectFds h wait ≠ .error .fuel := by
  unfold selectFds
  split
  · exact fun e => by cases e
  · split
    · exact fun e => by cases e
    · split
      · exact fun e => by cases e
      · exact fun e => by cases e

theorem checkFull_fuel (h : SingleInstanceHandle) (pid first : Nat) (vec : List UInt8) :
    checkFull h pid first vec ≠ .error .fuel := by
  unfold checkFull
  split
  · exact fun e => by cases e
  · cases hp : parseArgs vec with
    | error e =>
      intro he
      cases he
      exact parseArgs_fuel vec hp
    | ok args => exact fun e => by cases e

theorem recvPayload_fuel (h : SingleInstanceHandle) (pid first toRead : Nat) (vec : List UInt8) :
    recvPayload h pid first vec toRead ≠ .error .fuel := by
  unfold recvPayload
  generalize u32 (vec.length + 4294967296 - first) = remaining
  dsimp only
  generalize (if remaining < toRead then remaining else toRead) = useful
  generalize (if remaining < toRead then toRead - remaining else 0) = trash
  cases h2r : readPipe h useful with
  | error e =>
    intro he
    cases he
    exact readPipe_fuel _ _ h2r
  | ok t =>
    obtain ⟨got, h2⟩ := t
    dsimp only
    by_cases hg : got.length ≠ useful
    · rw [if_pos hg]; exact fun e => by cases e
    · rw [if_neg hg]
      by_cases ht : trash ≠ 0
      · rw [if_pos ht]
        cases h3r : readPipe h2 trash with
        | error e =>
          intro he
          cases he
          exact readPipe_fuel _ _ h3r
        | ok t3 => exact checkFull_fuel _ _ _ _
      · rw [if_neg ht]
        exact checkFull_fuel _ _ _ _

theorem recvBody_fuel (h : SingleInstanceHandle) (pid : Nat) : recvBody h pid ≠ .error .fuel := by
  unfold recvBody
  cases hb : h.buffers pid with
  | some e => exact recvPayload_fuel _ _ _ _ _
  | none =>
    dsimp only
    cases h2r : readPipe h 4 with
    | error e =>
      intro he
      cases he
      exact readPipe_fuel _ _ h2r
    | ok t =>
      obtain ⟨lenBytes, h2⟩ := t
      dsimp only
      by_cases hl : lenBytes.length ≠ 4
      · rw [if_pos hl]; exact fun e => by cases e
      · rw [if_neg hl]; exact recvPayload_fuel _ _ _ _ _

theorem recvIter_fuel (h : SingleInstanceHandle) (wait : Bool) :
    recvIter h wait ≠ .error .fuel := by
  unfold recvIter
  cases hs : selectFds h wait with
  | error e =>
    intro he
    cases he
    exact selectFds_fuel _ _ hs
  | ok h0 =>
    dsimp only
    by_cases hc : h0.ctrl ≠ 0
    · rw [if_pos hc]; exact fun e => by cases e
    · rw [if_neg hc]
      by_cases ha : h0.avail = []
      · rw [if_pos ha]; exact fun e => by cases e
      · rw [if_neg ha]
        cases h2r : readPipe h0 4 with
        | error e =>
          intro he
          cases he
          exact readPipe_fuel _ _ h2r
        | ok t =>
          obtain ⟨pidBytes, h2⟩ := t
          dsimp only
          by_cases hl : pidBytes.length ≠ 4
          · rw [if_pos hl]; exact fun e => by cases e
          · rw [if_neg hl]; exact recvBody_fuel _ _

theorem checkLoop_fuel : ∀ (fuel : Nat) (h : SingleInstanceHandle) (wait : Bool),
    unreadSize h < fuel → checkLoop fuel h wait ≠ .error .fuel := by
  intro fuel
  induction fuel with
  | zero => intro h wait hlt; omega
  | succ k ih =>
    intro h wait hlt
    rw [checkLoop]
    cases hrec : recvIter h wait with
    | error e =>
      intro he
      cases he
      exact recvIter_fuel _ _ hrec
    | ok t =>
      obtain ⟨r, h1⟩ := t
      dsimp only
      by_cases hcond : r ≠ -1 ∧ (r ≠ 0 ∨ (wait = true ∧ h1.pending.length = 0))
      · rw [if_pos hcond]
        have := recvIter_size h h1 wait r hrec hcond.1 (by
          rcases hcond.2 with h0 | ⟨hw, _⟩
          · exact Or.inl h0
          · exact Or.inr hw)
        exact ih h1 wait (by omega)
      · rw [if_neg hcond]; exact fun e => by cases e

theorem singleInstanceCheck_fuel (h : SingleInstanceHandle) (wait : Bool) :
    singleInstanceCheck h wait ≠ .error .fuel := by
  unfold singleInstanceCheck
  split
  · exact fun e => by cases e
  · cases hl : checkLoop (checkBound h) h wait with
    | error e =>
      intro he
      cases he
      exact checkLoop_fuel _ _ _ (by unfold checkBound unreadSize; omega) hl
    | ok h1 => exact fun e => by cases e

theorem checkLoop_fuel_indep : ∀ (fuel fuel' : Nat) (h : SingleInstanceHandle) (wait : Bool),
    unreadSize h < fuel → unreadSize h < fuel' →
      checkLoop fuel h wait = checkLoop fuel' h wait := by
  intro fuel
  induction fuel with
  | zero => intro fuel' h wait hlt; omega
  | succ k ih =>
    intro fuel' h wait hlt hlt'
    obtain ⟨k', rfl⟩ : ∃ k', fuel' = k' + 1 := ⟨fuel' - 1, by omega⟩
    rw [checkLoop, checkLoop]
    cases hrec : recvIter h wait with
    | error e => rfl
    | ok t =>
      obtain ⟨r, h1⟩ := t
      dsimp only
      by_cases hcond : r ≠ -1 ∧ (r ≠ 0 ∨ (wait = true ∧ h1.pending.length = 0))
      · rw [if_pos hcond, if_pos hcond]
        have := recvIter_size h h1 wait r hrec hcond.1 (by
          rcases hcond.2 with h0 | ⟨hw, _⟩
          · exact Or.inl h0
          · exact Or.inr hw)
        exact ih k' h1 wait (by omega) (by omega)
      · rw [if_neg hcond, if_neg hcond]

theorem recvIter_ret (h h1 : SingleInstanceHandle) (wait : Bool) (r : Int)
    (hr : recvIter h wait = .ok (r, h1)) : r = -1 ∨ r = 0 ∨ r = 1 := by
  rcases recvIter_effect h h1 wait r hr with ⟨h1r, _⟩ | ⟨_, ⟨_, h0 | h0⟩ | ⟨h0, _⟩⟩
  · exact Or.inl h1r
  · exact Or.inr (Or.inl h0)
  · exact Or.inr (Or.inr h0)
  · exact Or.inr (Or.inl h0)

theorem recvIter_one_pending (h h1 : SingleInstanceHandle) (wait : Bool)
    (hr : recvIter h wait = .ok (1, h1)) : h1.pending = h.pending := by
  rcases recvIter_effect h h1 wait 1 hr with ⟨h1r, _⟩ | ⟨_, ⟨hp, _⟩ | ⟨h0, _⟩⟩
  · cases h1r
  · exact hp
  · cases h0

theorem check_reports (h h1 : SingleInstanceHandle) (wait : Bool)
    (res : Int × Option (Nat × List (List UInt8)))
    (hr : singleInstanceCheck h wait = .ok (res, h1)) :
    res = report h1 ∧ (res.1 = 1 ↔ h1.pending ≠ []) := by
  have key : ∀ g : SingleInstanceHandle, (report g).1 = 1 ↔ g.pending ≠ [] := by
    intro g
    unfold report
    cases g.pending with
    | nil => simp
    | cons m ms => simp
  unfold singleInstanceCheck at hr
  by_cases hp : h.pending.length ≠ 0
  · rw [if_pos hp] at hr
    simp only [Except.ok.injEq, Prod.mk.injEq] at hr
    obtain ⟨rfl, rfl⟩ := hr
    exact ⟨rfl, key _⟩
  · rw [if_neg hp] at hr
    cases hl : checkLoop (checkBound h) h wait with
    | error e => rw [hl] at hr; cases hr
    | ok h2 =>
      rw [hl] at hr
      simp only [Except.ok.injEq, Prod.mk.injEq] at hr
      obtain ⟨rfl, rfl⟩ := hr
      exact ⟨rfl, key _⟩

theorem check_poll_error (h : SingleInstanceHandle) (e : Fault) (hp : h.pending = [])
    (hr : recvIter h false = .error e) : singleInstanceCheck h false = .error e := by
  unfold singleInstanceCheck
  rw [if_neg (by rw [hp]; simp)]
  unfold checkBound
  rw [checkLoop, hr]

theorem check_poll_stop (h h1 : SingleInstanceHandle) (r : Int) (hp : h.pending = [])
    (hr : recvIter h false = .ok (r, h1)) (h1r : r ≠ 1) :
    singleInstanceCheck h false = .ok (report h1, h1) := by
  have hcases := recvIter_ret h h1 false r hr
  unfold singleInstanceCheck
  rw [if_neg (by rw [hp]; simp)]
  unfold checkBound
  rw [checkLoop, hr]
  dsimp only
  rw [if_neg (by
    rintro ⟨hm, h0 | ⟨hw, _⟩⟩
    · rcases hcases with c | c | c
      · exact hm c
      · exact h0 c
      · exact h1r c
    · cases hw)]

theorem check_poll_again (h h1 : SingleInstanceHandle) (hp : h.pending = [])
    (hr : recvIter h false = .ok (1, h1)) :
    h1.pending = [] ∧ singleInstanceCheck h false = singleInstanceCheck h1 false := by
  have hp1 : h1.pending = [] := by rw [recvIter_one_pending h h1 false hr, hp]
  have hsize := recvIter_size h h1 false 1 hr (by decide) (Or.inl (by decide))
  refine ⟨hp1, ?_⟩
  unfold singleInstanceCheck
  rw [if_neg (by rw [hp]; simp), if_neg (by rw [hp1]; simp)]
  have hstep : checkLoop (checkBound h) h false
      = checkLoop (h.avail.length + h.ctrl + futureSize h.future) h1 false := by
    unfold checkBound
    rw [checkLoop, hr]
    dsimp only
    rw [if_pos ⟨by decide, Or.inl (by decide)⟩]
  rw [hstep, checkLoop_fuel_indep _ (checkBound h1) h1 false
    (by unfold unreadSize at hsize ⊢; omega) (by unfold checkBound unreadSize; omega)]

theorem awaitRead_bytes : ∀ (es : List Event) (c : Nat) (b : List UInt8) (es' : List Event)
    (c' : Nat), awaitRead es c = some (b, es', c') → futureBytes es = b ++ futureBytes es' := by
  intro es
  induction es with
  | nil => intro c b es' c' h; simp [awaitRead] at h
  | cons e es ih =>
    intro c b es' c' h
    cases e with
    | stop =>
      rw [awaitRead] at h
      exact ih _ _ _ _ h
    | data d =>
      rw [awaitRead] at h
      by_cases hd : d = []
      · rw [if_pos hd] at h
        have := ih _ _ _ _ h
        subst hd
        simp only [futureBytes, List.nil_append]
        exact this
      · rw [if_neg hd] at h
        simp only [Option.some.injEq, Prod.mk.injEq] at h
        obtain ⟨rfl, rfl, _⟩ := h
        rfl

theorem awaitSelect_bytes : ∀ (es : List Event) (c : Nat) (b : List UInt8) (es' : List Event),
    awaitSelect es = some (c, b, es') → futureBytes es = b ++ futureBytes es' := by
  intro es
  induction es with
  | nil => intro c b es' h; simp [awaitSelect] at h
  | cons e es ih =>
    intro c b es' h
    cases e with
    | stop =>
      rw [awaitSelect] at h
      simp only [Option.some.injEq, Prod.mk.injEq] at h
      obtain ⟨_, rfl, rfl⟩ := h
      rfl
    | data d =>
      rw [awaitSelect] at h
      by_cases hd : d = []
      · rw [if_pos hd] at h
        have := ih _ _ _ h
        subst hd
        simp only [futureBytes, List.nil_append]
        exact this
      · rw [if_neg hd] at h
        simp only [Option.some.injEq, Prod.mk.injEq] at h
        obtain ⟨_, rfl, rfl⟩ := h
        rfl

theorem readPipe_bytes (h h1 : SingleInstanceHandle) (n : Nat) (bs : List UInt8)
    (hr : readPipe h n = .ok (bs, h1)) :
    streamOf h = bs ++ streamOf h1 ∧ bs.length ≤ n := by
  unfold readPipe at hr
  by_cases hn : n = 0
  · rw [if_pos hn] at hr
    simp only [Except.ok.injEq, Prod.mk.injEq] at hr
    obtain ⟨rfl, rfl⟩ := hr
    exact ⟨rfl, Nat.zero_le _⟩
  · rw [if_neg hn] at hr
    cases ha : h.avail with
    | cons a as =>
      rw [ha] at hr
      simp only [Except.ok.injEq, Prod.mk.injEq] at hr
      obtain ⟨rfl, rfl⟩ := hr
      refine ⟨?_, by rw [List.length_take]; omega⟩
      show h.avail ++ futureBytes h.future
        = List.take n (a :: as) ++ (List.drop n (a :: as) ++ futureBytes h.future)
      rw [ha, ← List.append_assoc, List.take_append_drop]
    | nil =>
      rw [ha] at hr
      dsimp only at hr
      cases hw : awaitRead h.future h.ctrl with
      | none => rw [hw] at hr; cases hr
      | some t =>
        obtain ⟨b, es, c⟩ := t
        rw [hw] at hr
        simp only [Except.ok.injEq, Prod.mk.injEq] at hr
        obtain ⟨rfl, rfl⟩ := hr
        refine ⟨?_, by rw [List.length_take]; omega⟩
        show h.avail ++ futureBytes h.future
          = List.take n b ++ (List.drop n b ++ futureBytes es)
        rw [ha, List.nil_append, awaitRead_bytes _ _ _ _ _ hw, ← List.append_assoc,
          List.take_append_drop]

theorem selectFds_bytes (h h1 : SingleInstanceHandle) (wait : Bool)
    (hr : selectFds h wait = .ok h1) : streamOf h1 = streamOf h := by
  unfold selectFds at hr
  by_cases hc : h.ctrl ≠ 0 ∨ h.avail ≠ []
  · rw [if_pos hc] at hr
    cases hr
    rfl
  · rw [if_neg hc] at hr
    by_cases hw : wait = false
    · rw [if_pos hw] at hr
      cases hr
      rfl
    · rw [if_neg hw] at hr
      cases hs : awaitSelect h.future with
      | none => rw [hs] at hr; cases hr
      | some t =>
        obtain ⟨c, b, es⟩ := t
        rw [hs] at hr
        simp only [Except.ok.injEq] at hr
        subst hr
        have ha : h.avail = [] := by
          by_contra hne
          exact hc (Or.inr hne)
        show b ++ futureBytes es = h.avail ++ futureBytes h.future
        rw [ha, List.nil_append, awaitSelect_bytes _ _ _ _ hs]

theorem checkFull_bytes (h h1 : SingleInstanceHandle) (pid first : Nat) (vec : List UInt8)
    (r : Int) (hr : checkFull h pid first vec = .ok (r, h1)) : streamOf h1 = streamOf h := by
  unfold checkFull at hr
  by_cases hf : first ≠ vec.length
  · rw [if_pos hf] at hr
    simp only [Except.ok.injEq, Prod.mk.injEq] at hr
    obtain ⟨_, rfl⟩ := hr
    rfl
  · rw [if_neg hf] at hr
    cases hp : parseArgs vec with
    | error e => rw [hp] at hr; cases hr
    | ok args =>
      rw [hp] at hr
      simp only [Except.ok.injEq, Prod.mk.injEq] at hr
      obtain ⟨_, rfl⟩ := hr
      rfl

theorem recvPayload_bytes (h h1 : SingleInstanceHandle) (pid first toRead : Nat)
    (vec : List UInt8) (r : Int) (hr : recvPayload h pid first vec toRead = .ok (r, h1)) :
    ∃ taken, streamOf h = taken ++ streamOf h1 ∧ taken.length ≤ toRead := by
  unfold recvPayload at hr
  generalize u32 (vec.length + 4294967296 - first) = remaining at hr
  dsimp only at hr
  have hsum : (if remaining < toRead then remaining else toRead)
      + (if remaining < toRead then toRead - remaining else 0) ≤ toRead := by
    split <;> omega
  generalize (if remaining < toRead then remaining else toRead) = useful at hr hsum
  generalize (if remaining < toRead then toRead - remaining else 0) = trash at hr hsum
  cases h2r : readPipe h useful with
  | error e => rw [h2r] at hr; cases hr
  | ok t =>
    obtain ⟨got, h2⟩ := t
    rw [h2r] at hr
    dsimp only at hr
    obtain ⟨s2, l2⟩ := readPipe_bytes _ _ _ _ h2r
    by_cases hg : got.length ≠ useful
    · rw [if_pos hg] at hr
      simp only [Except.ok.injEq, Prod.mk.injEq] at hr
      obtain ⟨_, rfl⟩ := hr
      exact ⟨got, s2, by omega⟩
    · rw [if_neg hg] at hr
      by_cases ht : trash ≠ 0
      · rw [if_pos ht] at hr
        cases h3r : readPipe h2 trash with
        | error e => rw [h3r] at hr; cases hr
        | ok t3 =>
          obtain ⟨junk, h3⟩ := t3
          rw [h3r] at hr
          dsimp only at hr
          obtain ⟨s3, l3⟩ := readPipe_bytes _ _ _ _ h3r
          have s4 := checkFull_bytes _ _ _ _ _ _ hr
          refine ⟨got ++ junk, ?_, by rw [List.length_append]; omega⟩
          rw [s2, s3, s4, List.append_assoc]
      · rw [if_neg ht] at hr
        dsimp only at hr
        have s4 := checkFull_bytes _ _ _ _ _ _ hr
        exact ⟨got, by rw [s2, s4], by omega⟩

theorem recvBody_bytes (h h1 : SingleInstanceHandle) (pid : Nat) (r : Int)
    (hr : recvBody h pid = .ok (r, h1)) :
    ∃ taken, streamOf h = taken ++ streamOf h1 ∧ taken.length ≤ 508 := by
  unfold recvBody at hr
  cases hb : h.buffers pid with
  | some e =>
    obtain ⟨first, vec⟩ := e
    rw [hb] at hr
    exact recvPayload_bytes _ _ _ _ _ _ _ hr
  | none =>
    rw [hb] at hr
    dsimp only at hr
    cases h2r : readPipe h 4 with
    | error e => rw [h2r] at hr; cases hr
    | ok t =>
      obtain ⟨lenBytes, h2⟩ := t
      rw [h2r] at hr
      dsimp only at hr
      obtain ⟨s2, l2⟩ := readPipe_bytes _ _ _ _ h2r
      by_cases hl : lenBytes.length ≠ 4
      · rw [if_pos hl] at hr; cases hr
      · rw [if_neg hl] at hr
        obtain ⟨taken, s3, l3⟩ := recvPayload_bytes _ _ _ _ _ _ _ hr
        refine ⟨lenBytes ++ taken, ?_, by rw [List.length_append]; omega⟩
        rw [s2, s3, List.append_assoc]

theorem recvIter_bytes (h h1 : SingleInstanceHandle) (wait : Bool) (r : Int)
    (hr : recvIter h wait = .ok (r, h1)) :
    ∃ taken, streamOf h = taken ++ streamOf h1 ∧ taken.length ≤ 512 := by
  unfold recvIter at hr
  cases hs : selectFds h wait with
  | error e => rw [hs] at hr; cases hr
  | ok h0 =>
    rw [hs] at hr
    dsimp only at hr
    have s0 := selectFds_bytes _ _ _ hs
    by_cases hc : h0.ctrl ≠ 0
    · rw [if_pos hc] at hr
      simp only [Except.ok.injEq, Prod.mk.injEq] at hr
      obtain ⟨_, rfl⟩ := hr
      exact ⟨[], by rw [← s0]; rfl, Nat.zero_le _⟩
    · rw [if_neg hc] at hr
      by_cases ha : h0.avail = []
      · rw [if_pos ha] at hr
        simp only [Except.ok.injEq, Prod.mk.injEq] at hr
        obtain ⟨_, rfl⟩ := hr
        exact ⟨[], by rw [← s0]; rfl, Nat.zero_le _⟩
      · rw [if_neg ha] at hr
        cases h2r : readPipe h0 4 with
        | error e => rw [h2r] at hr; cases hr
        | ok t =>
          obtain ⟨pidBytes, h2⟩ := t
          rw [h2r] at hr
          dsimp only at hr
          obtain ⟨s2, l2⟩ := readPipe_bytes _ _ _ _ h2r
          by_cases hl : pidBytes.length ≠ 4
          · rw [if_pos hl] at hr
            simp only [Except.ok.injEq, Prod.mk.injEq] at hr
            obtain ⟨_, rfl⟩ := hr
            exact ⟨pidBytes, by rw [← s0, s2], by omega⟩
          · rw [if_neg hl] at hr
            obtain ⟨taken, s3, l3⟩ := recvBody_bytes _ _ _ _ hr
            refine ⟨pidBytes ++ taken, ?_, by rw [List.length_append]; omega⟩
            rw [← s0, s2, s3, List.append_assoc]

theorem checkLoop_queue : ∀ (fuel : Nat) (h h2 : SingleInstanceHandle) (wait : Bool),
    h.pending = [] → checkLoop fuel h wait = .ok h2 → h2.pending.length ≤ 1 := by
  intro fuel
  induction fuel with
  | zero => intro h h2 wait _ hr; rw [checkLoop] at hr; cases hr
  | succ k ih =>
    intro h h2 wait hp hr
    rw [checkLoop] at hr
    cases hrec : recvIter h wait with
    | error e => rw [hrec] at hr; cases hr
    | ok t =>
      obtain ⟨r, h1⟩ := t
      rw [hrec] at hr
      dsimp only at hr
      have hq : h1.pending.length ≤ 1 ∧ (r ≠ 0 → h1.pending = []) := by
        rcases recvIter_effect h h1 wait r hrec with ⟨_, _, hpend, _⟩ |
          ⟨_, ⟨hpend, _⟩ | ⟨h0, m, hm⟩⟩
        · rw [hpend, hp]; exact ⟨Nat.zero_le _, fun _ => rfl⟩
        · rw [hpend, hp]; exact ⟨Nat.zero_le _, fun _ => rfl⟩
        · rw [hm, hp]; exact ⟨Nat.le_refl _, fun hne => absurd h0 hne⟩
      by_cases hcond : r ≠ -1 ∧ (r ≠ 0 ∨ (wait = true ∧ h1.pending.length = 0))
      · rw [if_pos hcond] at hr
        have hp1 : h1.pending = [] := by
          rcases hcond.2 with hne | ⟨_, hl⟩
          · exact hq.2 hne
          · exact List.length_eq_zero.mp hl
        exact ih h1 h2 wait hp1 hr
      · rw [if_neg hcond] at hr
        cases hr
        exact hq.1

theorem reachable_queue (h : SingleInstanceHandle) (hr : Reachable h) :
    h.pending.length ≤ 1 := by
  induction hr with
  | create avail future => exact Nat.zero_le _
  | check h h1 wait res _ hc ih =>
    unfold singleInstanceCheck at hc
    by_cases hp : h.pending.length ≠ 0
    · rw [if_pos hp] at hc
      simp only [Except.ok.injEq, Prod.mk.injEq] at hc
      obtain ⟨_, rfl⟩ := hc
      exact ih
    · rw [if_neg hp] at hc
      cases hl : checkLoop (checkBound h) h wait with
      | error e => rw [hl] at hc; cases hc
      | ok h2 =>
        rw [hl] at hc
        simp only [Except.ok.injEq, Prod.mk.injEq] at hc
        obtain ⟨_, rfl⟩ := hc
        exact checkLoop_queue _ _ _ _ (List.length_eq_zero.mp (by omega)) hl
  | pop h _ ih =>
    unfold singleInstancePop
    cases hp : h.pending with
    | nil => dsimp only; rw [hp]; exact Nat.zero_le _
    | cons m ms =>
      dsimp only
      rw [hp, List.length_cons] at ih
      show ms.length ≤ 1
      omega
  | stopWait h _ ih => exact ih
  | arrive h bytes _ ih => exact ih

theorem destroy_short_queue (h : SingleInstanceHandle) (hq : h.pending.length ≤ 1) :
    singleInstanceDestroy h = (h.pending.flatten, []) ∧ (singleInstancePop h).pending = [] := by
  obtain ⟨b, p, a, c, f⟩ := h
  cases p with
  | nil => exact ⟨rfl, rfl⟩
  | cons m ms =>
    cases ms with
    | nil =>
      refine ⟨?_, rfl⟩
      show (m, ([] : List (List (List UInt8))).flatten) = ([m].flatten, [])
      rw [List.flatten_cons, List.flatten_nil, List.append_nil]
    | cons m2 ms2 =>
      simp only [List.length_cons] at hq
      omega

theorem recvIter_whole_frame (g : SingleInstanceHandle) (f rest : List UInt8) (wait : Bool)
    (hinv : BufInv g) (hc : g.ctrl = 0) (hf : f.length = 512) (ha : g.avail = f ++ rest) :
    ∃ first vec, first ≤ vec.length ∧ vec.length < 4294967296 ∧
      (g.buffers (loadU32 f) = none →
        vec.length = loadU32 (f.drop 4) ∧ first = min (loadU32 (f.drop 4)) 504 ∧
        vec = (f.drop 8).take first ++ List.replicate (vec.length - first) 0) ∧
      (∀ first0 vec0, g.buffers (loadU32 f) = some (first0, vec0) →
        vec.length = vec0.length ∧ first = first0 + min (vec0.length - first0) 508 ∧
        vec = vec0.take first0 ++ (f.drop 4).take (first - first0) ++ vec0.drop first) ∧
      ((first < vec.length ∧
          recvIter g wait
            = .ok (1, { g with avail := rest,
                               buffers := g.buffers.set (loadU32 f) (first, vec) })) ∨
        (first = vec.length ∧ ∃ m, parseArgs vec = .ok m ∧
          recvIter g wait
            = .ok (0, { g with avail := rest, pending := g.pending ++ [m],
                               buffers := g.buffers.erase (loadU32 f) })) ∨
        (first = vec.length ∧ parseArgs vec = .error .undefined ∧
          recvIter g wait = .error .undefined)) := by
  obtain ⟨first, vec, htrack, hle, hlt, hnew, hold⟩ := trackFrame_entry g f rest hinv hf
  have hrec := recvIter_frame g f rest wait hc hf ha
  rw [htrack] at hrec
  refine ⟨first, vec, hle, hlt, hnew, hold, ?_⟩
  by_cases hfull : first = vec.length
  · rcases parseArgs_cases vec with ⟨m, hm⟩ | hu
    · refine Or.inr (Or.inl ⟨hfull, m, hm, ?_⟩)
      rw [hrec, checkFull_full _ _ _ _ m hfull hm]
    · refine Or.inr (Or.inr ⟨hfull, hu, ?_⟩)
      rw [hrec]
      unfold checkFull
      rw [if_neg (fun hne => hne hfull), hu]
  · refine Or.inl ⟨by omega, ?_⟩
    rw [hrec, checkFull_short _ _ _ _ hfull]

theorem feed_sender (p : Nat) (P : List UInt8) (msg : List (List UInt8))
    (hP : P.length < 4294967296) (hmsg : parseArgs P = .ok msg) :
    ∀ (fs : List (List UInt8)) (h : SingleInstanceHandle), fs ≠ [] →
      SenderAt p P fs (h.buffers (u32 p)) → h.avail = [] → h.ctrl = 0 →
      ∃ h', feedFrames fs h = .ok h' ∧ h'.avail = [] ∧ h'.ctrl = 0 ∧ h'.future = h.future ∧
        (∀ k, k ≠ u32 p → h'.buffers k = h.buffers k) ∧ h'.buffers (u32 p) = none ∧
        h'.pending = h.pending ++ [msg] := by
  intro fs
  induction fs with
  | nil => intro h hne; exact absurd rfl hne
  | cons f fs ih =>
    intro h _ hs ha hc
    obtain ⟨h1, hfeed, hav, hctrl, hfut, hbuf, hs', hcase⟩ :=
      feed_step p P msg hP hmsg h f fs fs hs ha hc
    rcases hcase with ⟨hne, hpend⟩ | ⟨hnil, hpend⟩
    · obtain ⟨h', a0, a1, a2, a3, a4, a5, a6⟩ := ih h1 hne hs' hav hctrl
      refine ⟨h', by rw [hfeed, a0], a1, a2, by rw [a3, hfut],
        fun k hk => by rw [a4 k hk, hbuf k hk], a5, by rw [a6, hpend]⟩
    · subst hnil
      refine ⟨h1, by rw [hfeed]; rfl, hav, hctrl, hfut, hbuf, senderAt_done p P _ hs', hpend⟩

theorem feed_message (p : Nat) (A : List (List UInt8)) (g : SingleInstanceHandle)
    (h0 : ∀ s ∈ A, (0 : UInt8) ∉ s) (hs : encodedSize A < 4294967296)
    (hb : g.buffers (u32 p) = none) (ha : g.avail = []) (hc : g.ctrl = 0) :
    feedFrames (sendArgs p A) g = .ok { g with pending := g.pending ++ [withNul A] } := by
  obtain ⟨hP, hmP, hsP, f, fs, heP⟩ := sendArgs_start p A h0 hs
  obtain ⟨h', hf, a1, a2, a3, a4, a5, a6⟩ := feed_sender p _ _ hP hmP (sendArgs p A) g
    (by rw [heP]; exact List.cons_ne_nil _ _) (by rw [hb]; exact hsP) ha hc
  rw [hf]
  have hbuf : h'.buffers = g.buffers := by
    funext k
    by_cases hk : k = u32 p
    · subst hk; rw [a5, hb]
    · exact a4 k hk
  obtain ⟨b, q, a, c, e⟩ := g
  obtain ⟨b', q', a', c', e'⟩ := h'
  simp only at ha hc a1 a2 a3 a6 hbuf
  subst ha hc a1 a2 a3 a6 hbuf
  rfl

/-! ## The properties -/

/-- C1. Round trip of the argument codec. For every list `A` of NUL-free strings
whose length with terminator fits a `uint32_t`, the buffer built by `sendArgs`
is, per argument, the four bytes of `strlen + 1` followed by the string and its
NUL; the loop of `parseArgs` on it ends with the index at the end of the buffer
and returns one buffer per argument, in order, each the string followed by its
terminator. -/
theorem parseArgs_sendArgs_roundtrip (A : List (List UInt8))
    (hA : ∀ s ∈ A, (0 : UInt8) ∉ s ∧ s.length + 1 < 4294967296) :
    sendArgsBuf A = (A.map (fun s => storeU32 (s.length + 1) ++ (s ++ [0]))).flatten ∧
    (∀ s ∈ A, loadU32 (storeU32 (s.length + 1)) = strlen s + 1) ∧
    parseArgsLoop ((sendArgsBuf A).length + 1) (sendArgsBuf A) 0 []
      = .ok ((sendArgsBuf A).length, A.map (fun s => s ++ [0])) ∧
    parseArgs (sendArgsBuf A) = .ok (A.map (fun s => s ++ [0])) ∧
    (A.map (fun s => s ++ [0])).length = A.length := by
  refine ⟨?_, ?_, ?_, parseArgs_sendArgsBuf A hA, List.length_map _ _⟩
  · induction A with
    | nil => rfl
    | cons s rest ih =>
      have hs := hA s (List.mem_cons_self _ _)
      rw [sendArgsBuf_cons_valid s rest hs.1 hs.2, List.map_cons, List.flatten_cons,
        ih (fun t ht => hA t (List.mem_cons_of_mem _ ht)), List.append_assoc]
  · intro s hs
    have h := hA s hs
    have := loadU32_storeU32 (s.length + 1) []
    rw [List.append_nil] at this
    rw [this, strlen_eq_length s h.1]
    unfold u32
    omega
  · have hlen : A.length < (sendArgsBuf A).length + 1 := by
      rw [sendArgsBuf_length A hA]
      clear hA
      induction A with
      | nil => exact Nat.zero_lt_one
      | cons s rest ih => rw [encodedSize_cons, List.length_cons]; omega
    have h := parseArgsLoop_sendArgsBuf A hA ((sendArgsBuf A).length + 1) [] [] hlen
    rw [List.nil_append, List.nil_append] at h
    exact h

/-- C1, at the arguments `ab` and `c`. -/
theorem parseArgs_sendArgs_roundtrip_witness :
    (∀ s ∈ ([[97, 98], [99]] : List (List UInt8)), (0 : UInt8) ∉ s ∧ s.length + 1 < 4294967296) ∧
    parseArgs (sendArgsBuf [[97, 98], [99]]) = .ok [[97, 98, 0], [99, 0]] :=
  ⟨by decide, (parseArgs_sendArgs_roundtrip [[97, 98], [99]] (by decide)).2.2.2.1⟩

/-- C2 as amended. End-to-end delivery from one forwarder: for every sender id
and every list `A` of C strings whose encoding is shorter than `2^32` bytes, when
the frames written by `sendArgs` are the only content of the FIFO of a handle
with empty reassembly map and empty pending queue and no interrupt is sent,
`singleInstanceCheck` with `wait = 1` returns 1 with `argc = |A|` and `argv` the
strings of `A`, each with its terminator; `singleInstancePop` then leaves the
pending queue empty and `singleInstanceCheck` with `wait = 0` returns 0. -/
theorem single_forwarder_delivery (p : Nat) (A : List (List UInt8))
    (h0 : ∀ s ∈ A, (0 : UInt8) ∉ s) (hs : encodedSize A < 4294967296) :
    ∃ h1, singleInstanceCheck (freshHandle (sendArgs p A).flatten []) true
        = .ok ((1, some (A.length, A.map (fun s => s ++ [0]))), h1) ∧
      (A.map (fun s => s ++ [0])).map cstr = A ∧
      (singleInstancePop h1).pending = [] ∧
      singleInstanceCheck (singleInstancePop h1) false
        = .ok ((0, none), singleInstancePop h1) := by
  have hd := check_delivers p A h0 hs (sendArgs p A).flatten []
    (flatten_length_mod _ (sendArgs_frames p A)) (fun c hc => by cases hc)
    (by rw [List.flatten_nil, List.append_nil])
  exact ⟨_, hd, cstr_withNul A h0, rfl, check_idle _ rfl rfl rfl⟩

/-- C2 as amended, at the arguments `demo`, `--open`, `x.txt` from sender 77. -/
theorem single_forwarder_delivery_witness :
    (∀ s ∈ ([[100, 101, 109, 111], [45, 45, 111, 112, 101, 110], [120, 46, 116, 120, 116]] :
        List (List UInt8)), (0 : UInt8) ∉ s) ∧
    encodedSize [[100, 101, 109, 111], [45, 45, 111, 112, 101, 110], [120, 46, 116, 120, 116]]
      < 4294967296 ∧
    ∃ h1, singleInstanceCheck (freshHandle (sendArgs 77
          [[100, 101, 109, 111], [45, 45, 111, 112, 101, 110], [120, 46, 116, 120, 116]]).flatten
          []) true
        = .ok ((1, some (3, [[100, 101, 109, 111, 0], [45, 45, 111, 112, 101, 110, 0],
            [120, 46, 116, 120, 116, 0]])), h1) :=
  ⟨by decide, by decide,
    (single_forwarder_delivery 77
      [[100, 101, 109, 111], [45, 45, 111, 112, 101, 110], [120, 46, 116, 120, 116]]
      (by decide) (by decide)).imp (fun _ h => h.1)⟩

/-- C2 as stated fails for a payload of `2^32` bytes. The single argument of
`hugeArgs` is a C string, yet the length handed to `sendBuf` wraps to 0, one
frame with declared length 0 is written, and `singleInstanceCheck` returns 1
with `argc = 0` and no argument, not the one argument sent. -/
theorem single_forwarder_delivery_wraps :
    (∀ s ∈ hugeArgs, (0 : UInt8) ∉ s) ∧ hugeArgs.length = 1 ∧
    singleInstanceCheck (freshHandle (sendArgs 77 hugeArgs).flatten []) true
      = .ok ((1, some (0, [])),
          { buffers := pidbufmap.empty, pending := [[]], avail := [], ctrl := 0, future := [] }) := by
  refine ⟨hugeArgs_nulfree, rfl, ?_⟩
  rw [sendArgs_hugeArgs]
  exact check_delivers 77 [] (fun s hs => by cases hs) (by decide) (sendArgs 77 []).flatten []
    (flatten_length_mod _ (sendArgs_frames 77 [])) (fun c hc => by cases hc)
    (by rw [List.flatten_nil, List.append_nil])

/-- C3. Frame layout of `sendBuf`. For every sender id `p` and payload `P` of
length `n < 2^32`, `sendBuf` writes one frame for `n ≤ 504` and otherwise
`1 + ⌈(n - 504) / 508⌉`; every frame has 512 bytes and holds `p` in bytes 0-3;
the first holds `n` in bytes 4-7 and the first `min(n, 504)` payload bytes from
byte 8; frame `k + 1` holds the next `min(remaining, 508)` payload bytes from
byte 4; and the chunks carried, in frame order, make up `P`. -/
theorem sendBuf_frame_layout (p : Nat) (P : List UInt8) (hn : P.length < 4294967296) :
    (sendBuf p P P.length).length
      = (if P.length ≤ 504 then 1 else 1 + (P.length - 504 + 507) / 508) ∧
    (∀ f ∈ sendBuf p P P.length, f.length = 512 ∧ f.take 4 = storeU32 p ∧ loadU32 f = u32 p) ∧
    ∃ f0 rest, sendBuf p P P.length = f0 :: rest ∧
      (f0.drop 4).take 4 = storeU32 P.length ∧ loadU32 (f0.drop 4) = P.length ∧
      (f0.drop 8).take (min P.length 504) = P.take (min P.length 504) ∧
      (∀ k f, rest[k]? = some f →
        (f.drop 4).take (min (P.length - 504 - 508 * k) 508)
          = (P.drop (504 + 508 * k)).take (min (P.length - 504 - 508 * k) 508)) ∧
      (f0.drop 8).take (min P.length 504) ++ carriedCont rest (P.length - min P.length 504)
        = P := by
  obtain ⟨f0, rest, he, hff, hc⟩ := sendBuf_shape p P
  have hrl := carries_length _ _ _ hc
  rw [List.length_drop] at hrl
  have htk : P.take (min P.length 504) = P.take 504 := by
    rw [List.take_eq_take]; omega
  refine ⟨?_, ?_, f0, rest, he, hff.2.2.1, ?_, ?_, ?_, ?_⟩
  · rw [he, List.length_cons, hrl]
    split <;> omega
  · intro f hf
    rw [he] at hf
    rcases List.mem_cons.mp hf with rfl | hm
    · exact ⟨hff.1, hff.2.1, loadU32_of_take _ _ hff.2.1⟩
    · have := carries_frames _ _ _ hc f hm
      exact ⟨this.1, this.2, loadU32_of_take _ _ this.2⟩
  · rw [← loadU32_take, hff.2.2.1]
    have := loadU32_storeU32 P.length []
    rw [List.append_nil] at this
    rw [this]
    unfold u32
    omega
  · rw [htk]; exact hff.2.2.2
  · intro k f hk
    have := carries_index _ _ _ hc k f hk
    rw [List.length_drop, List.drop_drop] at this
    rw [this, List.take_eq_take, List.length_drop]
    omega
  · have := carries_concat _ _ _ hc
    rw [List.length_drop] at this
    have e : P.length - min P.length 504 = P.length - 504 := by omega
    rw [hff.2.2.2, e, this, List.take_append_drop]

/-- C3, at the sender 77 and a payload of 1100 bytes: three frames. -/
theorem sendBuf_frame_layout_witness :
    (List.replicate 1100 (5 : UInt8)).length < 4294967296 ∧
    (sendBuf 77 (List.replicate 1100 5) (List.replicate 1100 (5 : UInt8)).length).length
      = (if (List.replicate 1100 (5 : UInt8)).length ≤ 504 then 1
          else 1 + ((List.replicate 1100 (5 : UInt8)).length - 504 + 507) / 508) :=
  ⟨by decide!, (sendBuf_frame_layout 77 (List.replicate 1100 5) (by decide!)).1⟩

/-- C4 as amended. Interleaving safety of the sender tracker: for two distinct
sender ids `p` and `q`, lists `A` and `B` of C strings whose encodings are
shorter than `2^32` bytes, and every schedule that merges the frames of `p`
(`true`) with the frames of `q` (`false`) keeping each sender's order, feeding
the merged frames one per `recvIter` call to a fresh handle ends with an empty
reassembly map and exactly the two messages `A` and `B` in the pending queue,
the one whose last frame arrived first in front. -/
theorem interleaved_senders_deliver (p q : Nat) (A B : List (List UInt8)) (sched : List Bool)
    (hp : p < 4294967296) (hq : q < 4294967296) (hpq : p ≠ q)
    (hA0 : ∀ s ∈ A, (0 : UInt8) ∉ s) (hAs : encodedSize A < 4294967296)
    (hB0 : ∀ s ∈ B, (0 : UInt8) ∉ s) (hBs : encodedSize B < 4294967296)
    (hcP : sched.count true = (sendArgs p A).length)
    (hcQ : sched.count false = (sendArgs q B).length) :
    feedFrames (mergeFrames sched (sendArgs p A) (sendArgs q B)) (freshHandle [] [])
      = .ok { buffers := pidbufmap.empty,
              pending := if sched.getLast? = some false
                then [A.map (fun s => s ++ [0]), B.map (fun s => s ++ [0])]
                else [B.map (fun s => s ++ [0]), A.map (fun s => s ++ [0])],
              avail := [], ctrl := 0, future := [] } ∧
    (A.map (fun s => s ++ [0])).map cstr = A ∧ (B.map (fun s => s ++ [0])).map cstr = B :=
  ⟨feed_interleaved p q A B sched (by unfold u32; omega) hA0 hAs hB0 hBs hcP hcQ,
    cstr_withNul A hA0, cstr_withNul B hB0⟩

/-- C4 as amended, at sender 1 with 300 arguments `abc` (five frames) and sender 2
with the argument `b` (one frame), whose frame arrives between the third and the
fourth frame of sender 1. -/
theorem interleaved_senders_deliver_witness :
    (1 : Nat) < 4294967296 ∧ (2 : Nat) < 4294967296 ∧ (1 : Nat) ≠ 2 ∧
    [true, true, true, false, true, true].count true
      = (sendArgs 1 (List.replicate 300 [97, 98, 99])).length ∧
    [true, true, true, false, true, true].count false = (sendArgs 2 [[98]]).length ∧
    feedFrames (mergeFrames [true, true, true, false, true, true]
        (sendArgs 1 (List.replicate 300 [97, 98, 99])) (sendArgs 2 [[98]])) (freshHandle [] [])
      = .ok { buffers := pidbufmap.empty,
              pending := [[[98, 0]], List.replicate 300 [97, 98, 99, 0]],
              avail := [], ctrl := 0, future := [] } :=
  ⟨by decide, by decide, by decide, by decide!, by decide!, by
    rw [(interleaved_senders_deliver 1 2 (List.replicate 300 [97, 98, 99]) [[98]]
      [true, true, true, false, true, true] (by decide) (by decide) (by decide)
      (by decide!) (by decide!) (by decide) (by decide) (by decide!) (by decide!)).1]
    exact congrArg
      (fun x => (Except.ok (SingleInstanceHandle.mk pidbufmap.empty x [] 0 []) :
        Except Fault SingleInstanceHandle))
      (by decide!)⟩

/-- C4 as stated fails for a payload of `2^32` bytes. Sender 1 sends the one
argument of `hugeArgs`, sender 2 the argument `b`; the frame of sender 1
declares length 0, so the message queued for sender 1 is empty. -/
theorem interleaved_senders_wrap :
    (∀ s ∈ hugeArgs, (0 : UInt8) ∉ s) ∧ hugeArgs.length = 1 ∧
    [true, false].count true = (sendArgs 1 hugeArgs).length ∧
    [true, false].count false = (sendArgs 2 [[98]]).length ∧
    feedFrames (mergeFrames [true, false] (sendArgs 1 hugeArgs) (sendArgs 2 [[98]]))
        (freshHandle [] [])
      = .ok { buffers := pidbufmap.empty, pending := [[], [[98, 0]]], avail := [], ctrl := 0,
              future := [] } := by
  rw [sendArgs_hugeArgs]
  refine ⟨hugeArgs_nulfree, rfl, by decide!, by decide!, ?_⟩
  exact feed_interleaved 1 2 [] [[98]] [true, false] (by decide) (by decide) (by decide)
    (by decide) (by decide) (by decide!) (by decide!)

/-- C5 as amended. Independence of chunk boundaries that are frame boundaries:
for every list `A` of C strings whose encoding is shorter than `2^32` bytes and
every way of splitting the bytes of its frames into chunks that are non-empty
multiples of 512 bytes, made available one at a time, the blocking
`singleInstanceCheck` returns the message `A`, which is then the only one in the
pending queue, and the reassembly map is empty. -/
theorem frame_chunks_deliver (p : Nat) (A : List (List UInt8)) (chunks : List (List UInt8))
    (h0 : ∀ s ∈ A, (0 : UInt8) ∉ s) (hs : encodedSize A < 4294967296)
    (hch : ∀ c ∈ chunks, c ≠ [] ∧ c.length % 512 = 0)
    (hb : chunks.flatten = (sendArgs p A).flatten) :
    singleInstanceCheck (freshHandle [] (chunks.map Event.data)) true
      = .ok ((1, some (A.length, A.map (fun s => s ++ [0]))),
          { buffers := pidbufmap.empty, pending := [A.map (fun s => s ++ [0])], avail := [],
            ctrl := 0, future := [] }) ∧
    (A.map (fun s => s ++ [0])).map cstr = A :=
  ⟨check_delivers p A h0 hs [] chunks rfl hch (by rw [List.nil_append]; exact hb),
    cstr_withNul A h0⟩

/-- C5 as amended, at 300 arguments `abc` from sender 77, whose five frames
arrive as a chunk of two frames and a chunk of three. -/
theorem frame_chunks_deliver_witness :
    (∀ s ∈ List.replicate 300 ([97, 98, 99] : List UInt8), (0 : UInt8) ∉ s) ∧
    encodedSize (List.replicate 300 [97, 98, 99]) < 4294967296 ∧
    (∀ c ∈ [(sendArgs 77 (List.replicate 300 [97, 98, 99])).flatten.take 1024,
        (sendArgs 77 (List.replicate 300 [97, 98, 99])).flatten.drop 1024],
      c ≠ [] ∧ c.length % 512 = 0) ∧
    observe (singleInstanceCheck (freshHandle []
        ([(sendArgs 77 (List.replicate 300 [97, 98, 99])).flatten.take 1024,
          (sendArgs 77 (List.replicate 300 [97, 98, 99])).flatten.drop 1024].map Event.data))
        true)
      = some { ret := 1, argc := some 300, argv := some (List.replicate 300 [97, 98, 99, 0]),
               pending := [List.replicate 300 [97, 98, 99, 0]] } :=
  ⟨by decide!, by decide!, by decide!, by
    rw [(frame_chunks_deliver 77 (List.replicate 300 [97, 98, 99])
      [(sendArgs 77 (List.replicate 300 [97, 98, 99])).flatten.take 1024,
        (sendArgs 77 (List.replicate 300 [97, 98, 99])).flatten.drop 1024]
      (by decide!) (by decide!) (by decide!)
      (by rw [List.flatten_cons, List.flatten_cons, List.flatten_nil, List.append_nil,
        List.take_append_drop])).1]
    decide!⟩

/-- C5 as stated fails when a chunk boundary falls inside a frame. The one frame
for the argument `ab` from sender 77 arrives as its first 10 bytes and then its
other 502 bytes: the read of the 7 payload bytes returns 2, `recvIter` gives the
frame up, the rest is taken for a new frame of another sender with declared
length 0, and `singleInstanceCheck` returns an empty message, not `ab`. -/
theorem split_inside_frame_loses_message :
    [(sendArgs 77 [[97, 98]]).flatten.take 10, (sendArgs 77 [[97, 98]]).flatten.drop 10].flatten
      = (sendArgs 77 [[97, 98]]).flatten ∧
    (∀ c ∈ [(sendArgs 77 [[97, 98]]).flatten.take 10, (sendArgs 77 [[97, 98]]).flatten.drop 10],
      c ≠ []) ∧
    observe (singleInstanceCheck (freshHandle []
        [Event.data ((sendArgs 77 [[97, 98]]).flatten.take 10),
          Event.data ((sendArgs 77 [[97, 98]]).flatten.drop 10)]) true)
      = some { ret := 1, argc := some 0, argv := some [], pending := [[]] } := by
  refine ⟨?_, ?_, ?_⟩
  · rw [List.flatten_cons, List.flatten_cons, List.flatten_nil, List.append_nil,
      List.take_append_drop]
  · decide!
  · decide!

/-- C6, the failing input. Without `HOME` and `USER` the function returns `NULL`
and leaves `*error` at `NULL`, whatever the system calls would do, and sends
nothing: the outcome documented for a running instance, although no lock was
tried and no argument forwarded. -/
theorem create_without_home_and_user (mk : MkfifoResult) (st : StatResult) (op : Bool)
    (lk : LockResult) (txt : String) (pid : Nat) (argv : List (List UInt8)) :
    (singleInstanceCreate
        { home := none, user := none, mkfifo := mk, stat := st, openLock := op, lockf := lk,
          strerror := txt } pid argv).handle = none ∧
    (singleInstanceCreate
        { home := none, user := none, mkfifo := mk, stat := st, openLock := op, lockf := lk,
          strerror := txt } pid argv).error = none ∧
    (singleInstanceCreate
        { home := none, user := none, mkfifo := mk, stat := st, openLock := op, lockf := lk,
          strerror := txt } pid argv).sent = [] :=
  ⟨rfl, rfl, rfl⟩

/-- C7. An interrupt is consumed exactly once. On a handle with empty pending
queue and empty control pipe, after one `singleInstanceStopWait` the blocking
`singleInstanceCheck` returns 0 and leaves the handle exactly as it was before
the interrupt: the control byte is consumed, the FIFO is not read (whatever it
holds), the reassembly map and the pending queue are unchanged. The following
blocking check therefore runs on that handle; it is not stopped by the bound on
its loop, and whenever it returns it either returns 1 with a message in the
pending queue or returns 0 after a further call of `singleInstanceStopWait`. -/
theorem interrupt_consumed_once (h : SingleInstanceHandle)
    (hp : h.pending = []) (hc : h.ctrl = 0) :
    singleInstanceCheck (singleInstanceStopWait h) true = .ok ((0, none), h) ∧
    singleInstanceCheck h true ≠ .error .fuel ∧
    ∀ res h2, singleInstanceCheck h true = .ok (res, h2) →
      (res.1 = 1 ∧ h2.pending ≠ []) ∨
        (res = (0, none) ∧ h2.pending = [] ∧
          futureStops h2.future < futureStops h.future) :=
  ⟨check_after_stop h hp hc, singleInstanceCheck_fuel h true,
    fun res h2 hr => check_returns h h2 res hp hc hr⟩

/-- C7, at a handle whose FIFO holds a whole message when the interrupt comes. -/
theorem interrupt_consumed_once_witness :
    (freshHandle (sendArgs 77 [[97]]).flatten []).pending = [] ∧
    (freshHandle (sendArgs 77 [[97]]).flatten []).ctrl = 0 ∧
    observe (singleInstanceCheck
        (singleInstanceStopWait (freshHandle (sendArgs 77 [[97]]).flatten [])) true)
      = some { ret := 0, argc := none, argv := none, pending := [] } ∧
    observe (singleInstanceCheck (freshHandle (sendArgs 77 [[97]]).flatten []) true)
      = some { ret := 1, argc := some 1, argv := some [[97, 0]], pending := [[[97, 0]]] } :=
  ⟨rfl, rfl, by
    rw [(interrupt_consumed_once (freshHandle (sendArgs 77 [[97]]).flatten []) rfl rfl).1]
    rfl, by decide!⟩

/-- C8 as amended. Invariant of the reassembly buffers. In every handle state
reached from a fresh handle by feeding whole 512-byte frames through `recvIter`,
every entry of the reassembly map has received fewer bytes than the size of its
storage. The next whole frame `f` leads to an entry `(first, vec)` for its
sender: for a sender without entry the storage has the length declared in
bytes 4-7 and holds the first `min(len, 504)` bytes from byte 8; for a sender
with an entry the size of the storage is kept and `min(remaining, 508)` bytes
from byte 4 are stored behind the bytes received before, the rest of the frame
being dropped. With `first < size` the entry stays in the map and the queue is
unchanged; with `first = size` and a storage on which `parseArgs` stays inside
the storage, the entry is erased and exactly one message, the parsed storage,
is appended to the pending queue; on any other full storage `parseArgs` reads
outside it and the behaviour is undefined. -/
theorem reassembly_buffer_invariant (fs : List (List UInt8)) (f : List UInt8)
    (hfs : ∀ g ∈ fs, g.length = 512) (hf : f.length = 512) :
    ∀ h, feedFrames fs (freshHandle [] []) = .ok h →
      (∀ k first vec, h.buffers k = some (first, vec) →
        first < vec.length ∧ vec.length < 4294967296) ∧
      ∃ first vec, first ≤ vec.length ∧ vec.length < 4294967296 ∧
        (h.buffers (loadU32 f) = none →
          vec.length = loadU32 (f.drop 4) ∧ first = min (loadU32 (f.drop 4)) 504 ∧
          vec = (f.drop 8).take first ++ List.replicate (vec.length - first) 0) ∧
        (∀ first0 vec0, h.buffers (loadU32 f) = some (first0, vec0) →
          vec.length = vec0.length ∧ first = first0 + min (vec0.length - first0) 508 ∧
          vec = vec0.take first0 ++ (f.drop 4).take (first - first0) ++ vec0.drop first) ∧
        ((first < vec.length ∧
            recvIter { h with avail := h.avail ++ f } true
              = .ok (1, { h with buffers := h.buffers.set (loadU32 f) (first, vec) })) ∨
          (first = vec.length ∧ ∃ m, parseArgs vec = .ok m ∧
            recvIter { h with avail := h.avail ++ f } true
              = .ok (0, { h with pending := h.pending ++ [m],
                                 buffers := h.buffers.erase (loadU32 f) })) ∨
          (first = vec.length ∧ parseArgs vec = .error .undefined ∧
            recvIter { h with avail := h.avail ++ f } true = .error .undefined)) := by
  intro h hr
  obtain ⟨hinv, ha, hc⟩ := feedFrames_inv fs _ h hfs (bufInv_fresh [] []) rfl rfl hr
  exact ⟨hinv, recvIter_frame_facts h f hinv ha hc hf⟩

/-- C8 as amended, at the first frame of a five-frame message as the state
reached and its second frame as the next one. -/
theorem reassembly_buffer_invariant_witness :
    (∀ g ∈ (sendArgs 77 (List.replicate 300 [97, 98, 99])).take 1, g.length = 512) ∧
    ((sendArgs 77 (List.replicate 300 [97, 98, 99])).getD 1 []).length = 512 ∧
    ∀ h, feedFrames ((sendArgs 77 (List.replicate 300 [97, 98, 99])).take 1)
        (freshHandle [] []) = .ok h →
      ∀ k first vec, h.buffers k = some (first, vec) →
        first < vec.length ∧ vec.length < 4294967296 :=
  ⟨by decide!, by decide!, fun h hr =>
    (reassembly_buffer_invariant ((sendArgs 77 (List.replicate 300 [97, 98, 99])).take 1)
      ((sendArgs 77 (List.replicate 300 [97, 98, 99])).getD 1 []) (by decide!) (by decide!)
      h hr).1⟩

/-- C8 as stated fails for a frame whose payload is no argument encoding. One
frame from sender 77 declares the length 1 and carries the byte 7: the entry is
full at once, and `parseArgs` reads a four-byte length from the one-byte
storage, which is undefined behaviour; no message is appended. -/
theorem malformed_payload_is_undefined :
    (storeU32 77 ++ storeU32 1 ++ [7] ++ List.replicate 503 (0 : UInt8)).length = 512 ∧
    faultOf (feedFrames [storeU32 77 ++ storeU32 1 ++ [7] ++ List.replicate 503 (0 : UInt8)]
        (freshHandle [] []))
      = some Fault.undefined ∧
    faultOf (recvIter (freshHandle
        (storeU32 77 ++ storeU32 1 ++ [7] ++ List.replicate 503 (0 : UInt8)) []) true)
      = some Fault.undefined := by
  refine ⟨?_, ?_, ?_⟩ <;> decide!

/-- C9. Teardown discards every unconsumed message. Every handle a program can
hold, that is every handle reached from the one `singleInstanceCreate` returns
by calls of `singleInstanceCheck`, `singleInstancePop` and
`singleInstanceStopWait` while bytes arrive, has `n ≤ 1` messages in its pending
queue: `singleInstanceCheck` receives only while the queue is empty and stops
at the first message queued. For every such handle `singleInstanceDestroy`
releases the argument buffers of all `n` pending messages, as its call of
`singleInstancePop` does, which leaves the queue empty; no argument buffer is
still allocated when the handle is deleted. -/
theorem destroy_releases_all (h : SingleInstanceHandle) (hr : Reachable h) :
    h.pending.length ≤ 1 ∧
    singleInstanceDestroy h = (h.pending.flatten, []) ∧
    popFreed h = h.pending.flatten ∧
    (singleInstancePop h).pending = [] := by
  have hq := reachable_queue h hr
  obtain ⟨hd, hpop⟩ := destroy_short_queue h hq
  refine ⟨hq, hd, ?_, hpop⟩
  have := congrArg Prod.fst hd
  exact this

/-- C9, at the handle a blocking check leaves after the message `a` of sender 77
arrived: its one pending message is released. -/
theorem destroy_releases_all_witness :
    Reachable { buffers := pidbufmap.empty, pending := [[[97, 0]]], avail := [], ctrl := 0,
                future := [] } ∧
    singleInstanceDestroy { buffers := pidbufmap.empty, pending := [[[97, 0]]], avail := [],
                            ctrl := 0, future := [] }
      = ([[97, 0]], []) :=
  ⟨Reachable.check (freshHandle (sendArgs 77 [[97]]).flatten []) _ true (1, some (1, [[97, 0]]))
      (Reachable.create _ _)
      (check_delivers 77 [[97]] (by decide) (by decide) (sendArgs 77 [[97]]).flatten []
        (flatten_length_mod _ (sendArgs_frames 77 [[97]])) (fun c hc => by cases hc)
        (by rw [List.flatten_nil, List.append_nil])),
    (destroy_releases_all _
      (Reachable.check (freshHandle (sendArgs 77 [[97]]).flatten []) _ true
        (1, some (1, [[97, 0]])) (Reachable.create _ _)
        (check_delivers 77 [[97]] (by decide) (by decide) (sendArgs 77 [[97]]).flatten []
          (flatten_length_mod _ (sendArgs_frames 77 [[97]])) (fun c hc => by cases hc)
          (by rw [List.flatten_nil, List.append_nil])))).2.1⟩

/-- C10. The pending queue is first-in first-out and a check is idempotent until
the pop. With the pending queue `m1 :: rest`, `singleInstanceCheck` with any
`wait` returns 1 with `argc`, `argv` describing `m1` and leaves the handle,
descriptors included, as it is; `singleInstancePop` leaves exactly `rest` and
changes nothing else; `singleInstancePop` on an empty queue changes nothing. A
call of `recvIter` leaves the queue as it is or appends one message at its back.
On a whole frame it appends exactly when the frame fills the entry of its
sender, and the message appended at the back is the parsed storage of that
entry; the frames `sendArgs` writes for the arguments `A` append the message `A`
at the back of any queue. With a message `m` appended, the check still reports
`m1` and the pop leaves `rest` followed by `m`: messages are consumed in the
order in which they completed. -/
theorem pending_queue_fifo (h : SingleInstanceHandle) (m1 : List (List UInt8))
    (rest : List (List (List UInt8))) (wait : Bool) (hp : h.pending = m1 :: rest) :
    singleInstanceCheck h wait = .ok ((1, some (m1.length, m1)), h) ∧
    singleInstancePop h = { h with pending := rest } ∧
    (∀ g : SingleInstanceHandle, g.pending = [] → singleInstancePop g = g) ∧
    (∀ (g g1 : SingleInstanceHandle) (w : Bool) (r : Int), recvIter g w = .ok (r, g1) →
      g1.pending = g.pending ∨ ∃ m, g1.pending = g.pending ++ [m]) ∧
    (∀ (g : SingleInstanceHandle) (f tail : List UInt8) (w : Bool),
      BufInv g → g.ctrl = 0 → f.length = 512 → g.avail = f ++ tail →
      ∃ first vec, first ≤ vec.length ∧
        (g.buffers (loadU32 f) = none →
          vec.length = loadU32 (f.drop 4) ∧ first = min (loadU32 (f.drop 4)) 504 ∧
          vec = (f.drop 8).take first ++ List.replicate (vec.length - first) 0) ∧
        (∀ first0 vec0, g.buffers (loadU32 f) = some (first0, vec0) →
          vec.length = vec0.length ∧ first = first0 + min (vec0.length - first0) 508 ∧
          vec = vec0.take first0 ++ (f.drop 4).take (first - first0) ++ vec0.drop first) ∧
        ((first < vec.length ∧
            recvIter g w
              = .ok (1, { g with avail := tail,
                                 buffers := g.buffers.set (loadU32 f) (first, vec) })) ∨
          (first = vec.length ∧ ∃ m, parseArgs vec = .ok m ∧
            recvIter g w
              = .ok (0, { g with avail := tail, pending := g.pending ++ [m],
                                 buffers := g.buffers.erase (loadU32 f) })) ∨
          (first = vec.length ∧ parseArgs vec = .error .undefined ∧
            recvIter g w = .error .undefined))) ∧
    (∀ (g : SingleInstanceHandle) (p : Nat) (A : List (List UInt8)),
      (∀ s ∈ A, (0 : UInt8) ∉ s) → encodedSize A < 4294967296 →
      g.buffers (u32 p) = none → g.avail = [] → g.ctrl = 0 →
      feedFrames (sendArgs p A) g
        = .ok { g with pending := g.pending ++ [A.map (fun s => s ++ [0])] }) ∧
    (∀ m : List (List UInt8),
      singleInstanceCheck { h with pending := h.pending ++ [m] } wait
        = .ok ((1, some (m1.length, m1)), { h with pending := h.pending ++ [m] }) ∧
      singleInstancePop { h with pending := h.pending ++ [m] }
        = { h with pending := rest ++ [m] }) := by
  have key : ∀ (k : SingleInstanceHandle) (a : List (List UInt8))
      (b : List (List (List UInt8))), k.pending = a :: b →
      singleInstanceCheck k wait = .ok ((1, some (a.length, a)), k) ∧
      singleInstancePop k = { k with pending := b } := by
    intro k a b hk
    refine ⟨?_, ?_⟩
    · unfold singleInstanceCheck
      rw [if_pos (by rw [hk]; exact Nat.succ_ne_zero _)]
      unfold report
      rw [hk]
    · unfold singleInstancePop
      rw [hk]
  refine ⟨(key h m1 rest hp).1, (key h m1 rest hp).2, ?_, ?_, ?_, ?_, ?_⟩
  · intro g hg
    unfold singleInstancePop
    rw [hg]
  · intro g g1 w r hr
    rcases recvIter_effect g g1 w r hr with ⟨_, _, hpend, _⟩ | ⟨_, ⟨hpend, _⟩ | ⟨_, m, hm⟩⟩
    · exact Or.inl hpend
    · exact Or.inl hpend
    · exact Or.inr ⟨m, hm⟩
  · intro g f tail w hinv hc hf ha
    obtain ⟨first, vec, hle, _, hnew, hold, hcase⟩ :=
      recvIter_whole_frame g f tail w hinv hc hf ha
    exact ⟨first, vec, hle, hnew, hold, hcase⟩
  · intro g p A h0 hs hb ha hc
    exact feed_message p A g h0 hs hb ha hc
  · intro m
    have hq : ({ h with pending := h.pending ++ [m] } : SingleInstanceHandle).pending
        = m1 :: (rest ++ [m]) := by
      show h.pending ++ [m] = _
      rw [hp]; rfl
    exact ⟨(key _ m1 (rest ++ [m]) hq).1, (key _ m1 (rest ++ [m]) hq).2⟩

/-- C10, at a queue holding the message `a` when the frame of sender 77 with the
message `b` is received: `b` is appended behind `a`, both kinds of check report
`a`, and the pop leaves `b`. -/
theorem pending_queue_fifo_witness :
    ({ buffers := pidbufmap.empty, pending := [[[97, 0]]], avail := [], ctrl := 0,
       future := [] } : SingleInstanceHandle).pending = [[97, 0]] :: [] ∧
    feedFrames (sendArgs 77 [[98]])
        { buffers := pidbufmap.empty, pending := [[[97, 0]]], avail := [], ctrl := 0,
          future := [] }
      = .ok { buffers := pidbufmap.empty, pending := [[[97, 0]], [[98, 0]]], avail := [],
              ctrl := 0, future := [] } ∧
    observe (singleInstanceCheck
        { buffers := pidbufmap.empty, pending := [[[97, 0]], [[98, 0]]], avail := [], ctrl := 0,
          future := [] } false)
      = some { ret := 1, argc := some 1, argv := some [[97, 0]],
               pending := [[[97, 0]], [[98, 0]]] } ∧
    (singleInstancePop
        { buffers := pidbufmap.empty, pending := [[[97, 0]], [[98, 0]]], avail := [], ctrl := 0,
          future := [] }).pending = [[[98, 0]]] :=
  ⟨rfl,
    (pending_queue_fifo
      { buffers := pidbufmap.empty, pending := [[[97, 0]]], avail := [], ctrl := 0,
        future := [] } [[97, 0]] [] false rfl).2.2.2.2.2.1
      { buffers := pidbufmap.empty, pending := [[[97, 0]]], avail := [], ctrl := 0,
        future := [] } 77 [[98]] (by decide) (by decide) rfl rfl rfl,
    (congrArg observe ((pending_queue_fifo
        { buffers := pidbufmap.empty, pending := [[[97, 0]]], avail := [], ctrl := 0,
          future := [] } [[97, 0]] [] false rfl).2.2.2.2.2.2 [[98, 0]]).1).trans rfl,
    rfl⟩

/-- C11 as amended. The non-blocking check polls until a poll ends the round.
For every handle with empty pending queue, `singleInstanceCheck` with `wait = 0`
calls `recvIter` with a non-blocking poll. A call that returns 0 or -1 (nothing
to read, a frame that completes a message, a payload read that comes short, an
interrupt) is the last one: the check returns what is true after it. A call
that returns 1 (a frame that does not complete a message, or a short read that
reopens the channel) leaves the queue empty and is followed by a further call,
as if the check were called again. A call that does not return makes the check
not return. Whenever the check returns, it returns 1 if and only if the pending
queue is non-empty then, and the bound on its loop never stops it. Each call of
`recvIter` takes a prefix of at most 512 bytes, one frame, from the bytes of the
FIFO and leaves the rest in their order. What a call reads goes through the
tracker: with a whole frame `f` at the front of the FIFO and no interrupt, the
entry of the sender `loadU32 f` is created from the length word and the first
504 payload bytes, or extended by up to 508 bytes; while the entry is short of
its length the call stores it and returns 1, and the check goes on as on the
handle so left; when the entry is full the call erases it and queues its parsed
storage `m`, and the check returns 1 with `m`; a full entry that is no argument
encoding makes the check undefined. -/
theorem nonblocking_check_repeats (h : SingleInstanceHandle) (hp : h.pending = []) :
    (∀ r h1, recvIter h false = .ok (r, h1) → r ≠ 1 →
      singleInstanceCheck h false = .ok (report h1, h1) ∧
      singleInstanceCheck h false = checkPollOnce h) ∧
    (∀ h1, recvIter h false = .ok (1, h1) →
      h1.pending = [] ∧ singleInstanceCheck h false = singleInstanceCheck h1 false) ∧
    (∀ e, recvIter h false = .error e → singleInstanceCheck h false = .error e) ∧
    (∀ res h1, singleInstanceCheck h false = .ok (res, h1) →
      res = report h1 ∧ (res.1 = 1 ↔ h1.pending ≠ [])) ∧
    singleInstanceCheck h false ≠ .error .fuel ∧
    (∀ r h1, recvIter h false = .ok (r, h1) →
      (r = -1 ∨ r = 0 ∨ r = 1) ∧
      ∃ taken, streamOf h = taken ++ streamOf h1 ∧ taken.length ≤ 512) ∧
    (∀ f rest : List UInt8, BufInv h → h.ctrl = 0 → f.length = 512 → h.avail = f ++ rest →
      ∃ first vec, first ≤ vec.length ∧
        (h.buffers (loadU32 f) = none →
          vec.length = loadU32 (f.drop 4) ∧ first = min (loadU32 (f.drop 4)) 504 ∧
          vec = (f.drop 8).take first ++ List.replicate (vec.length - first) 0) ∧
        (∀ first0 vec0, h.buffers (loadU32 f) = some (first0, vec0) →
          vec.length = vec0.length ∧ first = first0 + min (vec0.length - first0) 508 ∧
          vec = vec0.take first0 ++ (f.drop 4).take (first - first0) ++ vec0.drop first) ∧
        ((first < vec.length ∧
            recvIter h false
              = .ok (1, { h with avail := rest,
                                 buffers := h.buffers.set (loadU32 f) (first, vec) }) ∧
            singleInstanceCheck h false
              = singleInstanceCheck
                  { h with avail := rest,
                           buffers := h.buffers.set (loadU32 f) (first, vec) } false) ∨
          (first = vec.length ∧ ∃ m, parseArgs vec = .ok m ∧
            recvIter h false
              = .ok (0, { h with avail := rest, pending := [m],
                                 buffers := h.buffers.erase (loadU32 f) }) ∧
            singleInstanceCheck h false
              = .ok ((1, some (m.length, m)),
                     { h with avail := rest, pending := [m],
                              buffers := h.buffers.erase (loadU32 f) })) ∨
          (first = vec.length ∧ parseArgs vec = .error .undefined ∧
            recvIter h false = .error .undefined ∧
            singleInstanceCheck h false = .error .undefined))) := by
  refine ⟨?_, fun h1 hr => check_poll_again h h1 hp hr,
    fun e hr => check_poll_error h e hp hr,
    fun res h1 hr => check_reports h h1 false res hr, singleInstanceCheck_fuel h false,
    fun r h1 hr => ⟨?_, recvIter_bytes h h1 false r hr⟩, ?_⟩
  · intro r h1 hr h1r
    have hstop := check_poll_stop h h1 r hp hr h1r
    refine ⟨hstop, ?_⟩
    rw [hstop]
    unfold checkPollOnce
    rw [if_neg (by rw [hp]; simp), hr]
  · rcases recvIter_ret h h1 false r hr with h1 | h1 | h1
    · exact Or.inl h1
    · exact Or.inr (Or.inl h1)
    · exact Or.inr (Or.inr h1)
  · intro f rest hinv hc hf ha
    obtain ⟨first, vec, hle, _, hnew, hold, hcase⟩ :=
      recvIter_whole_frame h f rest false hinv hc hf ha
    refine ⟨first, vec, hle, hnew, hold, ?_⟩
    rcases hcase with ⟨hlt, hr⟩ | ⟨hfull, m, hm, hr⟩ | ⟨hfull, hu, hr⟩
    · exact Or.inl ⟨hlt, hr, (check_poll_again h _ hp hr).2⟩
    · rw [hp] at hr
      exact Or.inr (Or.inl ⟨hfull, m, hm, hr, check_poll_stop h _ 0 hp hr (by decide)⟩)
    · exact Or.inr (Or.inr ⟨hfull, hu, hr, check_poll_error h _ hp hr⟩)

/-- C11 as amended, at the two frames of a message of 100 arguments from sender 77
in the FIFO: the first poll takes the first frame, stores the entry of the
sender short of its length and returns 1 with 512 bytes left and the queue
empty; the check goes on as on the handle so left, where it returns 1 with the
message. -/
theorem nonblocking_check_repeats_witness :
    (freshHandle (sendArgs 77 (List.replicate 100 [97, 98, 99])).flatten []).pending = [] ∧
    ∃ h1 : SingleInstanceHandle,
      recvIter (freshHandle (sendArgs 77 (List.replicate 100 [97, 98, 99])).flatten []) false
        = .ok (1, h1) ∧
      h1.avail.length = 512 ∧ h1.pending = [] ∧
      (∃ vec, h1.buffers 77 = some (504, vec) ∧ vec.length = 800) ∧
      singleInstanceCheck
          (freshHandle (sendArgs 77 (List.replicate 100 [97, 98, 99])).flatten []) false
        = singleInstanceCheck h1 false ∧
      observe (singleInstanceCheck h1 false)
        = some { ret := 1, argc := some 100, argv := some (List.replicate 100 [97, 98, 99, 0]),
                 pending := [List.replicate 100 [97, 98, 99, 0]] } := by
  have hpid : loadU32 ((sendArgs 77 (List.replicate 100 [97, 98, 99])).flatten.take 512) = 77 := by
    decide!
  have hlen : loadU32 (((sendArgs 77 (List.replicate 100 [97, 98, 99])).flatten.take 512).drop 4)
      = 800 := by decide!
  have hf : ((sendArgs 77 (List.replicate 100 [97, 98, 99])).flatten.take 512).length = 512 := by
    decide!
  have hrest : ((sendArgs 77 (List.replicate 100 [97, 98, 99])).flatten.drop 512).length
      = 512 := by decide!
  have hobs : observe (singleInstanceCheck
      (freshHandle (sendArgs 77 (List.replicate 100 [97, 98, 99])).flatten []) false)
      = some { ret := 1, argc := some 100, argv := some (List.replicate 100 [97, 98, 99, 0]),
               pending := [List.replicate 100 [97, 98, 99, 0]] } := by decide!
  generalize (sendArgs 77 (List.replicate 100 [97, 98, 99])).flatten = X at hpid hlen hf hrest hobs ⊢
  generalize hm : List.replicate 100 [(97 : UInt8), 98, 99, 0] = M at hobs ⊢
  refine ⟨rfl, ?_⟩
  obtain ⟨first, vec, _, hnew, _, hcase⟩ :=
    (nonblocking_check_repeats (freshHandle X []) rfl).2.2.2.2.2.2
      (X.take 512) (X.drop 512) (bufInv_fresh _ _) rfl hf (List.take_append_drop 512 _).symm
  obtain ⟨hvl, hfirst, _⟩ := hnew rfl
  rw [hlen] at hvl hfirst
  have hfirst504 : first = 504 := by omega
  rcases hcase with ⟨_, hr, hchk⟩ | ⟨hfull, _⟩ | ⟨hfull, _⟩
  · refine ⟨_, hr, hrest, rfl, ⟨vec, ?_, hvl⟩, hchk, ?_⟩
    · show pidbufmap.set _ (loadU32 _) (first, vec) 77 = some (504, vec)
      rw [hpid, hfirst504]
      unfold pidbufmap.set
      rw [if_pos rfl]
    · rw [← hchk]
      exact hobs
  · omega
  · omega

/-- C11 as stated fails when the FIFO holds a frame that does not complete a
message. The two frames of a message of 100 arguments `abc` from sender 77 are
in the FIFO: one call of `recvIter` takes the first frame, returns 1 and leaves
512 bytes and an empty queue, so one poll would report 0; `singleInstanceCheck`
with `wait = 0` calls `recvIter` again, takes the second frame as well and
returns 1 with the message. -/
theorem nonblocking_check_polls_twice :
    (sendArgs 77 (List.replicate 100 [97, 98, 99])).length = 2 ∧
    leftUnread (recvIter (freshHandle (sendArgs 77 (List.replicate 100 [97, 98, 99])).flatten [])
        false) = some 512 ∧
    observe (checkPollOnce (freshHandle (sendArgs 77 (List.replicate 100 [97, 98, 99])).flatten
        []))
      = some { ret := 0, argc := none, argv := none, pending := [] } ∧
    leftUnread (singleInstanceCheck
        (freshHandle (sendArgs 77 (List.replicate 100 [97, 98, 99])).flatten []) false)
      = some 0 ∧
    observe (singleInstanceCheck
        (freshHandle (sendArgs 77 (List.replicate 100 [97, 98, 99])).flatten []) false)
      = some { ret := 1, argc := some 100, argv := some (List.replicate 100 [97, 98, 99, 0]),
               pending := [List.replicate 100 [97, 98, 99, 0]] } := by
  refine ⟨?_, ?_, ?_, ?_, ?_⟩ <;> decide!

end SingleInstance
